import Mathlib

/-!
Verification of the bookmark-manager data layer (folder hierarchy engine,
bookmark query engine, Firefox-JSON exchange mapper) against its
natural-language specification.

The Python services operate on a SQLite store.  We embed the store shallowly:
each table is a list of records (list order models rowid/insertion order,
which is the order SQLite returns rows in for the unindexed scans these
queries perform), SQL `NULL` is `Option.none`, and machine strings are Lean
`String`s.  The application never executes `PRAGMA foreign_keys = ON`, so the
foreign-key actions declared in the schema (`ON DELETE SET NULL` /
`ON DELETE CASCADE`) never fire at runtime; deletes therefore remove rows
from exactly one table, and the embedding mirrors that.

Unbounded Python recursion (descendant collection) is embedded with explicit
fuel; a `none` result models non-termination.  `uuid.uuid4` is modelled by an
injective generator of fresh identifiers fed from a counter.
-/

/-! ## Character/string helpers

SQLite compares TEXT with the BINARY collation: byte-wise UTF-8 order, which
coincides with code-point order.  `LIKE` folds ASCII letters only.
Python `str.strip()` removes leading/trailing whitespace. -/

/-- Byte-wise (code-point) comparison of strings as used by SQLite `ORDER BY`
on TEXT columns: strict version. -/
def charListLt : List Char → List Char → Bool
  | [], [] => false
  | [], _ :: _ => true
  | _ :: _, [] => false
  | a :: as, b :: bs =>
    if a.val < b.val then true
    else if b.val < a.val then false
    else charListLt as bs

/-- Byte-wise (code-point) comparison of strings: non-strict version. -/
def charListLe (a b : List Char) : Bool := !(charListLt b a)

/-- ASCII-only lower-casing, as performed by SQLite's `LIKE` comparison
(`sqlite3UpperToLower` folds only the bytes `A`-`Z`). -/
def sqliteLower (c : Char) : Char :=
  if 65 ≤ c.toNat ∧ c.toNat ≤ 90 then Char.ofNat (c.toNat + 32) else c

/-- Python `str.strip()`: drop leading and trailing whitespace. -/
def pyStrip (s : String) : String :=
  String.mk ((((s.toList.dropWhile Char.isWhitespace).reverse).dropWhile
    Char.isWhitespace).reverse)

/-! ## Data model (tables) -/

/-- A row of the `folders` table: `folders(id, name, parent_id, created_at)`.
`parent_id` is nullable and self-referential. -/
structure Folder where
  id : String
  name : String
  parent_id : Option String
  created_at : Nat
deriving DecidableEq, Repr

/-- A row of the `tags` table: `tags(id, name, created_at)`. -/
structure Tag where
  id : String
  name : String
  created_at : Nat
deriving DecidableEq, Repr

/-- A row of the `bookmarks` table:
`bookmarks(id, url, title, description, favicon, folder_id, pinned,
created_at)`.  `pinned` is an SQLite INTEGER 0/1, embedded as `Bool`. -/
structure Bookmark where
  id : String
  url : String
  title : String
  description : Option String
  favicon : Option String
  folder_id : Option String
  pinned : Bool
  created_at : Nat
deriving DecidableEq, Repr

/-- The whole relational store.  `bookmark_tags` is the join table keyed by
`(bookmark_id, tag_id)`. -/
structure Store where
  folders : List Folder
  tags : List Tag
  bookmarks : List Bookmark
  bookmark_tags : List (String × String)
deriving DecidableEq, Repr

/-! ## Folder service: descendant collection

`get_folder_with_descendants` (folder_service.py:124-144) recursively
collects the ids of a folder and all of its descendants:

    def get_descendants(parent_id):
        children = db.execute('SELECT id FROM folders WHERE parent_id = ?',
                              (parent_id,)).fetchall()
        ids = [parent_id]
        for child in children:
            ids.extend(get_descendants(child['id']))
        return ids

The recursion is unbounded; we embed it with fuel, one unit per tree level,
matching the Python call depth.  `none` models non-termination (a cyclic
stored parent relation). -/

/-- Child ids of `pid`: `SELECT id FROM folders WHERE parent_id = ?`. -/
def childIds (fs : List Folder) (pid : String) : List String :=
  (fs.filter (fun f => f.parent_id = some pid)).map (fun f => f.id)

/-- Fueled embedding of the recursive descendant collection.  The inner fold
realizes the `for child in children: ids.extend(...)` loop, failing if any
child's collection fails. -/
def descendOne (fs : List Folder) : Nat → String → Option (List String)
  | 0, _ => none
  | n + 1, pid =>
    ((childIds fs pid).foldr
      (fun c acc =>
        match descendOne fs n c, acc with
        | some d, some rest => some (d ++ rest)
        | _, _ => none)
      (some [])).map (fun l => pid :: l)

/-- The child loop of `descendOne`, as a standalone function. -/
def descendKids (fs : List Folder) (n : Nat) (ids : List String) :
    Option (List String) :=
  ids.foldr
    (fun c acc =>
      match descendOne fs n c, acc with
      | some d, some rest => some (d ++ rest)
      | _, _ => none)
    (some [])

/-- `get_folder_with_descendants(folder_id)`.  The fuel `fs.length + 1`
suffices whenever the stored parent relation is acyclic (proved below), so a
`some` result is exactly a terminating run of the Python recursion. -/
def get_folder_with_descendants (fs : List Folder) (folder_id : String) :
    Option (List String) :=
  descendOne fs (fs.length + 1) folder_id

/-! ## The parent relation and acyclicity -/

/-- `ChildRel fs p c`: some stored folder row has id `c` and parent `p`. -/
def ChildRel (fs : List Folder) (p c : String) : Prop :=
  ∃ f ∈ fs, f.id = c ∧ f.parent_id = some p

/-- The stored parent relation contains no cycle: no id is reachable from
itself by following child edges. -/
def Acyclic (fs : List Folder) : Prop :=
  ∀ i, ¬ Relation.TransGen (ChildRel fs) i i

/-- Executable acyclicity check: every stored folder's descendant collection
terminates within the standard fuel. -/
def acyclicHolds (fs : List Folder) : Bool :=
  fs.all (fun f => (get_folder_with_descendants fs f.id).isSome)

/-! ## Folder service: mutations

`create_folder` (folder_service.py:147-161) inserts a fresh row whose id is a
newly generated `uuid.uuid4()`; the generated id is passed explicitly here,
with freshness assumptions standing in for the generator's uniqueness.
`update_folder` (folder_service.py:164-183) performs the cyclic-move check
(`if parent_id:` — Python truthiness, so `None` and `""` skip the check) and
then `UPDATE folders SET name = ?, parent_id = ? WHERE id = ?`; the
`update_folders_timestamp` trigger refreshes `created_at`.
`delete_folder` (folder_service.py:186-196) runs only
`DELETE FROM folders WHERE id = ?`; with foreign-key enforcement off (no
`PRAGMA foreign_keys`), neither the declared `ON DELETE SET NULL` on
`bookmarks.folder_id` nor the `ON DELETE CASCADE` on `folders.parent_id`
fires, so no other table changes. -/

/-- `INSERT INTO folders (id, name, parent_id) VALUES (?, ?, ?)`. -/
def create_folder (fs : List Folder) (folder_id name : String)
    (parent_id : Option String) (now : Nat) : List Folder :=
  fs ++ [⟨folder_id, name, parent_id, now⟩]

/-- The row effect of `UPDATE folders SET name = ?, parent_id = ? WHERE id = ?`
plus the `created_at` refresh trigger. -/
def folderUpdateRows (fs : List Folder) (folder_id name : String)
    (parent_id : Option String) (now : Nat) : List Folder :=
  fs.map (fun f =>
    if f.id = folder_id then
      { f with name := name, parent_id := parent_id, created_at := now }
    else f)

/-- Outcome of `update_folder`: committed rows, or the raised
`ValueError("Cannot move folder into its own subfolder")` (the spec's
`CyclicMoveError`). -/
inductive UpdateFolderResult where
  | ok (fs : List Folder)
  | cyclicError
deriving DecidableEq, Repr

/-- `update_folder(folder_id, name, parent_id)`; `none` models divergence of
the descendant recursion on cyclic stored data. -/
def update_folder (fs : List Folder) (folder_id name : String)
    (parent_id : Option String) (now : Nat) : Option UpdateFolderResult :=
  match parent_id with
  | some p =>
    if p ≠ "" then
      match get_folder_with_descendants fs folder_id with
      | none => none
      | some descendants =>
        if p ∈ descendants then some .cyclicError
        else some (.ok (folderUpdateRows fs folder_id name parent_id now))
    else some (.ok (folderUpdateRows fs folder_id name parent_id now))
  | none => some (.ok (folderUpdateRows fs folder_id name parent_id now))

/-- Row effect of `DELETE FROM folders WHERE id = ?`. -/
def deleteFolderRows (fs : List Folder) (folder_id : String) : List Folder :=
  fs.filter (fun f => ¬ f.id = folder_id)

/-- `delete_folder(folder_id)`: removes the folder rows only.  Because the
application never enables SQLite foreign-key enforcement, bookmarks and child
folders are untouched. -/
def delete_folder (s : Store) (folder_id : String) : Store :=
  { s with folders := deleteFolderRows s.folders folder_id }

/-- One folder operation (create / successful update / delete).  The
freshness side conditions on `create` model `uuid.uuid4()`: the generated id
differs from every stored id and every stored (possibly dangling) parent
reference, is nonempty, and cannot equal a parent id chosen before it was
generated. -/
inductive FolderOpStep : List Folder → List Folder → Prop
  | create (fs : List Folder) (fid name : String) (parent : Option String)
      (now : Nat)
      (hfresh : ∀ f ∈ fs, f.id ≠ fid ∧ f.parent_id ≠ some fid)
      (hne : fid ≠ "") (hpar : parent ≠ some fid) :
      FolderOpStep fs (create_folder fs fid name parent now)
  | update (fs : List Folder) (fid name : String) (parent : Option String)
      (now : Nat) (fs' : List Folder)
      (h : update_folder fs fid name parent now = some (.ok fs')) :
      FolderOpStep fs fs'
  | delete (fs : List Folder) (fid : String) :
      FolderOpStep fs (deleteFolderRows fs fid)

/-! ## SQLite `LIKE`

`get_all_bookmarks` builds `b.title LIKE ? OR b.url LIKE ? OR b.description
LIKE ?` with the pattern `f'%{search}%'`.  SQLite's default `LIKE` is
case-insensitive for ASCII letters only, `%` matches any character sequence,
`_` matches one character, and the whole string must match.  `NULL` operands
(absent descriptions) make the comparison false. -/

/-- One step of `LIKE` matching at string head `c`, where `f p'` decides
whether the remaining string matches pattern `p'`. -/
def likeAt (f : List Char → Bool) (c : Char) : List Char → Bool
  | [] => false
  | a :: ps =>
    if a = '%' then likeAt f c ps || f (a :: ps)
    else if a = '_' then f ps
    else (sqliteLower a == sqliteLower c) && f ps

/-- `LIKE` matching of the string (first argument) against the pattern. -/
def likeMatchS : List Char → List Char → Bool
  | [], p => p.all (fun a => a = '%')
  | c :: s', p => likeAt (likeMatchS s') c p

/-- `expr LIKE pattern` on TEXT values. -/
def likeMatch (pattern s : String) : Bool := likeMatchS s.toList pattern.toList

/-- The Python pattern construction `f'%{search}%'`. -/
def mkLikePattern (search : String) : String := "%" ++ search ++ "%"

/-! ## Bookmark query engine

`get_all_bookmarks` (bookmark_service.py:11-137) builds one WHERE clause set,
uses it twice — `COUNT(DISTINCT b.id)` and the row query with
`GROUP BY b.id`, `ORDER BY b.pinned DESC, <col> <dir>`, `LIMIT/OFFSET` — and
annotates each returned row with its folder name and tag pairs. -/

/-- Python truthiness of an optional string parameter (`if folder_id:`,
`if tag_id:`, `if search:`): `None` and `''` are falsy. -/
def truthyOpt : Option String → Bool
  | none => false
  | some s => s != ""

/-- Folder-scope clause: `AND b.folder_id IS NULL` when unfiled, else
`AND b.folder_id IN (...)` when a scope list was built (`elif folder_ids:`),
else no restriction.  SQL `IN` is false on a `NULL` folder reference. -/
def folderClause (is_unfiled : Bool) (folder_ids : List String)
    (b : Bookmark) : Bool :=
  if is_unfiled then b.folder_id.isNone
  else if folder_ids.isEmpty then true
  else
    match b.folder_id with
    | some fid => folder_ids.contains fid
    | none => false

/-- Tag clause: `AND b.id IN (SELECT bookmark_id FROM bookmark_tags WHERE
tag_id = ?)`, applied only for a truthy `tag_id`. -/
def tagClause (bts : List (String × String)) (tag_id : Option String)
    (b : Bookmark) : Bool :=
  if truthyOpt tag_id then
    bts.any (fun bt => bt.1 == b.id && some bt.2 == tag_id)
  else true

/-- Search clause: `AND (b.title LIKE ? OR b.url LIKE ? OR b.description
LIKE ?)` with pattern `'%' + search + '%'`, applied only for truthy
`search`. -/
def searchClause (search : Option String) (b : Bookmark) : Bool :=
  match search with
  | none => true
  | some q =>
    if q != "" then
      likeMatch (mkLikePattern q) b.title || likeMatch (mkLikePattern q) b.url ||
        (match b.description with
          | some d => likeMatch (mkLikePattern q) d
          | none => false)
    else true

/-- The complete filter predicate shared by the count query and the row
query. -/
def bookmarkMatches (bts : List (String × String)) (is_unfiled : Bool)
    (folder_ids : List String) (tag_id search : Option String)
    (b : Bookmark) : Bool :=
  folderClause is_unfiled folder_ids b && tagClause bts tag_id b &&
    searchClause search b

/-- Secondary sort key comparison: `valid_sorts.get(sort_by, 'b.created_at')`
with `ASC` exactly for `sort_order == 'asc'`. -/
def bmFieldLe (sort_by sort_order : String) (a b : Bookmark) : Bool :=
  if sort_by == "title" then
    (if sort_order == "asc" then charListLe a.title.toList b.title.toList
     else charListLe b.title.toList a.title.toList)
  else if sort_by == "url" then
    (if sort_order == "asc" then charListLe a.url.toList b.url.toList
     else charListLe b.url.toList a.url.toList)
  else
    (if sort_order == "asc" then Nat.ble a.created_at b.created_at
     else Nat.ble b.created_at a.created_at)

/-- `ORDER BY b.pinned DESC, <col> <dir>` as a total preorder: pinned rows
first, the requested field within each pinned group. -/
def bmLe (sort_by sort_order : String) (a b : Bookmark) : Bool :=
  if a.pinned == b.pinned then bmFieldLe sort_by sort_order a b else a.pinned

/-- A row of the main query: `b.*` plus the `folder_name` and
`GROUP_CONCAT` tag annotations (the Python splits the concatenated
names/ids back into `{'id': ..., 'name': ...}` pairs, which re-pairs the
join rows). -/
structure BookmarkRow where
  bm : Bookmark
  folder_name : Option String
  tags : List (String × String)
deriving DecidableEq, Repr

/-- Annotate one bookmark with its folder name (`LEFT JOIN folders`) and its
tag `(id, name)` pairs (join rows in table order). -/
def rowOf (s : Store) (b : Bookmark) : BookmarkRow :=
  { bm := b
    folder_name := b.folder_id.bind (fun fid =>
      (s.folders.find? (fun f => f.id == fid)).map (fun f => f.name))
    tags := (s.bookmark_tags.filter (fun bt => bt.1 == b.id)).filterMap
      (fun bt => (s.tags.find? (fun t => t.id == bt.2)).map
        (fun t => (t.id, t.name))) }

/-- The paginated result dictionary. -/
structure BookmarksPage where
  bookmarks : List BookmarkRow
  total : Nat
  page : Nat
  per_page : Nat
  total_pages : Nat
deriving DecidableEq, Repr

/-- Folder-scope resolution of `get_all_bookmarks`: for a truthy folder id
other than the literal `'unfiled'`, either the recursive descendant set
(`include_subfolders`) or the single id; otherwise an empty scope list. -/
def resolveFolderScope (s : Store) (folder_id : Option String)
    (include_subfolders : Bool) : Option (List String) :=
  if truthyOpt folder_id && !(folder_id == some "unfiled") then
    if include_subfolders then
      get_folder_with_descendants s.folders (folder_id.getD "")
    else some [folder_id.getD ""]
  else some []

/-- The shared filter applied to the bookmark table (the unpaginated
selection). -/
def selectedBookmarks (s : Store) (is_unfiled : Bool)
    (folder_ids : List String) (tag_id search : Option String) :
    List Bookmark :=
  s.bookmarks.filter
    (bookmarkMatches s.bookmark_tags is_unfiled folder_ids tag_id search)

/-- `get_all_bookmarks(folder_id, tag_id, search, sort_by, sort_order,
include_subfolders, page, per_page)`.  `none` models divergence of the
descendant recursion.  The count is `COUNT(DISTINCT b.id)`; the row list is
the same filter, sorted (`insertionSort` fixes one admissible order for the
SQL sort, whose tie order is unspecified), sliced by
`LIMIT per_page OFFSET (page-1)*per_page`, and annotated. -/
def get_all_bookmarks (s : Store) (folder_id tag_id search : Option String)
    (sort_by sort_order : String) (include_subfolders : Bool)
    (page per_page : Nat) : Option BookmarksPage :=
  match resolveFolderScope s folder_id include_subfolders with
  | none => none
  | some folder_ids =>
    let is_unfiled := folder_id == some "unfiled"
    let matched := selectedBookmarks s is_unfiled folder_ids tag_id search
    let total := ((matched.map (fun b => b.id)).dedup).length
    let sorted :=
      List.insertionSort (fun a b => bmLe sort_by sort_order a b = true) matched
    some { bookmarks :=
            ((sorted.drop ((page - 1) * per_page)).take per_page).map (rowOf s)
           total := total
           page := page
           per_page := per_page
           total_pages := (total + per_page - 1) / per_page }

/-- A small sample store shared by the witnesses: one folder, one tag, one
pinned bookmark in the folder with the tag, one unfiled unpinned bookmark. -/
def sampleStore : Store :=
  { folders := [⟨"f1", "Work", none, 0⟩]
    tags := [⟨"t1", "dev", 0⟩]
    bookmarks :=
      [⟨"b1", "https://a.com", "Alpha", some "d1", none, some "f1", true, 5⟩,
       ⟨"b2", "https://b.com", "Beta", none, none, none, false, 3⟩]
    bookmark_tags := [("b1", "t1")] }

/-- The concrete page the sample store produces for an unrecognized sort
field. -/
def samplePage : BookmarksPage :=
  { bookmarks :=
      [{ bm := ⟨"b1", "https://a.com", "Alpha", some "d1", none, some "f1",
            true, 5⟩
         folder_name := some "Work"
         tags := [("t1", "dev")] },
       { bm := ⟨"b2", "https://b.com", "Beta", none, none, none, false, 3⟩
         folder_name := none
         tags := [] }]
    total := 2
    page := 1
    per_page := 25
    total_pages := 1 }

/-! ## Search: LIKE versus substring

The spec describes the search as a case-insensitive substring test.  The
reference notion of (ASCII-)case-insensitive substring containment: -/

/-- Prefix test on character lists. -/
def isPrefixLF : List Char → List Char → Bool
  | [], _ => true
  | _ :: _, [] => false
  | a :: as, b :: bs => (a == b) && isPrefixLF as bs

/-- Substring (contiguous) test on character lists. -/
def isSubLF : List Char → List Char → Bool
  | n, [] => n.isEmpty
  | n, c :: t => isPrefixLF n (c :: t) || isSubLF n t

/-- `needle` is an ASCII-case-insensitive substring of `hay` (the
specification-side notion the spec's "case-insensitive substring match"
denotes, with SQLite's ASCII-only case folding). -/
def ciSubstr (needle hay : String) : Bool :=
  isSubLF (needle.toList.map sqliteLower) (hay.toList.map sqliteLower)

/-! ## Folder hierarchy tree (`get_folder_hierarchy`)

`get_folder_hierarchy` (folder_service.py:48-92) indexes all folders by id,
collects the root folders (null parent) in table order, appends every folder
whose parent id is present in the index to that parent's `children` list (a
folder with a non-null parent id that matches no folder is neither a root
nor attached anywhere — it is dropped), and finally sorts roots and children
recursively by the folder name with all non-ASCII-alphanumeric characters
stripped, lower-cased.  Nested `children` lists require a mutually inductive
tree type. -/

/-- `_strip_emoji_for_sort`: keep only ASCII letters and digits
(`re.sub(r'[^a-zA-Z0-9]', '', text)`). -/
def stripEmojiForSort (text : String) : String :=
  String.mk (text.toList.filter (fun c =>
    (48 ≤ c.toNat && c.toNat ≤ 57) || (65 ≤ c.toNat && c.toNat ≤ 90) ||
      (97 ≤ c.toNat && c.toNat ≤ 122)))

mutual
inductive HNode where
  | mk (folder : Folder) (bookmark_count : Nat) (subfolder_count : Nat)
      (children : HForest)
deriving DecidableEq
inductive HForest where
  | nil
  | cons (n : HNode) (f : HForest)
deriving DecidableEq
end

/-- `COUNT(DISTINCT b.id)` of the bookmarks directly in a folder. -/
def bookmarkCount (s : Store) (fid : String) : Nat :=
  (((s.bookmarks.filter (fun b => b.folder_id = some fid)).map
    (fun b => b.id)).dedup).length

/-- Number of immediate subfolders. -/
def subfolderCount (s : Store) (fid : String) : Nat :=
  (s.folders.filter (fun c => c.parent_id = some fid)).length

/-- Fueled construction of the nested hierarchy for a list of folders: each
folder node carries its counts and the recursively built children (the
folders whose parent id is this folder's id, in table order). -/
def buildHF (s : Store) : Nat → List Folder → Option HForest
  | 0, _ => none
  | n + 1, l =>
    l.foldr
      (fun f acc =>
        match buildHF s n (s.folders.filter
            (fun c => c.parent_id = some f.id)), acc with
        | some cs, some rest =>
          some (HForest.cons
            (HNode.mk f (bookmarkCount s f.id) (subfolderCount s f.id) cs)
            rest)
        | _, _ => none)
      (some HForest.nil)

/-- Sort key of a hierarchy node:
`_strip_emoji_for_sort(f['name']).lower()`. -/
def hKey : HNode → List Char
  | .mk f _ _ _ => (stripEmojiForSort f.name).toList.map sqliteLower

/-- Comparison used by the recursive sort. -/
def hLe (a b : HNode) : Bool := charListLe (hKey a) (hKey b)

/-- Stable ordered insertion (the building block of the stable Python
`list.sort`). -/
def hInsert (n : HNode) : HForest → HForest
  | .nil => .cons n .nil
  | .cons m f => if hLe n m then .cons n (.cons m f) else .cons m (hInsert n f)

mutual
def sortHNode : HNode → HNode
  | .mk f bc sc cs => .mk f bc sc (sortHForest cs)
def sortHForest : HForest → HForest
  | .nil => .nil
  | .cons n f => hInsert (sortHNode n) (sortHForest f)
end

/-- `get_folder_hierarchy()`: root folders (null parent, table order) with
recursively nested, recursively sorted children.  `none` models fuel
exhaustion (unreachable for well-formed data, and unneeded by the claims,
which hypothesize a returned forest). -/
def get_folder_hierarchy (s : Store) : Option HForest :=
  (buildHF s (s.folders.length + 1)
    (s.folders.filter (fun f => f.parent_id = none))).map sortHForest

mutual
def hNodeIds : HNode → List String
  | .mk f _ _ cs => f.id :: hForestIds cs
def hForestIds : HForest → List String
  | .nil => []
  | .cons n f => hNodeIds n ++ hForestIds f
end

/-! ## Firefox JSON exchange format (firefox_service.py)

A Firefox bookmark JSON node is a dict with optional `type`, `guid`,
`title`, `uri`, `annos`, `tags` and `children` entries.  `tags` may be a
comma-joined string or a pre-split list.  Nested `children` lists require a
mutually inductive tree type.  (A JSON `null` field value is not
distinguished from an absent key in this embedding.) -/

/-- An annotation entry (`{'name': ..., 'value': ...}`). -/
structure Anno where
  name : Option String
  value : Option String
deriving DecidableEq, Repr

/-- The `tags` entry of a bookmark node. -/
inductive TagsVal where
  | missing
  | str (s : String)
  | arr (l : List String)
deriving DecidableEq, Repr

/-- The scalar fields of a node. -/
structure FData where
  ntype : Option String
  guid : Option String
  title : Option String
  uri : Option String
  annos : List Anno
  tags : TagsVal
deriving DecidableEq, Repr

mutual
inductive FNode where
  | mk (d : FData) (children : FNodeL)
deriving DecidableEq
inductive FNodeL where
  | nil
  | cons (n : FNode) (l : FNodeL)
deriving DecidableEq
end

/-- Children lists, as used by the tree type. -/
abbrev FList := FNodeL

def flSnoc : FList → FNode → FList
  | .nil, n => .cons n .nil
  | .cons m l, n => .cons m (flSnoc l n)

def flAppend : FList → FList → FList
  | .nil, l => l
  | .cons m l, l2 => .cons m (flAppend l l2)

def containerT : String := "text/x-moz-place-container"

def placeT : String := "text/x-moz-place"

def descAnnoKey : String := "bookmarkProperties/description"

/-- The five pass-through Firefox container guids. -/
def specialGuids : List String :=
  ["root________", "menu________", "unfiled_____", "mobile______",
   "toolbar_____"]

/-! ### Export (export_to_firefox_json, firefox_service.py:12-108)

The Python builds the tree in one pass over the name-ordered folders,
keeping `folder_map` (id → node, with mutable children).  A folder whose
truthy parent id is already in the map is appended to that parent's
children; with a null (or empty) parent it becomes a root; otherwise it is
recorded in the map but attached nowhere.  We model the same object graph as
two forests: `roots` (the nodes reachable from `root_children`) and
`orphans` (nodes recorded in the map but attached nowhere); appending to a
mapped node is appending to the unique container with that guid in either
forest (folder ids are unique under the table's primary key, which theorems
assume as `Nodup` hypotheses).  A second pass distributes the
creation-time-ordered bookmarks: into the mapped container if the truthy
`folder_id` is mapped, else into `unorganized_bookmarks`. -/

/-- The container node built for a folder row. -/
def folderNodeOf (f : Folder) : FNode :=
  .mk ⟨some containerT, some f.id, some f.name, none, [], .missing⟩ .nil

/-- `GROUP_CONCAT(t.name)` inputs: the bookmark's tag names in join order
(unresolvable join rows contribute NULL and are skipped). -/
def tagNamesOf (s : Store) (b : Bookmark) : List String :=
  (s.bookmark_tags.filter (fun bt => bt.1 = b.id)).filterMap
    (fun bt => (s.tags.find? (fun t => t.id = bt.2)).map (fun t => t.name))

/-- Python's `','.join(...)` / SQLite's `GROUP_CONCAT(..., ',')` on
character lists. -/
def joinCommaCh : List (List Char) → List Char
  | [] => []
  | [l] => l
  | l :: ls => l ++ ',' :: joinCommaCh ls

/-- Python's `str.split(',')` on character lists: split at every comma,
never collapsing; the empty string yields one empty piece. -/
def splitCommaCh : List Char → List (List Char)
  | [] => [[]]
  | c :: cs =>
    if c = ',' then [] :: splitCommaCh cs
    else
      match splitCommaCh cs with
      | [] => [[c]]
      | h :: t => (c :: h) :: t

/-- `','.join(names)`. -/
def joinComma (ls : List String) : String :=
  String.mk (joinCommaCh (ls.map String.toList))

/-- `s.split(',')`. -/
def splitComma (s : String) : List String :=
  (splitCommaCh s.toList).map (fun l => String.mk l)

/-- The data of the place node built for a bookmark row: description
annotation only for a truthy description, `tags` only for a truthy
concatenation. -/
def placeDataOf (s : Store) (b : Bookmark) : FData :=
  ⟨some placeT, some b.id, some b.title, some b.url,
    (match b.description with
      | some d => if d ≠ "" then [⟨some descAnnoKey, some d⟩] else []
      | none => []),
    (if joinComma (tagNamesOf s b) = "" then .missing
     else .str (joinComma (tagNamesOf s b)))⟩

/-- The (leaf) place node built for a bookmark row. -/
def placeNodeOf (s : Store) (b : Bookmark) : FNode :=
  .mk (placeDataOf s b) .nil

mutual
/-- Append `child` to the children of the container with guid `g`, if that
container occurs in this tree. -/
def appendAtNode (g : String) (child : FNode) : FNode → Option FNode
  | .mk d cs =>
    if d.ntype = some containerT ∧ d.guid = some g then
      some (.mk d (flSnoc cs child))
    else
      match appendAtList g child cs with
      | some cs' => some (.mk d cs')
      | none => none
/-- Append `child` to the container with guid `g` inside the first tree of
the forest that contains it. -/
def appendAtList (g : String) (child : FNode) : FList → Option FList
  | .nil => none
  | .cons n ns =>
    match appendAtNode g child n with
    | some n' => some (.cons n' ns)
    | none =>
      match appendAtList g child ns with
      | some ns' => some (.cons n ns')
      | none => none
end

/-- Export construction state: the root forest and the mapped-but-unattached
nodes. -/
structure ExpSt where
  roots : FList
  orphans : FList
deriving DecidableEq

/-- Append the node to the mapped container with guid `pid`, wherever it
lives. -/
def tryAttach (st : ExpSt) (pid : String) (nd : FNode) : Option ExpSt :=
  match appendAtList pid nd st.roots with
  | some rs => some ⟨rs, st.orphans⟩
  | none =>
    match appendAtList pid nd st.orphans with
    | some os => some ⟨st.roots, os⟩
    | none => none

/-- One folder of the export loop. -/
def expFolderStep (st : ExpSt) (f : Folder) : ExpSt :=
  let nd := folderNodeOf f
  match f.parent_id with
  | some p =>
    if p ≠ "" then
      match tryAttach st p nd with
      | some st' => st'
      | none => { st with orphans := flSnoc st.orphans nd }
    else { st with roots := flSnoc st.roots nd }
  | none => { st with roots := flSnoc st.roots nd }

/-- One bookmark of the export loop (state: forests and the
`unorganized_bookmarks` list). -/
def expBookmarkStep (s : Store) (acc : ExpSt × FList) (b : Bookmark) :
    ExpSt × FList :=
  let nd := placeNodeOf s b
  match b.folder_id with
  | some fid =>
    if fid ≠ "" then
      match tryAttach acc.1 fid nd with
      | some st' => (st', acc.2)
      | none => (acc.1, flSnoc acc.2 nd)
    else (acc.1, flSnoc acc.2 nd)
  | none => (acc.1, flSnoc acc.2 nd)

/-- The folder pass over the name-ordered folders followed by the bookmark
pass over the creation-time-ordered bookmarks: the final forests and the
`unorganized_bookmarks` list. -/
def exportForests (s : Store) : ExpSt × FList :=
  let folders := List.insertionSort
    (fun a b => charListLe a.name.toList b.name.toList = true) s.folders
  let bookmarks := List.insertionSort
    (fun a b => b.created_at ≤ a.created_at) s.bookmarks
  bookmarks.foldl (expBookmarkStep s) (folders.foldl expFolderStep ⟨.nil, .nil⟩, .nil)

/-- `export_to_firefox_json()`: root container → toolbar container → root
folder trees followed by the unorganized bookmarks. -/
def export_to_firefox_json (s : Store) : FNode :=
  .mk ⟨some containerT, some "root________", some "", none, [], .missing⟩
    (.cons
      (.mk ⟨some containerT, some "toolbar_____", some "Bookmarks Toolbar",
        none, [], .missing⟩
        (flAppend (exportForests s).1.roots (exportForests s).2))
      .nil)

/-! ### Import (import_from_firefox_json, firefox_service.py:111-203)

`uuid.uuid4()` is modelled by an injective generator fed from a counter in
the import state.  The favicon collaborator (`download_favicon`) is a
parameter returning the cached relative path or an absence value.
`folder_mapping` is kept although the Python never reads it back (it is the
natural old-guid → new-id correspondence).  The `bookmark_tags` primary key
is not re-checked on insertion; the theorems' hypotheses (distinct tag
names, distinct join rows) keep inserted rows duplicate-free, as the
constraint does at runtime. -/

/-- The modelled `uuid.uuid4()` output for counter value `n`. -/
def mkUuid (n : Nat) : String := String.mk (List.replicate (n + 1) 'u')

/-- `INSERT INTO tags (id, name) VALUES (?, ?)` (`create_tag`,
tag_service.py:47-60). -/
def create_tag (s : Store) (id name : String) (now : Nat) : Store :=
  { s with tags := s.tags ++ [⟨id, name, now⟩] }

/-- `create_bookmark` (bookmark_service.py:164-190): insert the bookmark row
(`folder_id if folder_id else None`) followed by one join row per tag id. -/
def create_bookmark (s : Store) (id url title description : String)
    (folder_id : Option String) (tag_ids : List String)
    (favicon : Option String) (now : Nat) : Store :=
  { s with
    bookmarks := s.bookmarks ++
      [⟨id, url, title, some description, favicon,
        (match folder_id with
          | some f => if f = "" then none else some f
          | none => none), false, now⟩]
    bookmark_tags := s.bookmark_tags ++ tag_ids.map (fun t => (id, t)) }

/-- Import statistics. -/
structure ImportStats where
  bookmarks : Nat
  folders : Nat
  tags : Nat
deriving DecidableEq, Repr

/-- Import state: the store, the uuid counter, the statistics and the
(write-only) guid mapping. -/
structure ImportState where
  store : Store
  nextId : Nat
  stats : ImportStats
  folder_mapping : List (Option String × String)
deriving DecidableEq

/-- The tag loop of the bookmark branch: strip each name, skip empties, look
the name up (`SELECT id FROM tags WHERE name = ?`) and reuse, else create a
fresh tag and count it.  The loop is written as structural recursion over
the names; the collected ids come out in loop order. -/
def collectTags : List String → ImportState → List String × ImportState
  | [], st => ([], st)
  | nm0 :: rest, st =>
    let nm := pyStrip nm0
    if nm = "" then collectTags rest st
    else
      match st.store.tags.find? (fun t => t.name = nm) with
      | some t =>
        let r := collectTags rest st
        (t.id :: r.1, r.2)
      | none =>
        let r := collectTags rest
          { store := create_tag st.store (mkUuid st.nextId) nm 0
            nextId := st.nextId + 1
            stats := { st.stats with tags := st.stats.tags + 1 }
            folder_mapping := st.folder_mapping }
        (mkUuid st.nextId :: r.1, r.2)

mutual
/-- `process_container(node, parent_id)`. -/
def processNode (fav : String → Option String) :
    FNode → Option String → ImportState → ImportState
  | .mk d cs, parent, st =>
    if d.ntype = some containerT then
      if (d.guid.getD "") ∈ specialGuids then
        processList fav cs parent st
      else
        let folder_title := d.title.getD "Untitled Folder"
        if folder_title ≠ "" then
          processList fav cs (some (mkUuid st.nextId))
            { store := { st.store with
                folders := create_folder st.store.folders (mkUuid st.nextId)
                  folder_title parent 0 }
              nextId := st.nextId + 1
              stats := { st.stats with folders := st.stats.folders + 1 }
              folder_mapping := st.folder_mapping ++ [(d.guid, mkUuid st.nextId)] }
        else st
    else if d.ntype = some placeT then
      match d.uri with
      | none => st
      | some url =>
        if url = "" then st
        else
          let title := d.title.getD url
          let description :=
            ((d.annos.find? (fun a => a.name = some descAnnoKey)).map
              (fun a => a.value.getD "")).getD ""
          let names : List String :=
            match d.tags with
            | .missing => []
            | .str s0 => if s0 = "" then [] else splitComma s0
            | .arr l => if l.isEmpty then [] else l
          let tagsSt := collectTags names st
          { store := create_bookmark tagsSt.2.store (mkUuid tagsSt.2.nextId)
              url title description parent tagsSt.1 (fav url) 0
            nextId := tagsSt.2.nextId + 1
            stats := { tagsSt.2.stats with
              bookmarks := tagsSt.2.stats.bookmarks + 1 }
            folder_mapping := tagsSt.2.folder_mapping }
    else st
/-- The `for child in node.get('children', [])` loops. -/
def processList (fav : String → Option String) :
    FList → Option String → ImportState → ImportState
  | .nil, _, st => st
  | .cons n ns, parent, st => processList fav ns parent (processNode fav n parent st)
end

/-- The import state for an empty store. -/
def emptyImportState : ImportState := ⟨⟨[], [], [], []⟩, 0, ⟨0, 0, 0⟩, []⟩

/-- `import_from_firefox_json(json_data)` on a parsed dict, from a given
state. -/
def import_from_firefox_json (fav : String → Option String) (root : FNode)
    (st : ImportState) : ImportState :=
  processNode fav root none st

/-! ### Structural views of exchange trees

`flattenCN pg n` lists, for every container node with a guid, the triple
(guid, title, guid of the enclosing container — `pg` at top level), in
pre-order.  `flattenPN` lists the data of every place node.  `cGuidsN` lists
the container guids. -/

/-- A container entry: guid, title, enclosing container guid. -/
abbrev CEntry := String × Option String × Option String

mutual
def flattenCN (pg : Option String) : FNode → List CEntry
  | .mk d cs =>
    if d.ntype = some containerT then
      match d.guid with
      | some g => (g, d.title, pg) :: flattenCL (some g) cs
      | none => flattenCL pg cs
    else flattenCL pg cs
def flattenCL (pg : Option String) : FList → List CEntry
  | .nil => []
  | .cons n l => flattenCN pg n ++ flattenCL pg l
end

mutual
def flattenPN : FNode → List FData
  | .mk d cs => (if d.ntype = some placeT then [d] else []) ++ flattenPL cs
def flattenPL : FList → List FData
  | .nil => []
  | .cons n l => flattenPN n ++ flattenPL l
end

mutual
def cGuidsN : FNode → List String
  | .mk d cs =>
    (if d.ntype = some containerT then
      (match d.guid with
        | some g => [g]
        | none => [])
      else []) ++ cGuidsL cs
def cGuidsL : FList → List String
  | .nil => []
  | .cons n l => cGuidsN n ++ cGuidsL l
end

/-- The container entry export should produce for a folder row. -/
def folderEntry (f : Folder) : CEntry := (f.id, some f.name, f.parent_id)

/-- The round-trip projection of a bookmark row: url, title, description
and associated tag names as resolved in the given store. -/
def bmProj (s : Store) (b : Bookmark) :
    String × String × Option String × List String :=
  (b.url, b.title, b.description, tagNamesOf s b)

/-- What the import reads off a place node's data: url, title defaulted to
the url, extracted description, tag-name list. -/
def placeProj (d : FData) : String × String × Option String × List String :=
  (d.uri.getD "", d.title.getD (d.uri.getD ""),
   some (((d.annos.find? (fun a => a.name = some descAnnoKey)).map
     (fun a => a.value.getD "")).getD ""),
   match d.tags with
   | .missing => []
   | .str s0 => if s0 = "" then [] else splitComma s0
   | .arr l => if l.isEmpty then [] else l)

/-- Store hygiene under an id-counter bound: every stored tag and bookmark
id was minted by the uuid counter below the bound, ids are unique, and
every join row resolves. -/
def storeFresh (s : Store) (bound : Nat) : Prop :=
  (∀ t ∈ s.tags, ∃ k, t.id = mkUuid k ∧ k < bound) ∧
  (∀ b ∈ s.bookmarks, ∃ k, b.id = mkUuid k ∧ k < bound) ∧
  (s.tags.map (fun t => t.id)).Nodup ∧
  (s.bookmarks.map (fun b => b.id)).Nodup ∧
  (∀ bt ∈ s.bookmark_tags,
    (∃ b ∈ s.bookmarks, b.id = bt.1) ∧
    (∃ t ∈ s.tags, t.id = bt.2))

/-- Import-state hygiene. -/
def idsFresh (st : ImportState) : Prop := storeFresh st.store st.nextId

mutual
/-- Shape of well-formed exchange trees (what the export emits inside the
toolbar): containers carry a non-special guid and a non-empty title; places
are leaves with a non-empty uri and either no tags or a joined list of
clean tag names. -/
def shapedN : FNode → Prop
  | .mk d cs =>
    (d.ntype = some containerT ∧
      (∃ g, d.guid = some g ∧ g ∉ specialGuids) ∧
      (∃ t, d.title = some t ∧ t ≠ "") ∧ shapedL cs)
    ∨ (d.ntype = some placeT ∧ cs = .nil ∧
      (∃ u, d.uri = some u ∧ u ≠ "") ∧
      (d.tags = .missing ∨ ∃ names, names ≠ [] ∧
        (∀ nm ∈ names, nm ≠ "" ∧ ',' ∉ nm.toList ∧ pyStrip nm = nm) ∧
        d.tags = .str (joinComma names)))
def shapedL : FList → Prop
  | .nil => True
  | .cons n l => shapedN n ∧ shapedL l
end

/-- The folder rows the import creates for a list of container entries,
given the id each entry's guid was assigned (`ids`, positionally) and the
resolution `ρ` of enclosing guids to created folder ids. -/
def impFolderRows (ρ : Option String → Option String)
    (entries : List CEntry) (ids : List String) : List Folder :=
  (entries.zip ids).map (fun e =>
    ⟨e.2, e.1.2.1.getD "Untitled Folder", ρ e.1.2.2, 0⟩)

/-- What one import step achieves, relative to the flattened container
entries (taken with enclosing parameter `pgv`) and place data of the
processed forest: guid-to-id assignment `m` in pre-order, folder rows
appended per entry, bookmark projections appended per place datum, counter
monotone, assigned ids fresh and distinct, hygiene preserved. -/
def ImpOut (pgv π : Option String) (entries : List CEntry)
    (places : List FData) (st st' : ImportState)
    (m : List (String × String)) : Prop :=
  m.map (fun e => e.1) = entries.map (fun e => e.1) ∧
  (∀ ρ : Option String → Option String, ρ pgv = π →
    (∀ e ∈ m, ρ (some e.1) = some e.2) →
    st'.store.folders = st.store.folders ++
      impFolderRows ρ entries (m.map (fun e => e.2))) ∧
  st'.store.bookmarks.map (bmProj st'.store) =
    st.store.bookmarks.map (bmProj st.store) ++ places.map placeProj ∧
  st.nextId ≤ st'.nextId ∧
  (∀ e ∈ m, ∃ k, e.2 = mkUuid k ∧ st.nextId ≤ k ∧ k < st'.nextId) ∧
  (m.map (fun e => e.2)).Nodup ∧
  idsFresh st'

/-! ## Theorems -/

lemma descendOne_succ (fs : List Folder) (n : Nat) (pid : String) :
    descendOne fs (n + 1) pid =
      (descendKids fs n (childIds fs pid)).map (fun l => pid :: l) := rfl

lemma descendKids_nil (fs : List Folder) (n : Nat) :
    descendKids fs n [] = some [] := rfl

lemma descendKids_cons (fs : List Folder) (n : Nat) (c : String)
    (cs : List String) :
    descendKids fs n (c :: cs) =
      match descendOne fs n c, descendKids fs n cs with
      | some d, some rest => some (d ++ rest)
      | _, _ => none := rfl

lemma childIds_mem {fs : List Folder} {pid c : String} :
    c ∈ childIds fs pid ↔ ChildRel fs pid c := by
  constructor
  · intro h
    rcases List.mem_map.mp h with ⟨f, hf, rfl⟩
    rcases List.mem_filter.mp hf with ⟨hmem, hp⟩
    exact ⟨f, hmem, rfl, by simpa using hp⟩
  · rintro ⟨f, hmem, rfl, hp⟩
    exact List.mem_map.mpr ⟨f, List.mem_filter.mpr ⟨hmem, by simpa using hp⟩, rfl⟩

/-- If some id in the list diverges, the child loop diverges. -/
lemma descendKids_none {fs : List Folder} {n : Nat} {ids : List String}
    {j : String} (hj : j ∈ ids) (hnone : descendOne fs n j = none) :
    descendKids fs n ids = none := by
  induction ids with
  | nil => cases hj
  | cons c cs ih =>
    rcases List.mem_cons.mp hj with rfl | hj'
    · rw [descendKids_cons, hnone]
    · rw [descendKids_cons, ih hj']
      rcases descendOne fs n c with - | - <;> rfl

/-- On a cycle, descendant collection never terminates. -/
lemma descendOne_none_of_cycle (fs : List Folder) :
    ∀ n j, Relation.TransGen (ChildRel fs) j j → descendOne fs n j = none := by
  intro n
  induction n with
  | zero => intro j _; rfl
  | succ m ih =>
    intro j hj
    rcases (Relation.TransGen.head'_iff).mp hj with ⟨k, hpk, hkp⟩
    have hkk : Relation.TransGen (ChildRel fs) k k :=
      (Relation.TransGen.tail'_iff).mpr ⟨j, hkp, hpk⟩
    have hk : k ∈ childIds fs j := childIds_mem.mpr hpk
    rw [descendOne_succ, descendKids_none hk (ih k hkk)]
    rfl

/-- If the executable check succeeds, the parent relation is acyclic. -/
lemma acyclic_of_acyclicHolds {fs : List Folder}
    (h : acyclicHolds fs = true) : Acyclic fs := by
  intro i hcyc
  obtain ⟨f, hf, hfid⟩ : ∃ f ∈ fs, f.id = i := by
    rcases (Relation.TransGen.tail'_iff).mp hcyc with ⟨w, -, hwi⟩
    rcases hwi with ⟨f, hf, hfi, -⟩
    exact ⟨f, hf, hfi⟩
  have hall := List.all_eq_true.mp h f hf
  have hnone : get_folder_with_descendants fs f.id = none :=
    descendOne_none_of_cycle fs _ _ (hfid ▸ hcyc)
  rw [hnone] at hall
  simp at hall

/-- More fuel never changes a terminating collection (single-step). -/
lemma descend_succ_stable (fs : List Folder) :
    ∀ n, (∀ i l, descendOne fs n i = some l → descendOne fs (n + 1) i = some l) ∧
      (∀ ids l, descendKids fs n ids = some l →
        descendKids fs (n + 1) ids = some l) := by
  intro n
  induction n with
  | zero =>
    constructor
    · intro i l h; cases h
    · intro ids l h
      induction ids with
      | nil => simpa [descendKids_nil] using h
      | cons c cs _ =>
        rw [descendKids_cons] at h
        cases hc : descendOne fs 0 c
        · rw [hc] at h; cases h
        · cases hc
  | succ m ih =>
    have hone : ∀ i l, descendOne fs (m + 1) i = some l →
        descendOne fs (m + 2) i = some l := by
      intro i l h
      rw [descendOne_succ] at h
      rcases hk : descendKids fs m (childIds fs i) with - | sub
      · rw [hk] at h; cases h
      · rw [hk] at h
        rw [descendOne_succ, ih.2 _ _ hk]
        exact h
    refine ⟨hone, ?_⟩
    intro ids l h
    induction ids generalizing l with
    | nil => simpa [descendKids_nil] using h
    | cons c cs ihl =>
      rw [descendKids_cons] at h
      rcases hc : descendOne fs (m + 1) c with - | d
      · rw [hc] at h; cases h
      · rcases hcs : descendKids fs (m + 1) cs with - | rest
        · rw [hc, hcs] at h; cases h
        · rw [hc, hcs] at h
          rw [descendKids_cons, hone _ _ hc, ihl _ hcs]
          exact h

/-- Fuel monotonicity for descendant collection. -/
lemma descendOne_mono (fs : List Folder) {n m : Nat} {i : String}
    {l : List String} (hnm : n ≤ m) (h : descendOne fs n i = some l) :
    descendOne fs m i = some l := by
  induction hnm with
  | refl => exact h
  | step _ ih => exact (descend_succ_stable fs _).1 _ _ ih

/-- The child loop terminates when every listed id's collection does. -/
lemma descendKids_some {fs : List Folder} {n : Nat} {ids : List String}
    (h : ∀ k ∈ ids, ∃ l, descendOne fs n k = some l) :
    ∃ l, descendKids fs n ids = some l := by
  induction ids with
  | nil => exact ⟨[], descendKids_nil fs n⟩
  | cons c cs ihl =>
    obtain ⟨d, hd⟩ := h c (List.mem_cons_self c cs)
    obtain ⟨rest, hrest⟩ := ihl (fun k hk => h k (List.mem_cons_of_mem c hk))
    exact ⟨d ++ rest, by rw [descendKids_cons, hd, hrest]⟩

/-- Fuel sufficiency on acyclic stores: if the folders properly reachable
from `i` fit inside `allowed` with `allowed.length < n`, then fuel `n`
suffices. -/
lemma descendOne_some (fs : List Folder) (hac : Acyclic fs) :
    ∀ n i (allowed : List Folder), allowed.length < n →
      (∀ f ∈ fs, Relation.TransGen (ChildRel fs) i f.id → f ∈ allowed) →
      ∃ l, descendOne fs n i = some l := by
  intro n
  induction n with
  | zero => intro i allowed h _; omega
  | succ m ih =>
    intro i allowed hlen hcover
    have hkids : ∃ l, descendKids fs m (childIds fs i) = some l := by
      apply descendKids_some
      intro k hk
      have hpk : ChildRel fs i k := childIds_mem.mp hk
      obtain ⟨fk, hfkmem, hfkid, hfkpar⟩ := hpk
      refine ih k (allowed.erase fk) ?_ ?_
      · have hfkall : fk ∈ allowed :=
          hcover fk hfkmem
            (Relation.TransGen.single (hfkid ▸ ⟨fk, hfkmem, hfkid, hfkpar⟩))
        have := List.length_erase_of_mem hfkall
        have hpos : 0 < allowed.length := List.length_pos_of_mem hfkall
        omega
      · intro f hf htrans
        have hfall : f ∈ allowed :=
          hcover f hf (Relation.TransGen.head ⟨fk, hfkmem, hfkid, hfkpar⟩ htrans)
        have hne : f ≠ fk := by
          rintro rfl
          exact hac k (hfkid ▸ htrans)
        exact (List.mem_erase_of_ne hne).mpr hfall
    obtain ⟨sub, hsub⟩ := hkids
    exact ⟨i :: sub, by rw [descendOne_succ, hsub]; rfl⟩

/-- On an acyclic store the standard fuel suffices: `get_folder_with_descendants`
models a terminating run of the Python recursion. -/
lemma get_folder_with_descendants_some (fs : List Folder) (hac : Acyclic fs)
    (i : String) : ∃ l, get_folder_with_descendants fs i = some l :=
  descendOne_some fs hac _ i fs (Nat.lt_succ_self _) (fun f hf _ => hf)

/-- Membership characterization: a terminating collection returns exactly the
ids reachable (reflexively-transitively) downward from the start id. -/
lemma descend_mem_iff (fs : List Folder) :
    ∀ n, (∀ i l, descendOne fs n i = some l →
        ∀ x, x ∈ l ↔ Relation.ReflTransGen (ChildRel fs) i x) ∧
      (∀ ids l, descendKids fs n ids = some l →
        ∀ x, x ∈ l ↔ ∃ c ∈ ids, Relation.ReflTransGen (ChildRel fs) c x) := by
  intro n
  induction n with
  | zero =>
    constructor
    · intro i l h; cases h
    · intro ids l h x
      induction ids with
      | nil =>
        rw [descendKids_nil] at h
        cases h
        simp
      | cons c cs _ =>
        rw [descendKids_cons] at h
        cases hc : descendOne fs 0 c
        · rw [hc] at h; cases h
        · cases hc
  | succ m ih =>
    have hone : ∀ i l, descendOne fs (m + 1) i = some l →
        ∀ x, x ∈ l ↔ Relation.ReflTransGen (ChildRel fs) i x := by
      intro i l h x
      rw [descendOne_succ] at h
      rcases hk : descendKids fs m (childIds fs i) with - | sub
      · rw [hk] at h; cases h
      · rw [hk] at h
        cases h
        have ihk := ih.2 _ _ hk x
        constructor
        · intro hx
          rcases List.mem_cons.mp hx with heq | hx'
          · subst heq; exact Relation.ReflTransGen.refl
          · obtain ⟨c, hc, hrtg⟩ := ihk.mp hx'
            exact Relation.ReflTransGen.head (childIds_mem.mp hc) hrtg
        · intro hrtg
          rcases Relation.ReflTransGen.cases_head hrtg with rfl | ⟨k, hik, hkx⟩
          · exact List.mem_cons_self _ _
          · exact List.mem_cons_of_mem _ (ihk.mpr ⟨k, childIds_mem.mpr hik, hkx⟩)
    refine ⟨hone, ?_⟩
    intro ids l h x
    induction ids generalizing l with
    | nil =>
      rw [descendKids_nil] at h
      cases h
      simp
    | cons c cs ihl =>
      rw [descendKids_cons] at h
      rcases hc : descendOne fs (m + 1) c with - | d
      · rw [hc] at h; cases h
      · rcases hcs : descendKids fs (m + 1) cs with - | rest
        · rw [hc, hcs] at h; cases h
        · rw [hc, hcs] at h
          cases h
          constructor
          · intro hx
            rcases List.mem_append.mp hx with hxd | hxr
            · exact ⟨c, List.mem_cons_self c cs, (hone _ _ hc x).mp hxd⟩
            · obtain ⟨q, hq, hrtg⟩ := (ihl _ hcs).mp hxr
              exact ⟨q, List.mem_cons_of_mem c hq, hrtg⟩
          · rintro ⟨q, hq, hrtg⟩
            rcases List.mem_cons.mp hq with rfl | hq'
            · exact List.mem_append_left _ ((hone _ _ hc x).mpr hrtg)
            · exact List.mem_append_right _ ((ihl _ hcs).mpr ⟨q, hq', hrtg⟩)

/-- Membership in `get_folder_with_descendants`. -/
lemma get_folder_with_descendants_mem {fs : List Folder} {i : String}
    {l : List String} (h : get_folder_with_descendants fs i = some l) (x : String) :
    x ∈ l ↔ Relation.ReflTransGen (ChildRel fs) i x :=
  (descend_mem_iff fs _).1 _ _ h x

/-- Claim C9: for every folder `F` of an acyclic store, the list returned by
`get_folder_with_descendants F` contains `F` itself, and for every direct
child `C` of `F` the ids of `get_folder_with_descendants C` are all among the
ids of `get_folder_with_descendants F`. -/
theorem c9_descendants_contain_self_and_children (fs : List Folder)
    (hac : Acyclic fs) (F : Folder) (hF : F ∈ fs) :
    ∃ dF, get_folder_with_descendants fs F.id = some dF ∧ F.id ∈ dF ∧
      ∀ C ∈ fs, C.parent_id = some F.id →
        ∃ dC, get_folder_with_descendants fs C.id = some dC ∧
          ∀ x ∈ dC, x ∈ dF := by
  obtain ⟨dF, hdF⟩ := get_folder_with_descendants_some fs hac F.id
  refine ⟨dF, hdF, ?_, ?_⟩
  · exact (get_folder_with_descendants_mem hdF F.id).mpr Relation.ReflTransGen.refl
  · intro C hC hCp
    obtain ⟨dC, hdC⟩ := get_folder_with_descendants_some fs hac C.id
    refine ⟨dC, hdC, ?_⟩
    intro x hx
    exact (get_folder_with_descendants_mem hdF x).mpr
      (Relation.ReflTransGen.head ⟨C, hC, rfl, hCp⟩
        ((get_folder_with_descendants_mem hdC x).mp hx))

/-- Witness for C9 on a two-folder store (root `a`, child `b`). -/
theorem c9_witness :
    ∃ dF,
      get_folder_with_descendants
        [⟨"a", "A", none, 0⟩, ⟨"b", "B", some "a", 0⟩] "a" = some dF ∧
      "a" ∈ dF ∧
      ∀ C ∈ [Folder.mk "a" "A" none 0, Folder.mk "b" "B" (some "a") 0],
        C.parent_id = some "a" →
        ∃ dC, get_folder_with_descendants
          [⟨"a", "A", none, 0⟩, ⟨"b", "B", some "a", 0⟩] C.id = some dC ∧
          ∀ x ∈ dC, x ∈ dF :=
  c9_descendants_contain_self_and_children
    [⟨"a", "A", none, 0⟩, ⟨"b", "B", some "a", 0⟩]
    (acyclic_of_acyclicHolds (by decide))
    ⟨"a", "A", none, 0⟩ (by decide)

/-- Acyclicity transfers along relation inclusion. -/
lemma acyclic_of_subrel {fs fs' : List Folder}
    (hsub : ∀ x y, ChildRel fs' x y → ChildRel fs x y) (hac : Acyclic fs) :
    Acyclic fs' := fun i hcyc =>
  hac i (Relation.TransGen.mono hsub hcyc)

/-- Adding the single edge `p → a` to an acyclic relation keeps it acyclic
provided `p` was not reachable from `a`. -/
lemma acyclic_add_edge {fs fs' : List Folder} {p a : String}
    (hsub : ∀ x y, ChildRel fs' x y → ChildRel fs x y ∨ (x = p ∧ y = a))
    (hac : Acyclic fs) (hnr : ¬ Relation.ReflTransGen (ChildRel fs) a p) :
    Acyclic fs' := by
  have key : ∀ x y, Relation.TransGen (ChildRel fs') x y →
      Relation.TransGen (ChildRel fs) x y ∨
        (Relation.ReflTransGen (ChildRel fs) x p ∧
         Relation.ReflTransGen (ChildRel fs) a y) := by
    intro x y h
    induction h with
    | single hxy =>
      rcases hsub _ _ hxy with hold | ⟨rfl, rfl⟩
      · exact Or.inl (Relation.TransGen.single hold)
      · exact Or.inr ⟨Relation.ReflTransGen.refl, Relation.ReflTransGen.refl⟩
    | tail hxb hby ih =>
      rcases hsub _ _ hby with hold | ⟨rfl, rfl⟩
      · rcases ih with htg | ⟨hxp, hay⟩
        · exact Or.inl (Relation.TransGen.tail htg hold)
        · exact Or.inr ⟨hxp, Relation.ReflTransGen.tail hay hold⟩
      · rcases ih with htg | ⟨hxp, hab⟩
        · exact Or.inr ⟨htg.to_reflTransGen, Relation.ReflTransGen.refl⟩
        · exact Or.inr ⟨hxp, Relation.ReflTransGen.refl⟩
  intro i hcyc
  rcases key i i hcyc with htg | ⟨hip, hai⟩
  · exact hac i htg
  · exact hnr (hai.trans hip)

/-- An id with no stored row and no outgoing check is unreachable: on a store
whose ids are nonempty, nothing reaches `""` except trivially. -/
lemma not_reach_empty_id {fs : List Folder} (hids : ∀ f ∈ fs, f.id ≠ "")
    {a : String} (ha : a ≠ "") :
    ¬ Relation.ReflTransGen (ChildRel fs) a "" := by
  intro h
  rcases Relation.ReflTransGen.cases_tail h with heq | ⟨c, -, hedge⟩
  · exact ha heq.symm
  · rcases hedge with ⟨f, hf, hfid, -⟩
    exact hids f hf hfid

/-- Edge analysis for the committed `UPDATE`: every edge of the updated rows
is an old edge or the single new edge `parent → folder_id` (the latter only
when some row actually has id `folder_id`). -/
lemma folderUpdateRows_edges {fs : List Folder} {fid name : String}
    {parent : Option String} {now : Nat} {x y : String}
    (h : ChildRel (folderUpdateRows fs fid name parent now) x y) :
    ChildRel fs x y ∨ (parent = some x ∧ y = fid ∧ ∃ f ∈ fs, f.id = fid) := by
  rcases h with ⟨f', hmem, hid, hpar⟩
  rcases List.mem_map.mp hmem with ⟨f, hf, rfl⟩
  by_cases hfi : f.id = fid
  · rw [if_pos hfi] at hid hpar
    refine Or.inr ⟨hpar, ?_, f, hf, hfi⟩
    rw [← hid]
    exact hfi
  · rw [if_neg hfi] at hid hpar
    exact Or.inl ⟨f, hf, hid, hpar⟩

/-- A successful `update_folder` commits exactly the row update. -/
lemma update_folder_ok_eq {fs fs' : List Folder} {fid name : String}
    {parent : Option String} {now : Nat}
    (h : update_folder fs fid name parent now = some (.ok fs')) :
    fs' = folderUpdateRows fs fid name parent now := by
  unfold update_folder at h
  split at h
  · split at h
    · split at h
      · cases h
      · split at h
        · cases h
        · injection h with h1
          injection h1 with h2
          exact h2.symm
    · injection h with h1
      injection h1 with h2
      exact h2.symm
  · injection h with h1
    injection h1 with h2
    exact h2.symm

/-- A committed update with a truthy parent recorded that the new parent was
not among the collected descendants. -/
lemma update_folder_ok_not_descendant {fs fs' : List Folder}
    {fid name p : String} {now : Nat} (hp : p ≠ "")
    (h : update_folder fs fid name (some p) now = some (.ok fs')) :
    ∃ ds, get_folder_with_descendants fs fid = some ds ∧ p ∉ ds := by
  simp only [update_folder] at h
  rw [if_pos hp] at h
  rcases hd : get_folder_with_descendants fs fid with - | ds
  · rw [hd] at h; cases h
  · rw [hd] at h
    by_cases hmem : p ∈ ds
    · simp [hmem] at h
    · exact ⟨ds, rfl, hmem⟩

/-- A committed `update_folder` preserves acyclicity (stored ids assumed
nonempty, as uuid ids are). -/
lemma update_folder_preserves_acyclic {fs fs' : List Folder}
    {fid name : String} {parent : Option String} {now : Nat}
    (hac : Acyclic fs) (hids : ∀ f ∈ fs, f.id ≠ "")
    (h : update_folder fs fid name parent now = some (.ok fs')) :
    Acyclic fs' := by
  have hfs' := update_folder_ok_eq h
  subst hfs'
  by_cases hfid : fid = ""
  · -- no stored row has the empty id, so no edge changes
    apply acyclic_of_subrel ?_ hac
    intro x y hxy
    rcases folderUpdateRows_edges hxy with hold | ⟨-, -, f, hf, hfi⟩
    · exact hold
    · exact absurd (hfid ▸ hfi) (hids f hf)
  rcases parent with - | p
  · apply acyclic_of_subrel ?_ hac
    intro x y hxy
    rcases folderUpdateRows_edges hxy with hold | ⟨hpx, -⟩
    · exact hold
    · cases hpx
  · by_cases hp : p = ""
    · subst hp
      refine acyclic_add_edge (p := "") (a := fid) ?_ hac
        (not_reach_empty_id hids hfid)
      intro x y hxy
      rcases folderUpdateRows_edges hxy with hold | ⟨hpx, hy, -⟩
      · exact Or.inl hold
      · exact Or.inr ⟨(Option.some.inj hpx).symm, hy⟩
    · obtain ⟨ds, hds, hmem⟩ := update_folder_ok_not_descendant hp h
      refine acyclic_add_edge (p := p) (a := fid) ?_ hac ?_
      · intro x y hxy
        rcases folderUpdateRows_edges hxy with hold | ⟨hpx, hy, -⟩
        · exact Or.inl hold
        · exact Or.inr ⟨(Option.some.inj hpx).symm, hy⟩
      · intro hr
        exact hmem ((get_folder_with_descendants_mem hds p).mpr hr)

/-- One folder operation preserves acyclicity and nonemptiness of ids. -/
lemma folderOpStep_preserves {fs fs' : List Folder} (h : FolderOpStep fs fs')
    (hac : Acyclic fs) (hids : ∀ f ∈ fs, f.id ≠ "") :
    Acyclic fs' ∧ ∀ f ∈ fs', f.id ≠ "" := by
  cases h with
  | create fid name parent now hfresh hne hpar =>
    constructor
    · rcases parent with - | q
      · apply acyclic_of_subrel ?_ hac
        intro x y hxy
        rcases hxy with ⟨f, hf, hid, hp⟩
        rcases List.mem_append.mp hf with hf' | hf'
        · exact ⟨f, hf', hid, hp⟩
        · rcases List.mem_singleton.mp hf' with rfl
          cases hp
      · refine acyclic_add_edge (p := q) (a := fid) ?_ hac ?_
        · intro x y hxy
          rcases hxy with ⟨f, hf, hid, hp⟩
          rcases List.mem_append.mp hf with hf' | hf'
          · exact Or.inl ⟨f, hf', hid, hp⟩
          · rcases List.mem_singleton.mp hf' with rfl
            exact Or.inr ⟨(Option.some.inj hp).symm, hid.symm⟩
        · intro hr
          rcases Relation.ReflTransGen.cases_head hr with heq | ⟨c, hedge, -⟩
          · exact hpar (by rw [heq])
          · rcases hedge with ⟨f, hf, -, hp2⟩
            exact (hfresh f hf).2 hp2
    · intro f hf
      rcases List.mem_append.mp hf with hf' | hf'
      · exact hids f hf'
      · rcases List.mem_singleton.mp hf' with rfl
        exact hne
  | update fid name parent now fs2 hupd =>
    refine ⟨update_folder_preserves_acyclic hac hids hupd, ?_⟩
    have heq := update_folder_ok_eq hupd
    subst heq
    intro f hf
    rcases List.mem_map.mp hf with ⟨g, hg, rfl⟩
    by_cases hgi : g.id = fid
    · rw [if_pos hgi]
      exact hgi ▸ hids g hg
    · rw [if_neg hgi]
      exact hids g hg
  | delete fid =>
    constructor
    · apply acyclic_of_subrel ?_ hac
      rintro x y ⟨f, hf, hid, hp⟩
      exact ⟨f, (List.mem_filter.mp hf).1, hid, hp⟩
    · intro f hf
      exact hids f (List.mem_filter.mp hf).1

/-- Any sequence of folder operations preserves acyclicity (and nonempty
ids). -/
lemma folderOps_preserve {fs fs' : List Folder}
    (hrtg : Relation.ReflTransGen FolderOpStep fs fs')
    (hac : Acyclic fs) (hids : ∀ f ∈ fs, f.id ≠ "") :
    Acyclic fs' ∧ ∀ f ∈ fs', f.id ≠ "" := by
  induction hrtg with
  | refl => exact ⟨hac, hids⟩
  | tail _ hstep ih => exact folderOpStep_preserves hstep ih.1 ih.2

/-- Claim C1: on an acyclic store (with the nonempty uuid ids the system
generates), `update_folder A name B` raises the cyclic-move error exactly
when `B` lies in `get_folder_with_descendants A` (which contains `A` itself,
covering the degenerate self-move); for any other `B` — or a null `B` — the
update commits the row change; and every committed result, as well as any
sequence of folder create/update/delete operations, keeps the parent
relation acyclic. -/
theorem c1_update_folder_cycle_guard (fs : List Folder) (hac : Acyclic fs)
    (hids : ∀ f ∈ fs, f.id ≠ "") (A name : String) (now : Nat)
    (hA : ∃ f ∈ fs, f.id = A) :
    ∃ dA, get_folder_with_descendants fs A = some dA ∧ A ∈ dA ∧
      (∀ p, update_folder fs A name (some p) now = some .cyclicError ↔ p ∈ dA) ∧
      (∀ B, (∀ p, B = some p → p ∉ dA) →
        update_folder fs A name B now =
          some (.ok (folderUpdateRows fs A name B now))) ∧
      (∀ B fs', update_folder fs A name B now = some (.ok fs') → Acyclic fs') ∧
      (∀ fs', Relation.ReflTransGen FolderOpStep fs fs' → Acyclic fs') := by
  obtain ⟨dA, hdA⟩ := get_folder_with_descendants_some fs hac A
  have hAne : A ≠ "" := by
    rcases hA with ⟨f, hf, rfl⟩
    exact hids f hf
  have hempty : "" ∉ dA := by
    intro hmem
    exact not_reach_empty_id hids hAne
      ((get_folder_with_descendants_mem hdA "").mp hmem)
  refine ⟨dA, hdA, ?_, ?_, ?_, ?_, ?_⟩
  · exact (get_folder_with_descendants_mem hdA A).mpr Relation.ReflTransGen.refl
  · intro p
    by_cases hp : p = ""
    · subst hp
      constructor
      · intro h
        rw [show update_folder fs A name (some "") now
            = some (.ok (folderUpdateRows fs A name (some "") now)) from rfl] at h
        cases h
      · intro hmem
        exact absurd hmem hempty
    · simp only [update_folder, if_pos hp, hdA]
      by_cases hmem : p ∈ dA
      · simp [if_pos hmem, hmem]
      · simp [if_neg hmem, hmem]
  · intro B hB
    rcases B with - | p
    · rfl
    · by_cases hp : p = ""
      · subst hp
        simp [update_folder]
      · simp only [update_folder, if_pos hp, hdA]
        rw [if_neg (hB p rfl)]
  · intro B fs' h
    exact update_folder_preserves_acyclic hac hids h
  · intro fs' hrtg
    exact (folderOps_preserve hrtg hac hids).1

/-- Witness for C1 on a two-folder store (root `a` with child `b`): moving
`a` under its descendant `b` errors, re-rooting `b` succeeds. -/
theorem c1_witness :
    ∃ dA, get_folder_with_descendants
        [⟨"a", "A", none, 0⟩, ⟨"b", "B", some "a", 0⟩] "a" = some dA ∧
      "a" ∈ dA ∧
      (∀ p, update_folder [⟨"a", "A", none, 0⟩, ⟨"b", "B", some "a", 0⟩]
          "a" "A2" (some p) 7 = some .cyclicError ↔ p ∈ dA) ∧
      (∀ B, (∀ p, B = some p → p ∉ dA) →
        update_folder [⟨"a", "A", none, 0⟩, ⟨"b", "B", some "a", 0⟩]
            "a" "A2" B 7 =
          some (.ok (folderUpdateRows
            [⟨"a", "A", none, 0⟩, ⟨"b", "B", some "a", 0⟩] "a" "A2" B 7))) ∧
      (∀ B fs', update_folder [⟨"a", "A", none, 0⟩, ⟨"b", "B", some "a", 0⟩]
          "a" "A2" B 7 = some (.ok fs') → Acyclic fs') ∧
      (∀ fs', Relation.ReflTransGen FolderOpStep
          [⟨"a", "A", none, 0⟩, ⟨"b", "B", some "a", 0⟩] fs' → Acyclic fs') :=
  c1_update_folder_cycle_guard
    [⟨"a", "A", none, 0⟩, ⟨"b", "B", some "a", 0⟩]
    (acyclic_of_acyclicHolds (by decide)) (by decide) "a" "A2" 7 (by decide)

/-! ## Order properties of the sort comparators -/

lemma charListLt_irrefl : ∀ a, charListLt a a = false := by
  intro a
  induction a with
  | nil => rfl
  | cons x xs ih =>
    unfold charListLt
    have hxx : ¬ x.val < x.val := show ¬ x.val.toNat < x.val.toNat by omega
    rw [if_neg hxx, if_neg hxx]
    exact ih

lemma charListLt_trans : ∀ a b c, charListLt a b = true →
    charListLt b c = true → charListLt a c = true := by
  intro a
  induction a with
  | nil =>
    intro b c hab hbc
    cases b with
    | nil => cases hab
    | cons y ys =>
      cases c with
      | nil => cases hbc
      | cons z zs => rfl
  | cons x xs ih =>
    intro b c hab hbc
    cases b with
    | nil => cases hab
    | cons y ys =>
      cases c with
      | nil => cases hbc
      | cons z zs =>
        unfold charListLt at hab hbc ⊢
        by_cases hxy : x.val < y.val <;> by_cases hyz : y.val < z.val
        · have hxy' : x.val.toNat < y.val.toNat := hxy
          have hyz' : y.val.toNat < z.val.toNat := hyz
          rw [if_pos (show x.val < z.val from
            show x.val.toNat < z.val.toNat by omega)]
        · rw [if_pos hxy] at hab
          rw [if_neg hyz] at hbc
          by_cases hzy : z.val < y.val
          · rw [if_pos hzy] at hbc; cases hbc
          · have hxy' : x.val.toNat < y.val.toNat := hxy
            have hyz' : ¬ y.val.toNat < z.val.toNat := hyz
            have hzy' : ¬ z.val.toNat < y.val.toNat := hzy
            rw [if_pos (show x.val < z.val from
            show x.val.toNat < z.val.toNat by omega)]
        · rw [if_neg hxy] at hab
          by_cases hyx : y.val < x.val
          · rw [if_pos hyx] at hab; cases hab
          · have hxy' : ¬ x.val.toNat < y.val.toNat := hxy
            have hyx' : ¬ y.val.toNat < x.val.toNat := hyx
            have hyz' : y.val.toNat < z.val.toNat := hyz
            rw [if_pos (show x.val < z.val from
            show x.val.toNat < z.val.toNat by omega)]
        · rw [if_neg hxy] at hab
          rw [if_neg hyz] at hbc
          by_cases hyx : y.val < x.val
          · rw [if_pos hyx] at hab; cases hab
          · by_cases hzy : z.val < y.val
            · rw [if_pos hzy] at hbc; cases hbc
            · rw [if_neg hyx] at hab
              rw [if_neg hzy] at hbc
              have hxy' : ¬ x.val.toNat < y.val.toNat := hxy
              have hyx' : ¬ y.val.toNat < x.val.toNat := hyx
              have hyz' : ¬ y.val.toNat < z.val.toNat := hyz
              have hzy' : ¬ z.val.toNat < y.val.toNat := hzy
              rw [if_neg (show ¬ x.val < z.val from
                  show ¬ x.val.toNat < z.val.toNat by omega),
                if_neg (show ¬ z.val < x.val from
                  show ¬ z.val.toNat < x.val.toNat by omega)]
              exact ih ys zs hab hbc

lemma charListLt_asymm {a b : List Char} (hab : charListLt a b = true) :
    charListLt b a = false := by
  cases h : charListLt b a
  · rfl
  · have := charListLt_trans a b a hab h
    rw [charListLt_irrefl] at this
    cases this

lemma charListLt_trichotomy : ∀ a b, charListLt a b = true ∨ a = b ∨
    charListLt b a = true := by
  intro a
  induction a with
  | nil =>
    intro b
    cases b with
    | nil => exact Or.inr (Or.inl rfl)
    | cons y ys => exact Or.inl rfl
  | cons x xs ih =>
    intro b
    cases b with
    | nil => exact Or.inr (Or.inr rfl)
    | cons y ys =>
      by_cases hxy : x.val < y.val
      · exact Or.inl (by unfold charListLt; rw [if_pos hxy])
      · by_cases hyx : y.val < x.val
        · exact Or.inr (Or.inr (by unfold charListLt; rw [if_pos hyx]))
        · have hx : x = y := by
            have h1 : ¬ x.val.toNat < y.val.toNat := hxy
            have h2 : ¬ y.val.toNat < x.val.toNat := hyx
            apply Char.ext
            apply UInt32.ext
            omega
          subst hx
          rcases ih ys with h | h | h
          · exact Or.inl (by
              unfold charListLt
              rw [if_neg hxy, if_neg hyx]
              exact h)
          · exact Or.inr (Or.inl (by rw [h]))
          · exact Or.inr (Or.inr (by
              unfold charListLt
              rw [if_neg hyx, if_neg hxy]
              exact h))

lemma charListLe_or (a b : List Char) :
    (charListLe a b || charListLe b a) = true := by
  unfold charListLe
  cases h : charListLt b a
  · rfl
  · rw [charListLt_asymm h]
    rfl

lemma charListLe_trans {a b c : List Char} (h1 : charListLe a b = true)
    (h2 : charListLe b c = true) : charListLe a c = true := by
  unfold charListLe at h1 h2 ⊢
  cases hca : charListLt c a
  · rfl
  · exfalso
    rcases charListLt_trichotomy a b with h | rfl | h
    · have := charListLt_trans c a b hca h
      rw [this] at h2
      cases h2
    · rw [hca] at h2
      cases h2
    · rw [h] at h1
      cases h1

lemma natBle_or (a b : Nat) : (Nat.ble a b || Nat.ble b a) = true := by
  simp only [Bool.or_eq_true, Nat.ble_eq]
  omega

lemma natBle_trans {a b c : Nat} (h1 : Nat.ble a b = true)
    (h2 : Nat.ble b c = true) : Nat.ble a c = true := by
  simp only [Nat.ble_eq] at h1 h2 ⊢
  omega

lemma bmFieldLe_or (sb so : String) (a b : Bookmark) :
    (bmFieldLe sb so a b || bmFieldLe sb so b a) = true := by
  unfold bmFieldLe
  split_ifs <;>
    first
      | exact charListLe_or _ _
      | rw [Bool.or_comm]; exact charListLe_or _ _
      | exact natBle_or _ _
      | rw [Bool.or_comm]; exact natBle_or _ _

lemma bmFieldLe_trans (sb so : String) {a b c : Bookmark}
    (h1 : bmFieldLe sb so a b = true) (h2 : bmFieldLe sb so b c = true) :
    bmFieldLe sb so a c = true := by
  unfold bmFieldLe at h1 h2 ⊢
  split_ifs at h1 h2 ⊢ <;>
    first
      | exact charListLe_trans h1 h2
      | exact charListLe_trans h2 h1
      | exact natBle_trans h1 h2
      | exact natBle_trans h2 h1

lemma bmLe_or (sb so : String) (a b : Bookmark) :
    (bmLe sb so a b || bmLe sb so b a) = true := by
  cases ha : a.pinned <;> cases hb : b.pinned <;>
    simp [bmLe, ha, hb, bmFieldLe_or]

lemma bmLe_trans (sb so : String) (a b c : Bookmark)
    (h1 : bmLe sb so a b = true) (h2 : bmLe sb so b c = true) :
    bmLe sb so a c = true := by
  cases ha : a.pinned <;> cases hb : b.pinned <;> cases hc : c.pinned <;>
    simp [bmLe, ha, hb, hc] at h1 h2 ⊢ <;>
    exact bmFieldLe_trans sb so h1 h2

/-- Structure of a defined `get_all_bookmarks` result. -/
lemma get_all_bookmarks_some {s : Store} {folder_id : Option String}
    {include_subfolders : Bool} {folder_ids : List String}
    (hscope : resolveFolderScope s folder_id include_subfolders =
      some folder_ids)
    (tag_id search : Option String) (sort_by sort_order : String)
    (page per_page : Nat) :
    get_all_bookmarks s folder_id tag_id search sort_by sort_order
        include_subfolders page per_page =
      some
        { bookmarks :=
            (((List.insertionSort
                (fun a b => bmLe sort_by sort_order a b = true)
                (selectedBookmarks s (folder_id == some "unfiled") folder_ids
                  tag_id search)).drop
                ((page - 1) * per_page)).take per_page).map (rowOf s)
          total := (((selectedBookmarks s (folder_id == some "unfiled")
            folder_ids tag_id search).map (fun b => b.id)).dedup).length
          page := page
          per_page := per_page
          total_pages := ((((selectedBookmarks s (folder_id == some "unfiled")
            folder_ids tag_id search).map (fun b => b.id)).dedup).length +
            per_page - 1) / per_page } := by
  unfold get_all_bookmarks
  rw [hscope]

/-- Claim C5: for every folder scope, tag filter and search text, the
returned `total` is the length of the unpaginated selection produced by the
same filter predicate; the returned page is the slice of the sorted
unpaginated selection starting at zero-based offset `(page−1)·per_page` of
length `per_page`; and `total_pages` is `⌈total / per_page⌉`. -/
theorem c5_count_and_pagination (s : Store)
    (hnodup : (s.bookmarks.map (fun b => b.id)).Nodup)
    (folder_id tag_id search : Option String) (sort_by sort_order : String)
    (include_subfolders : Bool) (page per_page : Nat) (hpp : 1 ≤ per_page)
    (folder_ids : List String)
    (hscope : resolveFolderScope s folder_id include_subfolders =
      some folder_ids) :
    ∃ res, get_all_bookmarks s folder_id tag_id search sort_by sort_order
        include_subfolders page per_page = some res ∧
      res.total = (selectedBookmarks s (folder_id == some "unfiled")
        folder_ids tag_id search).length ∧
      res.bookmarks = (((List.insertionSort
          (fun a b => bmLe sort_by sort_order a b = true)
          (selectedBookmarks s (folder_id == some "unfiled")
            folder_ids tag_id search)).drop
          ((page - 1) * per_page)).take per_page).map (rowOf s) ∧
      res.total_pages = res.total ⌈/⌉ per_page := by
  have hded : ((selectedBookmarks s (folder_id == some "unfiled") folder_ids
      tag_id search).map (fun b => b.id)).dedup =
      (selectedBookmarks s (folder_id == some "unfiled") folder_ids
        tag_id search).map (fun b => b.id) := by
    apply List.dedup_eq_self.mpr
    exact List.Nodup.sublist
      (List.Sublist.map _ (List.filter_sublist s.bookmarks)) hnodup
  refine ⟨_, get_all_bookmarks_some hscope tag_id search sort_by sort_order
    page per_page, ?_, rfl, ?_⟩
  · show (((selectedBookmarks s (folder_id == some "unfiled") folder_ids
      tag_id search).map (fun b => b.id)).dedup).length = _
    rw [hded, List.length_map]
  · show _ = (((selectedBookmarks s (folder_id == some "unfiled") folder_ids
      tag_id search).map (fun b => b.id)).dedup).length ⌈/⌉ per_page
    rw [Nat.ceilDiv_eq_add_pred_div]

/-- Witness for C5 at the sample store with no filters, one result per
page. -/
theorem c5_witness :
    ∃ res, get_all_bookmarks sampleStore none none none "created_at" "desc"
        true 2 1 = some res ∧
      res.total = (selectedBookmarks sampleStore (none == some "unfiled") []
        none none).length ∧
      res.bookmarks = (((List.insertionSort
          (fun a b => bmLe "created_at" "desc" a b = true)
          (selectedBookmarks sampleStore
            (none == some "unfiled") [] none none)).drop
          ((2 - 1) * 1)).take 1).map (rowOf sampleStore) ∧
      res.total_pages = res.total ⌈/⌉ 1 :=
  c5_count_and_pagination sampleStore (by decide) none none none
    "created_at" "desc" true 2 1 (by decide) [] rfl

lemma bmLe_pinned_first {sb so : String} {a b : Bookmark}
    (h : bmLe sb so a b = true) (hb : b.pinned = true) : a.pinned = true := by
  cases ha : a.pinned
  · rw [bmLe, ha, hb] at h
    simpa using h
  · rfl

lemma bmLe_within_group {sb so : String} {a b : Bookmark}
    (h : bmLe sb so a b = true) (he : a.pinned = b.pinned) :
    bmFieldLe sb so a b = true := by
  rw [bmLe, he] at h
  simpa using h

/-- An unrecognized sort field compares exactly like `created_at`. -/
lemma bmLe_default {sb : String} (so : String) (h1 : sb ≠ "title")
    (h2 : sb ≠ "url") : bmLe sb so = bmLe "created_at" so := by
  funext a b
  unfold bmLe bmFieldLe
  rw [beq_eq_false_iff_ne.mpr h1, beq_eq_false_iff_ne.mpr h2,
    (by decide : (("created_at" : String) == "title") = false),
    (by decide : (("created_at" : String) == "url") = false)]

/-- Claim C6: in every returned page, every pinned bookmark precedes every
unpinned one; within a group of equal pinned status, rows are ordered by the
requested field and direction; and an unrecognized sort field behaves
exactly like sorting by creation time. -/
theorem c6_pinned_first_ordering (s : Store)
    (folder_id tag_id search : Option String) (sort_by sort_order : String)
    (include_subfolders : Bool) (page per_page : Nat) (res : BookmarksPage)
    (h : get_all_bookmarks s folder_id tag_id search sort_by sort_order
      include_subfolders page per_page = some res) :
    res.bookmarks.Pairwise
        (fun a b => b.bm.pinned = true → a.bm.pinned = true) ∧
      res.bookmarks.Pairwise
        (fun a b => a.bm.pinned = b.bm.pinned →
          bmFieldLe sort_by sort_order a.bm b.bm = true) ∧
      (sort_by ≠ "title" → sort_by ≠ "url" → sort_by ≠ "created_at" →
        get_all_bookmarks s folder_id tag_id search sort_by sort_order
            include_subfolders page per_page =
          get_all_bookmarks s folder_id tag_id search "created_at" sort_order
            include_subfolders page per_page) := by
  rcases hscope : resolveFolderScope s folder_id include_subfolders
    with - | fids
  · unfold get_all_bookmarks at h
    rw [hscope] at h
    cases h
  · rw [get_all_bookmarks_some hscope tag_id search sort_by sort_order
      page per_page] at h
    injection h with h
    subst h
    haveI : IsTotal Bookmark (fun a b => bmLe sort_by sort_order a b = true) :=
      ⟨fun a b => by
        have := bmLe_or sort_by sort_order a b
        rcases Bool.or_eq_true_iff.mp this with h | h
        · exact Or.inl h
        · exact Or.inr h⟩
    haveI : IsTrans Bookmark (fun a b => bmLe sort_by sort_order a b = true) :=
      ⟨fun a b c h1 h2 => bmLe_trans sort_by sort_order a b c h1 h2⟩
    have hsorted : ((List.insertionSort
        (fun a b => bmLe sort_by sort_order a b = true)
        (selectedBookmarks s (folder_id == some "unfiled") fids
          tag_id search)).Pairwise
        (fun a b => bmLe sort_by sort_order a b = true)) :=
      List.sorted_insertionSort _ _
    have hslice := hsorted.sublist
      ((List.take_sublist per_page _).trans
        (List.drop_sublist ((page - 1) * per_page) _))
    refine ⟨?_, ?_, ?_⟩
    · show (List.map (rowOf s) _).Pairwise _
      rw [List.pairwise_map]
      exact hslice.imp (fun hab hb => bmLe_pinned_first hab hb)
    · show (List.map (rowOf s) _).Pairwise _
      rw [List.pairwise_map]
      exact hslice.imp (fun hab he => bmLe_within_group hab he)
    · intro h1 h2 _
      unfold get_all_bookmarks
      rw [bmLe_default sort_order h1 h2]

/-- Witness for C6 at the sample store, requesting an unrecognized sort
field. -/
theorem c6_witness :
    samplePage.bookmarks.Pairwise
        (fun a b => b.bm.pinned = true → a.bm.pinned = true) ∧
      samplePage.bookmarks.Pairwise
        (fun a b => a.bm.pinned = b.bm.pinned →
          bmFieldLe "bogus" "asc" a.bm b.bm = true) ∧
      (("bogus" : String) ≠ "title" → ("bogus" : String) ≠ "url" →
        ("bogus" : String) ≠ "created_at" →
        get_all_bookmarks sampleStore none none none "bogus" "asc"
            true 1 25 =
          get_all_bookmarks sampleStore none none none "created_at" "asc"
            true 1 25) :=
  c6_pinned_first_ordering sampleStore none none none "bogus" "asc" true 1 25
    samplePage (by decide)

lemma like_pct : ∀ t, likeMatchS t ['%'] = true := by
  intro t
  induction t with
  | nil => rfl
  | cons c t' ih =>
    show likeAt (likeMatchS t') c ['%'] = true
    simp [likeAt, ih]

/-- A wildcard-free literal pattern followed by `%` matches a string exactly
when the case-folded literal is a prefix of the case-folded string. -/
lemma like_lit : ∀ (t lit : List Char), (∀ c ∈ lit, c ≠ '%' ∧ c ≠ '_') →
    likeMatchS t (lit ++ ['%']) =
      isPrefixLF (lit.map sqliteLower) (t.map sqliteLower) := by
  intro t
  induction t with
  | nil =>
    intro lit hlit
    cases lit with
    | nil => rfl
    | cons a lit' =>
      have ha := hlit a (List.mem_cons_self a lit')
      simp [likeMatchS, isPrefixLF, ha.1]
  | cons c t' ih =>
    intro lit hlit
    cases lit with
    | nil =>
      show likeAt (likeMatchS t') c ['%'] = _
      simp [likeAt, like_pct t', isPrefixLF]
    | cons a lit' =>
      have ha := hlit a (List.mem_cons_self a lit')
      show likeAt (likeMatchS t') c ((a :: lit') ++ ['%']) = _
      rw [List.cons_append]
      simp only [likeAt, if_neg ha.1, if_neg ha.2]
      rw [ih lit' (fun x hx => hlit x (List.mem_cons_of_mem a hx))]
      simp [isPrefixLF]

/-- `%lit%` with a wildcard-free `lit` matches exactly the case-folded
substring containment. -/
lemma like_sub : ∀ (s pat : List Char), (∀ c ∈ pat, c ≠ '%' ∧ c ≠ '_') →
    likeMatchS s ('%' :: (pat ++ ['%'])) =
      isSubLF (pat.map sqliteLower) (s.map sqliteLower) := by
  intro s
  induction s with
  | nil =>
    intro pat hpat
    cases pat with
    | nil => rfl
    | cons a pat' =>
      have ha := hpat a (List.mem_cons_self a pat')
      simp [likeMatchS, isSubLF, ha.1]
  | cons c s' ih =>
    intro pat hpat
    show likeAt (likeMatchS s') c ('%' :: (pat ++ ['%'])) = _
    simp only [likeAt, if_pos rfl]
    rw [show likeAt (likeMatchS s') c (pat ++ ['%']) =
      likeMatchS (c :: s') (pat ++ ['%']) from rfl]
    rw [like_lit (c :: s') pat hpat, ih pat hpat]
    simp [isSubLF]

/-- For a wildcard-free search text, the SQL pattern `'%'+q+'%'` tests
exactly case-insensitive substring containment. -/
lemma likeMatch_mkLikePattern (q : String)
    (hw : ∀ c ∈ q.toList, c ≠ '%' ∧ c ≠ '_') (x : String) :
    likeMatch (mkLikePattern q) x = ciSubstr q x := by
  unfold likeMatch mkLikePattern ciSubstr
  have hl : ("%" ++ q ++ "%").toList = '%' :: (q.toList ++ ['%']) := by
    show (("%" ++ q ++ "%").data) = '%' :: (q.data ++ ['%'])
    rw [String.data_append, String.data_append]
    rfl
  rw [hl]
  exact like_sub x.toList q.toList hw

/-- Claim C8 as stated is false: the search text is interpolated into an SQL
`LIKE` pattern, so `%` and `_` act as wildcards, not literal substring
characters.  A bookmark titled `axb` is returned for the search text `a%b`
although `a%b` is not a substring of any of its fields. -/
theorem c8_counterexample :
    selectedBookmarks
        ⟨[], [], [⟨"bx", "u", "axb", none, none, none, false, 0⟩], []⟩
        false [] none (some "a%b") =
      [⟨"bx", "u", "axb", none, none, none, false, 0⟩] ∧
    ciSubstr "a%b" "axb" = false ∧ ciSubstr "a%b" "u" = false := by
  decide

/-- Claim C8 (amended): for every non-empty search text containing no SQL
wildcard character (`%` or `_`), a bookmark is selected exactly when it is a
stored row, passes the folder and tag filters, and the search text is an
(ASCII-)case-insensitive substring of its title, URL, or description
(logical OR; a null description never matches). -/
theorem c8_search_substring (s : Store) (is_unfiled : Bool)
    (folder_ids : List String) (tag_id : Option String) (q : String)
    (hq : q ≠ "") (hw : ∀ c ∈ q.toList, c ≠ '%' ∧ c ≠ '_') :
    ∀ b : Bookmark,
      b ∈ selectedBookmarks s is_unfiled folder_ids tag_id (some q) ↔
        b ∈ s.bookmarks ∧ folderClause is_unfiled folder_ids b = true ∧
        tagClause s.bookmark_tags tag_id b = true ∧
        (ciSubstr q b.title || ciSubstr q b.url ||
          (match b.description with
            | some d => ciSubstr q d
            | none => false)) = true := by
  intro b
  have hsearch : searchClause (some q) b =
      (ciSubstr q b.title || ciSubstr q b.url ||
        (match b.description with
          | some d => ciSubstr q d
          | none => false)) := by
    simp only [searchClause]
    rw [if_pos (bne_iff_ne.mpr hq)]
    rw [likeMatch_mkLikePattern q hw b.title, likeMatch_mkLikePattern q hw b.url]
    rcases b.description with - | d
    · rfl
    · simp only [likeMatch_mkLikePattern q hw d]
  unfold selectedBookmarks bookmarkMatches
  rw [List.mem_filter, hsearch]
  simp [Bool.and_eq_true, and_assoc]

/-- Witness for the amended C8 at the sample store with search text `LPH`
(matches `Alpha` case-insensitively). -/
theorem c8_witness :
    ("LPH" : String) ≠ "" ∧
    (∀ b : Bookmark,
      b ∈ selectedBookmarks sampleStore false [] none (some "LPH") ↔
        b ∈ sampleStore.bookmarks ∧ folderClause false [] b = true ∧
        tagClause sampleStore.bookmark_tags none b = true ∧
        (ciSubstr "LPH" b.title || ciSubstr "LPH" b.url ||
          (match b.description with
            | some d => ciSubstr "LPH" d
            | none => false)) = true) :=
  ⟨by decide,
   c8_search_substring sampleStore false [] none "LPH" (by decide) (by decide)⟩

/-- Claim C7 evaluated at the failing input: `delete_folder "f1"` removes the
folder row, but the bookmark that referenced `f1` keeps its now-dangling
folder reference (the schema's `ON DELETE SET NULL` never fires because
`PRAGMA foreign_keys` is never enabled), and the child folder row is left
unchanged, still pointing at the deleted id. -/
theorem c7_delete_folder_eval :
    delete_folder
        ⟨[⟨"f1", "Work", none, 0⟩, ⟨"f2", "Sub", some "f1", 0⟩], [],
         [⟨"b1", "u", "t", none, none, some "f1", false, 0⟩], []⟩ "f1" =
      ⟨[⟨"f2", "Sub", some "f1", 0⟩], [],
       [⟨"b1", "u", "t", none, none, some "f1", false, 0⟩], []⟩ := by
  decide

lemma buildHF_nil (s : Store) (n : Nat) :
    buildHF s (n + 1) [] = some HForest.nil := rfl

lemma buildHF_cons (s : Store) (n : Nat) (f : Folder) (l : List Folder) :
    buildHF s (n + 1) (f :: l) =
      match buildHF s n (s.folders.filter
          (fun c => c.parent_id = some f.id)), buildHF s (n + 1) l with
      | some cs, some rest =>
        some (HForest.cons
          (HNode.mk f (bookmarkCount s f.id) (subfolderCount s f.id) cs)
          rest)
      | _, _ => none := rfl

lemma mem_hInsert (g : String) (n : HNode) :
    ∀ F, (g ∈ hForestIds (hInsert n F) ↔ g ∈ hNodeIds n ∨ g ∈ hForestIds F)
  | .nil => by simp [hInsert, hForestIds]
  | .cons m f => by
    by_cases h : hLe n m = true
    · simp [hInsert, h, hForestIds, or_assoc]
    · simp only [hInsert, if_neg h, hForestIds, List.mem_append,
        mem_hInsert g n f]
      tauto

mutual
theorem mem_sortHNode (g : String) (n : HNode) :
    g ∈ hNodeIds (sortHNode n) ↔ g ∈ hNodeIds n := by
  rcases n with ⟨f, bc, sc, cs⟩
  simp only [sortHNode, hNodeIds, List.mem_cons]
  rw [mem_sortHForest g cs]
theorem mem_sortHForest (g : String) (F : HForest) :
    g ∈ hForestIds (sortHForest F) ↔ g ∈ hForestIds F := by
  rcases F with - | ⟨n, f⟩
  · simp [sortHForest]
  · simp only [sortHForest, hForestIds, List.mem_append]
    rw [mem_hInsert, mem_sortHNode g n, mem_sortHForest g f]
end

/-- Every id in a built forest is an id of one of the listed folders or is
attached under a collected id that is a stored folder's id and a stored
parent of it. -/
lemma buildHF_ids (s : Store) : ∀ n (l : List Folder) (F : HForest),
    (∀ f ∈ l, f ∈ s.folders) → buildHF s n l = some F →
    ∀ g ∈ hForestIds F,
      (∃ f ∈ l, f.id = g) ∨
      (∃ w, (∃ fw ∈ s.folders, fw.id = w) ∧ w ∈ hForestIds F ∧
        ChildRel s.folders w g) := by
  intro n
  induction n with
  | zero => intro l F _ h; cases h
  | succ m ih =>
    intro l
    induction l with
    | nil =>
      intro F _ h g hg
      rw [buildHF_nil] at h
      cases h
      cases hg
    | cons f l' ihl =>
      intro F hsub h g hg
      rw [buildHF_cons] at h
      rcases hcs : buildHF s m (s.folders.filter
          (fun c => c.parent_id = some f.id)) with - | cs
      · rw [hcs] at h; cases h
      · rcases hrest : buildHF s (m + 1) l' with - | rest
        · rw [hcs, hrest] at h; cases h
        · rw [hcs, hrest] at h
          cases h
          simp only [hForestIds, hNodeIds, List.mem_append,
            List.mem_cons] at hg
          rcases hg with (rfl | hgc) | hgr
          · exact Or.inl ⟨f, List.mem_cons_self f l', rfl⟩
          · have hchild : ∀ c ∈ s.folders.filter
                (fun c => c.parent_id = some f.id), c ∈ s.folders :=
              fun c hc => (List.mem_filter.mp hc).1
            rcases ih _ cs hchild hcs g hgc with ⟨c, hc, rfl⟩ | ⟨w, hw, hwm, hrel⟩
            · refine Or.inr ⟨f.id, ⟨f, hsub f (List.mem_cons_self f l'), rfl⟩,
                ?_, ?_⟩
              · simp [hForestIds, hNodeIds]
              · rcases List.mem_filter.mp hc with ⟨hcmem, hcpar⟩
                exact ⟨c, hcmem, rfl, by simpa using hcpar⟩
            · refine Or.inr ⟨w, hw, ?_, hrel⟩
              simp [hForestIds, hNodeIds, hwm]
          · rcases ihl rest (fun x hx => hsub x (List.mem_cons_of_mem f hx))
                hrest g hgr with ⟨c, hc, rfl⟩ | ⟨w, hw, hwm, hrel⟩
            · exact Or.inl ⟨c, List.mem_cons_of_mem f hc, rfl⟩
            · refine Or.inr ⟨w, hw, ?_, hrel⟩
              simp [hForestIds, hwm]

/-- Every id in the returned hierarchy is a root folder's id or sits under a
collected stored parent. -/
lemma hierarchy_inv {s : Store} {forest : HForest}
    (h : get_folder_hierarchy s = some forest) :
    ∀ g ∈ hForestIds forest,
      (∃ r ∈ s.folders, r.parent_id = none ∧ r.id = g) ∨
      (∃ w, (∃ fw ∈ s.folders, fw.id = w) ∧ w ∈ hForestIds forest ∧
        ChildRel s.folders w g) := by
  unfold get_folder_hierarchy at h
  rcases hb : buildHF s (s.folders.length + 1)
      (s.folders.filter (fun f => f.parent_id = none)) with - | F0
  · rw [hb] at h; cases h
  · rw [hb] at h
    injection h with h
    subst h
    intro g hg
    have hg0 : g ∈ hForestIds F0 := (mem_sortHForest g F0).mp hg
    rcases buildHF_ids s _ _ F0 (fun f hf => (List.mem_filter.mp hf).1) hb g hg0
      with ⟨r, hr, rfl⟩ | ⟨w, hw, hwm, hrel⟩
    · rcases List.mem_filter.mp hr with ⟨hrmem, hrpar⟩
      exact Or.inl ⟨r, hrmem, by simpa using hrpar, rfl⟩
    · exact Or.inr ⟨w, hw, (mem_sortHForest w F0).mpr hwm, hrel⟩

/-- Claim C10: a folder whose non-null parent reference matches no stored
folder id is omitted from the hierarchy entirely — it appears neither as a
root nor in any children list — and every folder reachable below it is
likewise absent. -/
theorem c10_dangling_parent_omitted (s : Store)
    (hnodup : (s.folders.map (fun f => f.id)).Nodup)
    (forest : HForest) (h : get_folder_hierarchy s = some forest)
    (X : Folder) (hX : X ∈ s.folders) (p : String)
    (hXp : X.parent_id = some p) (hdangle : ∀ f ∈ s.folders, f.id ≠ p) :
    X.id ∉ hForestIds forest ∧
      ∀ Y : Folder, Y ∈ s.folders →
        Relation.TransGen (ChildRel s.folders) X.id Y.id →
        Y.id ∉ hForestIds forest := by
  have hinj : ∀ a ∈ s.folders, ∀ b ∈ s.folders, a.id = b.id → a = b :=
    List.inj_on_of_nodup_map hnodup
  have hXnot : X.id ∉ hForestIds forest := by
    intro hmem
    rcases hierarchy_inv h X.id hmem with ⟨r, hr, hrpar, hrid⟩ |
      ⟨w, ⟨fw, hfw, rfl⟩, -, c, hc, hcid, hcpar⟩
    · have : r = X := hinj r hr X hX hrid
      rw [this, hXp] at hrpar
      cases hrpar
    · have : c = X := hinj c hc X hX hcid
      rw [this, hXp] at hcpar
      exact hdangle fw hfw (Option.some.inj hcpar).symm
  refine ⟨hXnot, ?_⟩
  have hgen : ∀ z, Relation.TransGen (ChildRel s.folders) X.id z →
      z ∉ hForestIds forest := by
    intro z htg
    induction htg with
    | @single z1 hedge =>
      intro hmem
      rcases hedge with ⟨c, hc, hcid, hcpar⟩
      rcases hierarchy_inv h z1 hmem with ⟨r, hr, hrpar, hrid⟩ |
        ⟨w, -, hwm, c2, hc2, hc2id, hc2par⟩
      · have : r = c := hinj r hr c hc (hrid.trans hcid.symm)
        rw [this, hcpar] at hrpar
        cases hrpar
      · have : c2 = c := hinj c2 hc2 c hc (hc2id.trans hcid.symm)
        rw [this, hcpar] at hc2par
        rw [← Option.some.inj hc2par] at hwm
        exact hXnot hwm
    | @tail y z1 hxy hedge ihy =>
      intro hmem
      rcases hedge with ⟨c, hc, hcid, hcpar⟩
      rcases hierarchy_inv h _ hmem with ⟨r, hr, hrpar, hrid⟩ |
        ⟨w, -, hwm, c2, hc2, hc2id, hc2par⟩
      · have : r = c := hinj r hr c hc (hrid.trans hcid.symm)
        rw [this, hcpar] at hrpar
        cases hrpar
      · have : c2 = c := hinj c2 hc2 c hc (hc2id.trans hcid.symm)
        rw [this, hcpar] at hc2par
        rw [← Option.some.inj hc2par] at hwm
        exact ihy hwm
  exact fun Y _ htg => hgen Y.id htg

/-- Witness for C10: a store with a root, a folder with a dangling parent
reference, and a child below it; the returned hierarchy contains only the
root. -/
theorem c10_witness :
    ("x" : String) ∉ hForestIds
        (HForest.cons (HNode.mk ⟨"r", "Root", none, 0⟩ 0 0 HForest.nil)
          HForest.nil) ∧
      ∀ Y : Folder,
        Y ∈ [Folder.mk "r" "Root" none 0, Folder.mk "x" "X" (some "ghost") 0,
          Folder.mk "y" "Y" (some "x") 0] →
        Relation.TransGen
          (ChildRel [⟨"r", "Root", none, 0⟩, ⟨"x", "X", some "ghost", 0⟩,
            ⟨"y", "Y", some "x", 0⟩]) "x" Y.id →
        Y.id ∉ hForestIds
          (HForest.cons (HNode.mk ⟨"r", "Root", none, 0⟩ 0 0 HForest.nil)
            HForest.nil) :=
  c10_dangling_parent_omitted
    ⟨[⟨"r", "Root", none, 0⟩, ⟨"x", "X", some "ghost", 0⟩,
      ⟨"y", "Y", some "x", 0⟩], [], [], []⟩
    (by decide)
    (HForest.cons (HNode.mk ⟨"r", "Root", none, 0⟩ 0 0 HForest.nil)
      HForest.nil)
    (by decide)
    ⟨"x", "X", some "ghost", 0⟩ (by decide) "ghost" rfl (by decide)

lemma mkUuid_inj {a b : Nat} (h : mkUuid a = mkUuid b) : a = b := by
  have : (mkUuid a).toList.length = (mkUuid b).toList.length := by rw [h]
  simpa [mkUuid] using this

/-- Claim C4: a container whose guid is one of the five special identifiers
creates no folder — its children are processed in the current scope; every
other container becomes a new folder parented to the current scope (with
recursion scoped to it), except that an empty title skips the container and
its children entirely; and importing a toolbar container holding one
bookmark leaf yields stats `{bookmarks := 1, folders := 0, tags := 0}`. -/
theorem c4_import_pass_through_and_folders
    (fav : String → Option String) (d : FData) (cs : FList)
    (parent : Option String) (st : ImportState)
    (hc : d.ntype = some containerT) :
    ((d.guid.getD "") ∈ specialGuids →
      processNode fav (.mk d cs) parent st = processList fav cs parent st) ∧
    ((d.guid.getD "") ∉ specialGuids → ∀ t, d.title = some t → t ≠ "" →
      processNode fav (.mk d cs) parent st =
        processList fav cs (some (mkUuid st.nextId))
          { store := { st.store with
              folders := create_folder st.store.folders (mkUuid st.nextId) t
                parent 0 }
            nextId := st.nextId + 1
            stats := { st.stats with folders := st.stats.folders + 1 }
            folder_mapping :=
              st.folder_mapping ++ [(d.guid, mkUuid st.nextId)] }) ∧
    ((d.guid.getD "") ∉ specialGuids → d.title = some "" →
      processNode fav (.mk d cs) parent st = st) ∧
    (import_from_firefox_json fav
        (.mk ⟨some containerT, some "toolbar_____", none, none, [], .missing⟩
          (.cons (.mk ⟨some placeT, none, some "X", some "https://x.com",
            [], .missing⟩ .nil) .nil))
        emptyImportState).stats = ⟨1, 0, 0⟩ := by
  refine ⟨?_, ?_, ?_, rfl⟩
  · intro hs
    simp only [processNode]
    rw [if_pos hc, if_pos hs]
  · intro hs t ht hne
    simp only [processNode]
    rw [if_pos hc, if_neg hs, ht]
    simp only [Option.getD_some]
    rw [if_pos hne]
  · intro hs ht
    simp only [processNode]
    rw [if_pos hc, if_neg hs, ht]
    simp only [Option.getD_some]
    rw [if_neg (fun hcon => hcon rfl)]

/-- Witness for C4: a pass-through `menu________` container, and the toolbar
scenario. -/
theorem c4_witness :
    (processNode (fun _ => none)
        (.mk ⟨some containerT, some "menu________", some "M", none, [],
          .missing⟩ .nil) none emptyImportState =
      processList (fun _ => none) .nil none emptyImportState) ∧
    (import_from_firefox_json (fun _ => none)
        (.mk ⟨some containerT, some "toolbar_____", none, none, [], .missing⟩
          (.cons (.mk ⟨some placeT, none, some "X", some "https://x.com",
            [], .missing⟩ .nil) .nil))
        emptyImportState).stats = ⟨1, 0, 0⟩ :=
  ⟨(c4_import_pass_through_and_folders (fun _ => none)
      ⟨some containerT, some "menu________", some "M", none, [], .missing⟩
      .nil none emptyImportState rfl).1 (by decide),
   (c4_import_pass_through_and_folders (fun _ => none)
      ⟨some containerT, some "menu________", some "M", none, [], .missing⟩
      .nil none emptyImportState rfl).2.2.2⟩

mutual
theorem flattenCN_fst (pg : Option String) (n : FNode) :
    (flattenCN pg n).map (fun e => e.1) = cGuidsN n := by
  rcases n with ⟨d, cs⟩
  by_cases hc : d.ntype = some containerT
  · rcases hg : d.guid with - | g
    · simp only [flattenCN, cGuidsN, if_pos hc, hg]
      exact flattenCL_fst pg cs
    · simp only [flattenCN, cGuidsN, if_pos hc, hg, List.map_cons]
      rw [flattenCL_fst (some g) cs]
      rfl
  · simp only [flattenCN, cGuidsN, if_neg hc]
    exact flattenCL_fst pg cs
theorem flattenCL_fst (pg : Option String) (l : FList) :
    (flattenCL pg l).map (fun e => e.1) = cGuidsL l := by
  rcases l with - | ⟨n, l'⟩
  · rfl
  · simp only [flattenCL, cGuidsL, List.map_append]
    rw [flattenCN_fst pg n, flattenCL_fst pg l']
end

lemma flattenCL_flSnoc (pg : Option String) (n : FNode) :
    ∀ l, flattenCL pg (flSnoc l n) = flattenCL pg l ++ flattenCN pg n
  | .nil => by simp [flSnoc, flattenCL]
  | .cons m l' => by simp [flSnoc, flattenCL, flattenCL_flSnoc pg n l']

lemma flattenPL_flSnoc (n : FNode) :
    ∀ l, flattenPL (flSnoc l n) = flattenPL l ++ flattenPN n
  | .nil => by simp [flSnoc, flattenPL]
  | .cons m l' => by simp [flSnoc, flattenPL, flattenPL_flSnoc n l']

lemma flattenCL_flAppend (pg : Option String) (l2 : FList) :
    ∀ l, flattenCL pg (flAppend l l2) = flattenCL pg l ++ flattenCL pg l2
  | .nil => by simp [flAppend, flattenCL]
  | .cons m l' => by simp [flAppend, flattenCL, flattenCL_flAppend pg l2 l']

lemma flattenPL_flAppend (l2 : FList) :
    ∀ l, flattenPL (flAppend l l2) = flattenPL l ++ flattenPL l2
  | .nil => by simp [flAppend, flattenPL]
  | .cons m l' => by simp [flAppend, flattenPL, flattenPL_flAppend l2 l']

mutual
theorem appendAtNode_isSome (g : String) (child : FNode) :
    ∀ n, (appendAtNode g child n).isSome = true ↔ g ∈ cGuidsN n := by
  intro n
  rcases n with ⟨d, cs⟩
  by_cases h : d.ntype = some containerT ∧ d.guid = some g
  · have heq : appendAtNode g child (.mk d cs) =
        some (.mk d (flSnoc cs child)) := by
      simp only [appendAtNode]
      exact if_pos h
    rw [heq]
    simp [cGuidsN, if_pos h.1, h.2]
  · have heq : appendAtNode g child (.mk d cs) =
        match appendAtList g child cs with
        | some cs' => some (.mk d cs')
        | none => none := by
      simp only [appendAtNode]
      exact if_neg h
    rw [heq]
    have hrec := appendAtList_isSome g child cs
    constructor
    · intro hs
      rcases hl : appendAtList g child cs with - | cs'
      · rw [hl] at hs; cases hs
      · have : g ∈ cGuidsL cs := hrec.mp (by rw [hl]; rfl)
        simp only [cGuidsN, List.mem_append]
        exact Or.inr this
    · intro hmem
      simp only [cGuidsN, List.mem_append] at hmem
      have hg : g ∈ cGuidsL cs := by
        rcases hmem with hpre | hcs
        · exfalso
          by_cases hc : d.ntype = some containerT
          · rw [if_pos hc] at hpre
            rcases hgd : d.guid with - | g'
            · rw [hgd] at hpre; cases hpre
            · rw [hgd] at hpre
              rcases List.mem_singleton.mp hpre with rfl
              exact h ⟨hc, hgd⟩
          · rw [if_neg hc] at hpre; cases hpre
        · exact hcs
      rcases hl : appendAtList g child cs with - | cs'
      · have := hrec.mpr hg
        rw [hl] at this
        cases this
      · rfl
theorem appendAtList_isSome (g : String) (child : FNode) :
    ∀ l, (appendAtList g child l).isSome = true ↔ g ∈ cGuidsL l := by
  intro l
  rcases l with - | ⟨n, ns⟩
  · simp [appendAtList, cGuidsL]
  · simp only [appendAtList, cGuidsL, List.mem_append]
    rcases hn : appendAtNode g child n with - | n'
    · have h1 : ¬ g ∈ cGuidsN n := by
        intro hmem
        have := (appendAtNode_isSome g child n).mpr hmem
        rw [hn] at this
        cases this
      rcases hl : appendAtList g child ns with - | ns'
      · have h2 : ¬ g ∈ cGuidsL ns := by
          intro hmem
          have := (appendAtList_isSome g child ns).mpr hmem
          rw [hl] at this
          cases this
        simp [h1, h2]
      · have h2 : g ∈ cGuidsL ns :=
          (appendAtList_isSome g child ns).mp (by rw [hl]; rfl)
        simp [h1, h2]
    · have h1 : g ∈ cGuidsN n :=
        (appendAtNode_isSome g child n).mp (by rw [hn]; rfl)
      simp [h1]
end

mutual
theorem appendAtNode_flattenC (g : String) (child : FNode) :
    ∀ n n', appendAtNode g child n = some n' → ∀ pg,
      (flattenCN pg n').Perm (flattenCN pg n ++ flattenCN (some g) child) := by
  intro n n' happ pg
  rcases n with ⟨d, cs⟩
  by_cases h : d.ntype = some containerT ∧ d.guid = some g
  · have heq : appendAtNode g child (.mk d cs) =
        some (.mk d (flSnoc cs child)) := by
      simp only [appendAtNode]
      exact if_pos h
    rw [heq] at happ
    injection happ with happ
    subst happ
    simp only [flattenCN, if_pos h.1, h.2, flattenCL_flSnoc]
    simp
  · have heq : appendAtNode g child (.mk d cs) =
        match appendAtList g child cs with
        | some cs' => some (.mk d cs')
        | none => none := by
      simp only [appendAtNode]
      exact if_neg h
    rw [heq] at happ
    rcases hl : appendAtList g child cs with - | cs'
    · rw [hl] at happ; cases happ
    · rw [hl] at happ
      injection happ with happ
      subst happ
      by_cases hc : d.ntype = some containerT
      · rcases hgd : d.guid with - | g'
        · simp only [flattenCN, if_pos hc, hgd]
          exact appendAtList_flattenC g child cs cs' hl pg
        · simp only [flattenCN, if_pos hc, hgd]
          rw [List.cons_append]
          exact (appendAtList_flattenC g child cs cs' hl (some g')).cons _
      · simp only [flattenCN, if_neg hc]
        exact appendAtList_flattenC g child cs cs' hl pg
theorem appendAtList_flattenC (g : String) (child : FNode) :
    ∀ l l', appendAtList g child l = some l' → ∀ pg,
      (flattenCL pg l').Perm (flattenCL pg l ++ flattenCN (some g) child) := by
  intro l l' happ pg
  rcases l with - | ⟨n, ns⟩
  · cases happ
  · simp only [appendAtList] at happ
    rcases hn : appendAtNode g child n with - | n'
    · rw [hn] at happ
      rcases hl : appendAtList g child ns with - | ns'
      · rw [hl] at happ; cases happ
      · rw [hl] at happ
        injection happ with happ
        subst happ
        simp only [flattenCL]
        rw [List.append_assoc]
        exact (appendAtList_flattenC g child ns ns' hl pg).append_left _
    · rw [hn] at happ
      injection happ with happ
      subst happ
      simp only [flattenCL]
      refine ((appendAtNode_flattenC g child n n' hn pg).append_right
        (flattenCL pg ns)).trans ?_
      rw [List.append_assoc, List.append_assoc]
      exact List.Perm.append_left _ List.perm_append_comm
end

mutual
theorem appendAtNode_flattenP (g : String) (child : FNode) :
    ∀ n n', appendAtNode g child n = some n' →
      (flattenPN n').Perm (flattenPN n ++ flattenPN child) := by
  intro n n' happ
  rcases n with ⟨d, cs⟩
  by_cases h : d.ntype = some containerT ∧ d.guid = some g
  · have heq : appendAtNode g child (.mk d cs) =
        some (.mk d (flSnoc cs child)) := by
      simp only [appendAtNode]
      exact if_pos h
    rw [heq] at happ
    injection happ with happ
    subst happ
    simp only [flattenPN, flattenPL_flSnoc]
    simp
  · have heq : appendAtNode g child (.mk d cs) =
        match appendAtList g child cs with
        | some cs' => some (.mk d cs')
        | none => none := by
      simp only [appendAtNode]
      exact if_neg h
    rw [heq] at happ
    rcases hl : appendAtList g child cs with - | cs'
    · rw [hl] at happ; cases happ
    · rw [hl] at happ
      injection happ with happ
      subst happ
      simp only [flattenPN]
      rw [List.append_assoc]
      exact (appendAtList_flattenP g child cs cs' hl).append_left _
theorem appendAtList_flattenP (g : String) (child : FNode) :
    ∀ l l', appendAtList g child l = some l' →
      (flattenPL l').Perm (flattenPL l ++ flattenPN child) := by
  intro l l' happ
  rcases l with - | ⟨n, ns⟩
  · cases happ
  · simp only [appendAtList] at happ
    rcases hn : appendAtNode g child n with - | n'
    · rw [hn] at happ
      rcases hl : appendAtList g child ns with - | ns'
      · rw [hl] at happ; cases happ
      · rw [hl] at happ
        injection happ with happ
        subst happ
        simp only [flattenPL]
        rw [List.append_assoc]
        exact (appendAtList_flattenP g child ns ns' hl).append_left _
    · rw [hn] at happ
      injection happ with happ
      subst happ
      simp only [flattenPL]
      refine ((appendAtNode_flattenP g child n n' hn).append_right
        (flattenPL ns)).trans ?_
      rw [List.append_assoc, List.append_assoc]
      exact List.Perm.append_left _ List.perm_append_comm
end

lemma appendAtList_cGuids {g : String} {child : FNode} {l l' : FList}
    (h : appendAtList g child l = some l') :
    (cGuidsL l').Perm (cGuidsL l ++ cGuidsN child) := by
  have hp := (appendAtList_flattenC g child l l' h none).map (fun e => e.1)
  rw [flattenCL_fst, List.map_append, flattenCL_fst, flattenCN_fst] at hp
  exact hp

lemma cGuidsL_flSnoc (n : FNode) :
    ∀ l, cGuidsL (flSnoc l n) = cGuidsL l ++ cGuidsN n
  | .nil => by simp [flSnoc, cGuidsL]
  | .cons m l' => by simp [flSnoc, cGuidsL, cGuidsL_flSnoc n l']

lemma cGuidsL_flAppend (l2 : FList) :
    ∀ l, cGuidsL (flAppend l l2) = cGuidsL l ++ cGuidsL l2
  | .nil => by simp [flAppend, cGuidsL]
  | .cons m l' => by simp [flAppend, cGuidsL, cGuidsL_flAppend l2 l']

lemma flattenCN_folderNode (pg : Option String) (f : Folder) :
    flattenCN pg (folderNodeOf f) = [(f.id, some f.name, pg)] := by
  simp [folderNodeOf, flattenCN, flattenCL]

lemma cGuidsN_folderNode (f : Folder) :
    cGuidsN (folderNodeOf f) = [f.id] := by
  simp [folderNodeOf, cGuidsN, cGuidsL]

lemma flattenPN_folderNode (f : Folder) :
    flattenPN (folderNodeOf f) = [] := by
  simp only [folderNodeOf, flattenPN, flattenPL]
  rw [if_neg (by simp [placeT, containerT])]
  rfl

lemma flattenCN_placeNode (pg : Option String) (s : Store) (b : Bookmark) :
    flattenCN pg (placeNodeOf s b) = [] := by
  simp only [placeNodeOf, placeDataOf, flattenCN]
  rw [if_neg (by simp [placeT, containerT])]
  rfl

lemma cGuidsN_placeNode (s : Store) (b : Bookmark) :
    cGuidsN (placeNodeOf s b) = [] := by
  simp only [placeNodeOf, placeDataOf, cGuidsN]
  rw [if_neg (by simp [placeT, containerT])]
  rfl

lemma flattenPN_placeNode (s : Store) (b : Bookmark) :
    flattenPN (placeNodeOf s b) = [placeDataOf s b] := by
  simp only [placeNodeOf, flattenPN]
  rw [if_pos (by simp [placeDataOf])]
  rfl

/-- Counterexample to C3: in a store where parent "p" is named "zz" and its
child "c" is named "aa", the name ordering processes the child first, the
parent is not yet mapped, and the child container is dropped from the export
entirely (attachment is order-sensitive); and a folder whose declared parent
"ghost" matches no folder is likewise dropped instead of appearing as a
root-level container. -/
theorem c3_counterexample :
    ("c" ∉ cGuidsN (export_to_firefox_json
        ⟨[⟨"p", "zz", none, 0⟩, ⟨"c", "aa", some "p", 0⟩], [], [], []⟩)) ∧
    ("c" ∉ cGuidsN (export_to_firefox_json
        ⟨[⟨"c", "aa", some "ghost", 0⟩], [], [], []⟩)) := by decide

/-- Counterexample to C2: exporting the acyclic two-folder store
{p: "zz" (root), c: "aa" (child of p)} and importing the result into an
empty store yields a single folder named "zz" — the child folder "aa" is
lost by the order-sensitive export attachment. -/
theorem c2_counterexample :
    (import_from_firefox_json (fun _ => none)
        (export_to_firefox_json
          ⟨[⟨"p", "zz", none, 0⟩, ⟨"c", "aa", some "p", 0⟩], [], [], []⟩)
        emptyImportState).store.folders.map (fun f => f.name) = ["zz"] := by
  decide

lemma tryAttach_cases {st : ExpSt} {pid : String} {nd : FNode} {st' : ExpSt}
    (h : tryAttach st pid nd = some st') :
    (∃ rs, appendAtList pid nd st.roots = some rs ∧ st' = ⟨rs, st.orphans⟩) ∨
    (appendAtList pid nd st.roots = none ∧
      ∃ os, appendAtList pid nd st.orphans = some os ∧
        st' = ⟨st.roots, os⟩) := by
  simp only [tryAttach] at h
  rcases hr : appendAtList pid nd st.roots with - | rs
  · rw [hr] at h
    rcases ho : appendAtList pid nd st.orphans with - | os
    · rw [ho] at h; cases h
    · rw [ho] at h
      injection h with h
      exact Or.inr ⟨rfl, os, rfl, h.symm⟩
  · rw [hr] at h
    injection h with h
    exact Or.inl ⟨rs, rfl, h.symm⟩

lemma tryAttach_none {st : ExpSt} {pid : String} {nd : FNode}
    (h : tryAttach st pid nd = none) :
    pid ∉ cGuidsL st.roots ∧ pid ∉ cGuidsL st.orphans := by
  simp only [tryAttach] at h
  rcases hr : appendAtList pid nd st.roots with - | rs
  · rw [hr] at h
    rcases ho : appendAtList pid nd st.orphans with - | os
    · constructor
      · intro hmem
        have := (appendAtList_isSome pid nd st.roots).mpr hmem
        rw [hr] at this; cases this
      · intro hmem
        have := (appendAtList_isSome pid nd st.orphans).mpr hmem
        rw [ho] at this; cases this
    · rw [ho] at h; cases h
  · rw [hr] at h; cases h

lemma tryAttach_roots {st : ExpSt} {pid : String} (nd : FNode)
    (h : pid ∈ cGuidsL st.roots) :
    ∃ rs, appendAtList pid nd st.roots = some rs ∧
      tryAttach st pid nd = some ⟨rs, st.orphans⟩ := by
  have hs := (appendAtList_isSome pid nd st.roots).mpr h
  rcases hr : appendAtList pid nd st.roots with - | rs
  · rw [hr] at hs; cases hs
  · refine ⟨rs, rfl, ?_⟩
    simp only [tryAttach]
    rw [hr]

/-- One folder step adds exactly its own guid to the combined container
guids of the two forests. -/
lemma expFolderStep_guids (st : ExpSt) (f : Folder) :
    (cGuidsL (expFolderStep st f).roots ++
      cGuidsL (expFolderStep st f).orphans).Perm
      ((cGuidsL st.roots ++ cGuidsL st.orphans) ++ [f.id]) := by
  rcases hp : f.parent_id with - | p
  · have hstep : expFolderStep st f = { st with roots := flSnoc st.roots (folderNodeOf f) } := by
      simp only [expFolderStep, hp]
    rw [hstep]
    simp only [cGuidsL_flSnoc, cGuidsN_folderNode]
    rw [List.append_assoc, List.append_assoc]
    exact List.Perm.append_left _ List.perm_append_comm
  · by_cases hpne : p ≠ ""
    · rcases htry : tryAttach st p (folderNodeOf f) with - | st'
      · have hstep : expFolderStep st f = { st with orphans := flSnoc st.orphans (folderNodeOf f) } := by
          simp only [expFolderStep, hp]
          rw [if_pos hpne, htry]
        rw [hstep]
        simp only [cGuidsL_flSnoc, cGuidsN_folderNode]
        rw [List.append_assoc]
      · have hstep : expFolderStep st f = st' := by
          simp only [expFolderStep, hp]
          rw [if_pos hpne, htry]
        rw [hstep]
        rcases tryAttach_cases htry with ⟨rs, hrs, hst'⟩ | ⟨-, os, hos, hst'⟩
        · subst hst'
          have h1 := appendAtList_cGuids hrs
          rw [cGuidsN_folderNode] at h1
          refine (h1.append_right (cGuidsL st.orphans)).trans ?_
          rw [List.append_assoc, List.append_assoc]
          exact List.Perm.append_left _ List.perm_append_comm
        · subst hst'
          have h1 := appendAtList_cGuids hos
          rw [cGuidsN_folderNode] at h1
          refine (h1.append_left (cGuidsL st.roots)).trans ?_
          rw [List.append_assoc]
    · have hstep : expFolderStep st f = { st with roots := flSnoc st.roots (folderNodeOf f) } := by
        simp only [expFolderStep, hp]
        rw [if_neg hpne]
      rw [hstep]
      simp only [cGuidsL_flSnoc, cGuidsN_folderNode]
      rw [List.append_assoc, List.append_assoc]
      exact List.Perm.append_left _ List.perm_append_comm

/-- One folder step keeps every guid already among the orphan containers. -/
lemma expFolderStep_orphans_mono {st : ExpSt} (f : Folder) {g : String}
    (h : g ∈ cGuidsL st.orphans) :
    g ∈ cGuidsL (expFolderStep st f).orphans := by
  rcases hp : f.parent_id with - | p
  · have hstep : expFolderStep st f = { st with roots := flSnoc st.roots (folderNodeOf f) } := by
      simp only [expFolderStep, hp]
    rw [hstep]
    exact h
  · by_cases hpne : p ≠ ""
    · rcases htry : tryAttach st p (folderNodeOf f) with - | st'
      · have hstep : expFolderStep st f = { st with orphans := flSnoc st.orphans (folderNodeOf f) } := by
          simp only [expFolderStep, hp]
          rw [if_pos hpne, htry]
        rw [hstep]
        simp only [cGuidsL_flSnoc]
        exact List.mem_append_left _ h
      · have hstep : expFolderStep st f = st' := by
          simp only [expFolderStep, hp]
          rw [if_pos hpne, htry]
        rw [hstep]
        rcases tryAttach_cases htry with ⟨rs, -, hst'⟩ | ⟨-, os, hos, hst'⟩
        · subst hst'
          exact h
        · subst hst'
          exact ((appendAtList_cGuids hos).mem_iff).mpr
            (List.mem_append_left _ h)
    · have hstep : expFolderStep st f = { st with roots := flSnoc st.roots (folderNodeOf f) } := by
        simp only [expFolderStep, hp]
        rw [if_neg hpne]
      rw [hstep]
      exact h

/-- One bookmark step changes no container guids: the appended node is a
place leaf. -/
lemma expBookmarkStep_guids (s : Store) (acc : ExpSt × FList) (b : Bookmark) :
    (cGuidsL (expBookmarkStep s acc b).1.roots).Perm (cGuidsL acc.1.roots) ∧
    (cGuidsL (expBookmarkStep s acc b).1.orphans).Perm
      (cGuidsL acc.1.orphans) ∧
    cGuidsL (expBookmarkStep s acc b).2 = cGuidsL acc.2 := by
  have hsnoc : cGuidsL (flSnoc acc.2 (placeNodeOf s b)) = cGuidsL acc.2 := by
    rw [cGuidsL_flSnoc, cGuidsN_placeNode, List.append_nil]
  rcases hf : b.folder_id with - | fid
  · have hstep : expBookmarkStep s acc b = (acc.1, flSnoc acc.2 (placeNodeOf s b)) := by
      simp only [expBookmarkStep, hf]
    rw [hstep]
    exact ⟨List.Perm.refl _, List.Perm.refl _, hsnoc⟩
  · by_cases hfne : fid ≠ ""
    · rcases htry : tryAttach acc.1 fid (placeNodeOf s b) with - | st'
      · have hstep : expBookmarkStep s acc b = (acc.1, flSnoc acc.2 (placeNodeOf s b)) := by
          simp only [expBookmarkStep, hf]
          rw [if_pos hfne, htry]
        rw [hstep]
        exact ⟨List.Perm.refl _, List.Perm.refl _, hsnoc⟩
      · have hstep : expBookmarkStep s acc b = (st', acc.2) := by
          simp only [expBookmarkStep, hf]
          rw [if_pos hfne, htry]
        rw [hstep]
        rcases tryAttach_cases htry with ⟨rs, hrs, hst'⟩ | ⟨-, os, hos, hst'⟩
        · subst hst'
          have h1 := appendAtList_cGuids hrs
          rw [cGuidsN_placeNode, List.append_nil] at h1
          exact ⟨h1, List.Perm.refl _, rfl⟩
        · subst hst'
          have h1 := appendAtList_cGuids hos
          rw [cGuidsN_placeNode, List.append_nil] at h1
          exact ⟨List.Perm.refl _, h1, rfl⟩
    · have hstep : expBookmarkStep s acc b = (acc.1, flSnoc acc.2 (placeNodeOf s b)) := by
        simp only [expBookmarkStep, hf]
        rw [if_neg hfne]
      rw [hstep]
      exact ⟨List.Perm.refl _, List.Perm.refl _, hsnoc⟩

/-- The bookmark pass changes no container guids. -/
lemma expBookmarks_guids (s : Store) :
    ∀ (bms : List Bookmark) (acc : ExpSt × FList),
      (cGuidsL (bms.foldl (expBookmarkStep s) acc).1.roots).Perm
        (cGuidsL acc.1.roots) ∧
      (cGuidsL (bms.foldl (expBookmarkStep s) acc).1.orphans).Perm
        (cGuidsL acc.1.orphans) ∧
      cGuidsL (bms.foldl (expBookmarkStep s) acc).2 = cGuidsL acc.2
  | [], acc => ⟨List.Perm.refl _, List.Perm.refl _, rfl⟩
  | b :: bms, acc => by
    have hstep := expBookmarkStep_guids s acc b
    have hrest := expBookmarks_guids s bms (expBookmarkStep s acc b)
    simp only [List.foldl_cons]
    exact ⟨hrest.1.trans hstep.1, hrest.2.1.trans hstep.2.1,
      hrest.2.2.trans hstep.2.2⟩

/-- The folder pass appends exactly the processed folder ids to the
combined container guids. -/
lemma expFolders_guids :
    ∀ (fs : List Folder) (st : ExpSt),
      (cGuidsL (fs.foldl expFolderStep st).roots ++
        cGuidsL (fs.foldl expFolderStep st).orphans).Perm
        ((cGuidsL st.roots ++ cGuidsL st.orphans) ++
          fs.map (fun f => f.id))
  | [], st => by simp
  | f :: fs, st => by
    have hstep := expFolderStep_guids st f
    have hrest := expFolders_guids fs (expFolderStep st f)
    simp only [List.foldl_cons, List.map_cons]
    refine hrest.trans ?_
    refine (hstep.append_right _).trans ?_
    rw [List.append_assoc, List.singleton_append]

/-- The folder pass keeps every guid already among the orphan containers. -/
lemma expFolders_orphans_mono :
    ∀ (fs : List Folder) (st : ExpSt) {g : String},
      g ∈ cGuidsL st.orphans →
      g ∈ cGuidsL (fs.foldl expFolderStep st).orphans
  | [], _, _, h => h
  | f :: fs, st, g, h =>
    expFolders_orphans_mono fs (expFolderStep st f)
      (expFolderStep_orphans_mono f h)

/-- A folder whose truthy parent id matches no processed or pending folder
id ends up among the orphan containers. -/
lemma expFolders_dangling :
    ∀ (fs : List Folder) (st : ExpSt) (ids : List String) (f : Folder)
      (p : String),
      f ∈ fs → f.parent_id = some p → p ≠ "" →
      (cGuidsL st.roots ++ cGuidsL st.orphans).Perm ids →
      p ∉ ids → p ∉ fs.map (fun q => q.id) →
      f.id ∈ cGuidsL ((fs.foldl expFolderStep st).orphans)
  | [], _, _, _, _, hmem, _, _, _, _, _ => absurd hmem (List.not_mem_nil _)
  | x :: fs, st, ids, f, p, hmem, hp, hpne, hG, hpids, hpfs => by
    simp only [List.foldl_cons]
    rcases List.mem_cons.mp hmem with rfl | hmem'
    · have hnr : p ∉ cGuidsL st.roots := fun hin =>
        hpids (hG.mem_iff.mp (List.mem_append_left _ hin))
      have hno : p ∉ cGuidsL st.orphans := fun hin =>
        hpids (hG.mem_iff.mp (List.mem_append_right _ hin))
      have htry : tryAttach st p (folderNodeOf f) = none := by
        rcases ht : tryAttach st p (folderNodeOf f) with - | st'
        · rfl
        · exfalso
          rcases tryAttach_cases ht with ⟨rs, hrs, -⟩ | ⟨-, os, hos, -⟩
          · exact hnr ((appendAtList_isSome p (folderNodeOf f)
              st.roots).mp (by rw [hrs]; rfl))
          · exact hno ((appendAtList_isSome p (folderNodeOf f)
              st.orphans).mp (by rw [hos]; rfl))
      have hstep : expFolderStep st f = { st with orphans := flSnoc st.orphans (folderNodeOf f) } := by
        simp only [expFolderStep, hp]
        rw [if_pos hpne, htry]
      rw [hstep]
      refine expFolders_orphans_mono fs _ ?_
      rw [cGuidsL_flSnoc, cGuidsN_folderNode]
      exact List.mem_append_right _ (List.mem_singleton.mpr rfl)
    · refine expFolders_dangling fs (expFolderStep st x) (ids ++ [x.id]) f p
        hmem' hp hpne ?_ ?_ ?_
      · exact (expFolderStep_guids st x).trans (hG.append_right _)
      · intro hin
        rcases List.mem_append.mp hin with hin | hin
        · exact hpids hin
        · rcases List.mem_singleton.mp hin with rfl
          exact hpfs (List.mem_map.mpr ⟨x, List.mem_cons_self x fs, rfl⟩)
      · intro hin
        refine hpfs ?_
        simp only [List.map_cons]
        exact List.mem_cons.mpr (Or.inr hin)

/-- The folder pass under well-formed inputs: when every truthy parent
reference resolves to a folder with a strictly smaller name (hence already
processed under the name ordering), no folder is orphaned and the root
forest carries exactly one (id, title, enclosing guid) container entry per
folder, the enclosing guid being the folder's stored parent id. -/
lemma expFolders_attach_all :
    ∀ (rem proc : List Folder) (st : ExpSt),
      rem.Pairwise
        (fun a b => charListLe a.name.toList b.name.toList = true) →
      (∀ f ∈ rem, ∀ p, f.parent_id = some p → p ≠ "" ∧
        ∃ q, (q ∈ proc ∨ q ∈ rem) ∧ q.id = p ∧
          charListLt q.name.toList f.name.toList = true) →
      st.orphans = .nil →
      (flattenCL none st.roots).Perm (proc.map folderEntry) →
      flattenPL st.roots = [] →
      (rem.foldl expFolderStep st).orphans = .nil ∧
      (flattenCL none (rem.foldl expFolderStep st).roots).Perm
        ((proc ++ rem).map folderEntry) ∧
      flattenPL (rem.foldl expFolderStep st).roots = []
  | [], proc, st, _, _, ho, hc, hp => by
    simp only [List.foldl_nil, List.append_nil]
    exact ⟨ho, hc, hp⟩
  | x :: rem, proc, st, hpair, hres, ho, hc, hp => by
    simp only [List.foldl_cons]
    have hres' : ∀ f ∈ rem, ∀ p, f.parent_id = some p → p ≠ "" ∧
        ∃ q, (q ∈ proc ++ [x] ∨ q ∈ rem) ∧ q.id = p ∧
          charListLt q.name.toList f.name.toList = true := by
      intro f hf p hfp
      rcases hres f (List.mem_cons.mpr (Or.inr hf)) p hfp with
        ⟨hpne, q, hq, hqid, hlt⟩
      refine ⟨hpne, q, ?_, hqid, hlt⟩
      rcases hq with hq | hq
      · exact Or.inl (List.mem_append_left _ hq)
      · rcases List.mem_cons.mp hq with rfl | hq
        · exact Or.inl (List.mem_append_right _ (List.mem_singleton.mpr rfl))
        · exact Or.inr hq
    have hfin : ∀ st1 : ExpSt, st1.orphans = .nil →
        (flattenCL none st1.roots).Perm ((proc ++ [x]).map folderEntry) →
        flattenPL st1.roots = [] →
        (rem.foldl expFolderStep st1).orphans = .nil ∧
        (flattenCL none (rem.foldl expFolderStep st1).roots).Perm
          ((proc ++ x :: rem).map folderEntry) ∧
        flattenPL (rem.foldl expFolderStep st1).roots = [] := by
      intro st1 ho1 hc1 hp1
      have := expFolders_attach_all rem (proc ++ [x]) st1 hpair.of_cons
        hres' ho1 hc1 hp1
      rwa [← List.append_cons proc x rem] at this
    rcases hxp : x.parent_id with - | p
    · have hstep : expFolderStep st x =
          { st with roots := flSnoc st.roots (folderNodeOf x) } := by
        simp only [expFolderStep, hxp]
      rw [hstep]
      refine hfin _ ho ?_ ?_
      · rw [flattenCL_flSnoc, List.map_append]
        refine hc.append ?_
        have : folderEntry x = (x.id, some x.name, none) := by
          simp only [folderEntry, hxp]
        rw [flattenCN_folderNode, List.map_singleton, this]
      · rw [flattenPL_flSnoc, hp, flattenPN_folderNode, List.append_nil]
    · rcases hres x (List.mem_cons_self x rem) p hxp with
        ⟨hpne, q, hq, hqid, hlt⟩
      have hq_proc : q ∈ proc := by
        rcases hq with hq | hq
        · exact hq
        · exfalso
          rcases List.mem_cons.mp hq with rfl | hq
          · rw [charListLt_irrefl] at hlt
            cases hlt
          · have hle := (List.pairwise_cons.mp hpair).1 q hq
            rw [charListLe, hlt] at hle
            cases hle
      have hpmem : p ∈ cGuidsL st.roots := by
        have h1 := hc.map (fun e : CEntry => e.1)
        rw [flattenCL_fst, List.map_map] at h1
        exact h1.mem_iff.mpr (List.mem_map.mpr ⟨q, hq_proc, hqid⟩)
      rcases tryAttach_roots (folderNodeOf x) hpmem with ⟨rs, hrs, htry⟩
      have hstep : expFolderStep st x = ⟨rs, st.orphans⟩ := by
        simp only [expFolderStep, hxp]
        rw [if_pos hpne, htry]
      rw [hstep]
      refine hfin _ ho ?_ ?_
      · have h2 := appendAtList_flattenC p (folderNodeOf x) st.roots rs hrs
          none
        rw [flattenCN_folderNode] at h2
        refine h2.trans ?_
        rw [List.map_append, List.map_singleton]
        refine hc.append ?_
        have : folderEntry x = (x.id, some x.name, some p) := by
          simp only [folderEntry, hxp]
        rw [this]
      · have h2 := appendAtList_flattenP p (folderNodeOf x) st.roots rs hrs
        rw [hp, flattenPN_folderNode, List.append_nil] at h2
        exact h2.eq_nil

/-- One bookmark step, starting with no orphan containers: the place data of
the processed bookmark lands either in the root forest or in the
unorganized list, and the containers are untouched. -/
lemma expBookmarkStep_places (s : Store) (acc : ExpSt × FList) (b : Bookmark)
    (ho : acc.1.orphans = .nil) :
    (expBookmarkStep s acc b).1.orphans = .nil ∧
    (flattenCL none (expBookmarkStep s acc b).1.roots).Perm
      (flattenCL none acc.1.roots) ∧
    (flattenPL (expBookmarkStep s acc b).1.roots ++
      flattenPL (expBookmarkStep s acc b).2).Perm
      ((flattenPL acc.1.roots ++ flattenPL acc.2) ++ [placeDataOf s b]) := by
  have hsnoc : (flattenPL acc.1.roots ++
      flattenPL (flSnoc acc.2 (placeNodeOf s b))).Perm
      ((flattenPL acc.1.roots ++ flattenPL acc.2) ++ [placeDataOf s b]) := by
    rw [flattenPL_flSnoc, flattenPN_placeNode, List.append_assoc]
  rcases hf : b.folder_id with - | fid
  · have hstep : expBookmarkStep s acc b =
        (acc.1, flSnoc acc.2 (placeNodeOf s b)) := by
      simp only [expBookmarkStep, hf]
    rw [hstep]
    exact ⟨ho, List.Perm.refl _, hsnoc⟩
  · by_cases hfne : fid ≠ ""
    · rcases htry : tryAttach acc.1 fid (placeNodeOf s b) with - | st'
      · have hstep : expBookmarkStep s acc b =
            (acc.1, flSnoc acc.2 (placeNodeOf s b)) := by
          simp only [expBookmarkStep, hf]
          rw [if_pos hfne, htry]
        rw [hstep]
        exact ⟨ho, List.Perm.refl _, hsnoc⟩
      · have hstep : expBookmarkStep s acc b = (st', acc.2) := by
          simp only [expBookmarkStep, hf]
          rw [if_pos hfne, htry]
        rw [hstep]
        rcases tryAttach_cases htry with ⟨rs, hrs, hst'⟩ | ⟨-, os, hos, -⟩
        · subst hst'
          refine ⟨ho, ?_, ?_⟩
          · have h1 := appendAtList_flattenC fid (placeNodeOf s b) acc.1.roots
              rs hrs none
            rw [flattenCN_placeNode, List.append_nil] at h1
            exact h1
          · have h1 := appendAtList_flattenP fid (placeNodeOf s b) acc.1.roots
              rs hrs
            rw [flattenPN_placeNode] at h1
            refine (h1.append_right (flattenPL acc.2)).trans ?_
            rw [List.append_assoc, List.append_assoc]
            exact List.Perm.append_left _ List.perm_append_comm
        · rw [ho] at hos
          simp only [appendAtList] at hos
          exact Option.noConfusion hos
    · have hstep : expBookmarkStep s acc b =
          (acc.1, flSnoc acc.2 (placeNodeOf s b)) := by
        simp only [expBookmarkStep, hf]
        rw [if_neg hfne]
      rw [hstep]
      exact ⟨ho, List.Perm.refl _, hsnoc⟩

/-- The bookmark pass, starting with no orphan containers: the container
entries of the root forest are unchanged and the place data of the root
forest plus the unorganized list grows by exactly one entry per bookmark. -/
lemma expBookmarks_places (s : Store) :
    ∀ (bms : List Bookmark) (acc : ExpSt × FList),
      acc.1.orphans = .nil →
      (bms.foldl (expBookmarkStep s) acc).1.orphans = .nil ∧
      (flattenCL none (bms.foldl (expBookmarkStep s) acc).1.roots).Perm
        (flattenCL none acc.1.roots) ∧
      (flattenPL (bms.foldl (expBookmarkStep s) acc).1.roots ++
        flattenPL (bms.foldl (expBookmarkStep s) acc).2).Perm
        ((flattenPL acc.1.roots ++ flattenPL acc.2) ++
          bms.map (fun b => placeDataOf s b))
  | [], acc, ho => by
    simp only [List.foldl_nil, List.map_nil, List.append_nil]
    exact ⟨ho, List.Perm.refl _, List.Perm.refl _⟩
  | b :: bms, acc, ho => by
    have hstep := expBookmarkStep_places s acc b ho
    have hrest := expBookmarks_places s bms (expBookmarkStep s acc b) hstep.1
    simp only [List.foldl_cons, List.map_cons]
    refine ⟨hrest.1, hrest.2.1.trans hstep.2.1, ?_⟩
    refine hrest.2.2.trans ?_
    refine (hstep.2.2.append_right _).trans ?_
    rw [List.append_assoc, List.singleton_append]

/-- `exportForests` unfolded. -/
lemma exportForests_eq (s : Store) :
    exportForests s =
      (List.insertionSort (fun a b => b.created_at ≤ a.created_at)
        s.bookmarks).foldl (expBookmarkStep s)
        ((List.insertionSort
            (fun a b => charListLe a.name.toList b.name.toList = true)
            s.folders).foldl expFolderStep ⟨.nil, .nil⟩, .nil) := rfl

/-- The container guids of the exported tree. -/
lemma cGuidsN_export (s : Store) :
    cGuidsN (export_to_firefox_json s) =
      "root________" :: "toolbar_____" ::
        (cGuidsL (exportForests s).1.roots ++
          cGuidsL (exportForests s).2) := by
  simp [export_to_firefox_json, cGuidsN, cGuidsL, cGuidsL_flAppend]

/-- Export on well-formed folder tables: nothing is orphaned, the root
forest's container entries are exactly the folder rows' (id, name, parent)
triples, and the place data of the root forest plus the unorganized list
are exactly the bookmark rows' place data. -/
lemma exportForests_spec (s : Store)
    (hres : ∀ f ∈ s.folders, ∀ p, f.parent_id = some p → p ≠ "" ∧
      ∃ q ∈ s.folders, q.id = p ∧
        charListLt q.name.toList f.name.toList = true) :
    (exportForests s).1.orphans = .nil ∧
    (flattenCL none (exportForests s).1.roots).Perm
      (s.folders.map folderEntry) ∧
    (flattenPL (exportForests s).1.roots ++
      flattenPL (exportForests s).2).Perm
      (s.bookmarks.map (fun b => placeDataOf s b)) := by
  haveI : IsTotal Folder
      (fun a b => charListLe a.name.toList b.name.toList = true) :=
    ⟨fun a b => by
      rcases Bool.or_eq_true_iff.mp (charListLe_or a.name.toList
        b.name.toList) with h | h
      · exact Or.inl h
      · exact Or.inr h⟩
  haveI : IsTrans Folder
      (fun a b => charListLe a.name.toList b.name.toList = true) :=
    ⟨fun _ _ _ h1 h2 => charListLe_trans h1 h2⟩
  have hperm := List.perm_insertionSort
    (fun a b : Folder => charListLe a.name.toList b.name.toList = true)
    s.folders
  have hfold := expFolders_attach_all
    (List.insertionSort
      (fun a b => charListLe a.name.toList b.name.toList = true) s.folders)
    [] ⟨.nil, .nil⟩
    (List.sorted_insertionSort _ _)
    (by
      intro f hf p hfp
      rcases hres f (hperm.mem_iff.mp hf) p hfp with ⟨hpne, q, hq, hqid, hlt⟩
      exact ⟨hpne, q, Or.inr (hperm.mem_iff.mpr hq), hqid, hlt⟩)
    rfl (by simp [flattenCL]) rfl
  rw [List.nil_append] at hfold
  rw [exportForests_eq]
  have hbks := expBookmarks_places s
    (List.insertionSort (fun a b => b.created_at ≤ a.created_at) s.bookmarks)
    ((List.insertionSort
        (fun a b => charListLe a.name.toList b.name.toList = true)
        s.folders).foldl expFolderStep ⟨.nil, .nil⟩, .nil)
    hfold.1
  refine ⟨hbks.1, hbks.2.1.trans (hfold.2.1.trans (hperm.map folderEntry)),
    ?_⟩
  refine hbks.2.2.trans ?_
  rw [hfold.2.2]
  simp only [flattenPL, List.nil_append, List.append_nil]
  exact (List.perm_insertionSort _ s.bookmarks).map _

/-- Claim C3 (corrected): attachment is order-sensitive, not
order-insensitive — children are attached only to parents already mapped,
i.e. parents earlier in the name ordering.  (a) When every truthy parent
reference resolves to a folder whose name sorts strictly before the
child's, nothing is orphaned, the root forest's container entries are
exactly the (id, title, parent id) triples of the folder rows, and every
folder appears as a container of the exported tree.  (b) A folder with a
truthy parent id matching no folder row is dropped from the exported tree
entirely, not exported as a root-level container as claimed. -/
theorem c3_export_attachment (s : Store) :
    ((∀ f ∈ s.folders, ∀ p ∈ f.parent_id.toList, p ≠ "" ∧
        ∃ q ∈ s.folders, q.id = p ∧
          charListLt q.name.toList f.name.toList = true) →
      (exportForests s).1.orphans = .nil ∧
      (flattenCL none (exportForests s).1.roots).Perm
        (s.folders.map folderEntry) ∧
      ∀ f ∈ s.folders, f.id ∈ cGuidsN (export_to_firefox_json s)) ∧
    ((s.folders.map (fun f => f.id)).Nodup →
      ∀ f ∈ s.folders, ∀ p, f.parent_id = some p → p ≠ "" →
      (∀ q ∈ s.folders, q.id ≠ p) → f.id ∉ specialGuids →
      f.id ∉ cGuidsN (export_to_firefox_json s)) := by
  constructor
  · intro hres
    have hres' : ∀ f ∈ s.folders, ∀ p, f.parent_id = some p → p ≠ "" ∧
        ∃ q ∈ s.folders, q.id = p ∧
          charListLt q.name.toList f.name.toList = true := by
      intro f hf p hp
      refine hres f hf p ?_
      rw [hp]
      exact List.mem_singleton.mpr rfl
    have hspec := exportForests_spec s hres'
    refine ⟨hspec.1, hspec.2.1, ?_⟩
    intro f hf
    have h1 := hspec.2.1.map (fun e : CEntry => e.1)
    rw [flattenCL_fst, List.map_map] at h1
    have h2 : f.id ∈ cGuidsL (exportForests s).1.roots :=
      h1.mem_iff.mpr (List.mem_map.mpr ⟨f, hf, rfl⟩)
    rw [cGuidsN_export]
    exact List.mem_cons.mpr (Or.inr (List.mem_cons.mpr
      (Or.inr (List.mem_append_left _ h2))))
  · intro hnd f hf p hp hpne hnores hsp hmem
    rw [cGuidsN_export] at hmem
    rcases List.mem_cons.mp hmem with h | hmem
    · exact hsp (by rw [h]; decide)
    rcases List.mem_cons.mp hmem with h | hmem
    · exact hsp (by rw [h]; decide)
    have hpermF := List.perm_insertionSort
      (fun a b : Folder => charListLe a.name.toList b.name.toList = true)
      s.folders
    rw [exportForests_eq] at hmem
    have hbg := expBookmarks_guids s
      (List.insertionSort (fun a b => b.created_at ≤ a.created_at)
        s.bookmarks)
      ((List.insertionSort
          (fun a b => charListLe a.name.toList b.name.toList = true)
          s.folders).foldl expFolderStep ⟨.nil, .nil⟩, .nil)
    rcases List.mem_append.mp hmem with hmr | hmu
    · have hmr' := hbg.1.mem_iff.mp hmr
      have hfs : f ∈ List.insertionSort
          (fun a b => charListLe a.name.toList b.name.toList = true)
          s.folders := hpermF.mem_iff.mpr hf
      have hpnotin : p ∉ (List.insertionSort
          (fun a b => charListLe a.name.toList b.name.toList = true)
          s.folders).map (fun q => q.id) := by
        intro h
        rcases List.mem_map.mp h with ⟨q, hq, hqid⟩
        exact hnores q (hpermF.mem_iff.mp hq) hqid
      have hdang := expFolders_dangling
        (List.insertionSort
          (fun a b => charListLe a.name.toList b.name.toList = true)
          s.folders)
        ⟨.nil, .nil⟩ [] f p hfs hp hpne (List.Perm.refl [])
        (List.not_mem_nil p) hpnotin
      have hfg := expFolders_guids
        (List.insertionSort
          (fun a b => charListLe a.name.toList b.name.toList = true)
          s.folders)
        ⟨.nil, .nil⟩
      have hfg1 : (cGuidsL ((List.insertionSort
            (fun a b => charListLe a.name.toList b.name.toList = true)
            s.folders).foldl expFolderStep ⟨.nil, .nil⟩).roots ++
          cGuidsL ((List.insertionSort
            (fun a b => charListLe a.name.toList b.name.toList = true)
            s.folders).foldl expFolderStep ⟨.nil, .nil⟩).orphans).Perm
          ((List.insertionSort
            (fun a b => charListLe a.name.toList b.name.toList = true)
            s.folders).map (fun q => q.id)) := hfg
      have hfg2 := hfg1.trans (hpermF.map (fun q => q.id))
      have hnd2 := hfg2.nodup_iff.mpr hnd
      rcases List.nodup_append.mp hnd2 with ⟨-, -, hdisj⟩
      exact hdisj hmr' hdang
    · rw [hbg.2.2] at hmu
      exact List.not_mem_nil _ hmu

/-- Witness for C3: the two-folder store {p: "aa" root, c: "bb" child}
satisfies the resolution hypothesis and exports both folders; the dangling
one-folder store drops its folder from the export. -/
theorem c3_witness :
    ((exportForests ⟨[⟨"p", "aa", none, 0⟩, ⟨"c", "bb", some "p", 0⟩], [],
        [], []⟩).1.orphans = .nil ∧
      (flattenCL none (exportForests ⟨[⟨"p", "aa", none, 0⟩,
          ⟨"c", "bb", some "p", 0⟩], [], [], []⟩).1.roots).Perm
        (([⟨"p", "aa", none, 0⟩, ⟨"c", "bb", some "p", 0⟩] :
          List Folder).map folderEntry) ∧
      ∀ f ∈ ([⟨"p", "aa", none, 0⟩, ⟨"c", "bb", some "p", 0⟩] :
          List Folder),
        f.id ∈ cGuidsN (export_to_firefox_json ⟨[⟨"p", "aa", none, 0⟩,
          ⟨"c", "bb", some "p", 0⟩], [], [], []⟩)) ∧
    "c" ∉ cGuidsN (export_to_firefox_json
      ⟨[⟨"c", "bb", some "ghost", 0⟩], [], [], []⟩) :=
  ⟨(c3_export_attachment
      ⟨[⟨"p", "aa", none, 0⟩, ⟨"c", "bb", some "p", 0⟩], [], [], []⟩).1
      (by decide),
   (c3_export_attachment ⟨[⟨"c", "bb", some "ghost", 0⟩], [], [], []⟩).2
      (by decide) ⟨"c", "bb", some "ghost", 0⟩ (by decide) "ghost" rfl
      (by decide) (by decide) (by decide)⟩

lemma splitCommaCh_comma_free : ∀ l : List Char, ',' ∉ l →
    splitCommaCh l = [l]
  | [], _ => rfl
  | c :: cs, h => by
    have hc : ¬ c = ',' := fun hh => h (hh ▸ List.mem_cons_self c cs)
    have hcs : ',' ∉ cs := fun hh => h (List.mem_cons.mpr (Or.inr hh))
    simp only [splitCommaCh]
    rw [if_neg hc, splitCommaCh_comma_free cs hcs]

lemma splitCommaCh_append : ∀ (l rest : List Char), ',' ∉ l →
    splitCommaCh (l ++ ',' :: rest) = l :: splitCommaCh rest
  | [], rest, _ => by
    have h1 : ([] : List Char) ++ ',' :: rest = ',' :: rest := rfl
    rw [h1]
    simp only [splitCommaCh]
    rw [if_pos trivial]
  | c :: cs, rest, h => by
    have hc : ¬ c = ',' := fun hh => h (hh ▸ List.mem_cons_self c cs)
    have hcs : ',' ∉ cs := fun hh => h (List.mem_cons.mpr (Or.inr hh))
    have h1 : (c :: cs) ++ ',' :: rest = c :: (cs ++ ',' :: rest) := rfl
    rw [h1]
    simp only [splitCommaCh]
    rw [if_neg hc, splitCommaCh_append cs rest hcs]

lemma splitCommaCh_joinCommaCh : ∀ ls : List (List Char), ls ≠ [] →
    (∀ l ∈ ls, ',' ∉ l) → splitCommaCh (joinCommaCh ls) = ls
  | [], h, _ => absurd rfl h
  | [l], _, hc => by
    simp only [joinCommaCh]
    exact splitCommaCh_comma_free l (hc l (List.mem_singleton.mpr rfl))
  | l :: l' :: ls, _, hc => by
    have h1 : joinCommaCh (l :: l' :: ls) =
        l ++ ',' :: joinCommaCh (l' :: ls) := rfl
    rw [h1, splitCommaCh_append l _ (hc l (List.mem_cons_self _ _)),
      splitCommaCh_joinCommaCh (l' :: ls) (by simp)
        (fun x hx => hc x (List.mem_cons.mpr (Or.inr hx)))]

lemma map_mk_toList : ∀ ls : List String,
    (ls.map String.toList).map (fun l => String.mk l) = ls
  | [] => rfl
  | s :: ls => by
    rw [List.map_cons, List.map_cons, map_mk_toList ls]
    rfl

/-- `split(',')` inverts `','.join` on non-empty lists of comma-free
strings. -/
lemma splitComma_joinComma (ls : List String) (h0 : ls ≠ [])
    (hc : ∀ s ∈ ls, ',' ∉ s.toList) : splitComma (joinComma ls) = ls := by
  have hm : ls.map String.toList ≠ [] := by
    intro hh
    exact h0 (List.map_eq_nil.mp hh)
  have hcm : ∀ l ∈ ls.map String.toList, ',' ∉ l := by
    intro l hl
    rcases List.mem_map.mp hl with ⟨s, hs, rfl⟩
    exact hc s hs
  simp only [splitComma, joinComma]
  have htl : (String.mk (joinCommaCh (ls.map String.toList))).toList =
      joinCommaCh (ls.map String.toList) := rfl
  rw [htl, splitCommaCh_joinCommaCh _ hm hcm, map_mk_toList]

/-- `','.join` of a non-empty list of non-empty strings is non-empty. -/
lemma joinComma_ne_empty (ls : List String) (h0 : ls ≠ [])
    (hne : ∀ s ∈ ls, s ≠ "") : joinComma ls ≠ "" := by
  rcases ls with - | ⟨s, ls⟩
  · exact absurd rfl h0
  · intro hh
    have hdata : joinCommaCh ((s :: ls).map String.toList) = [] := by
      have := congrArg String.toList hh
      exact this
    rcases ls with - | ⟨s', ls⟩
    · have hs : s.toList = [] := hdata
      exact hne s (List.mem_cons_self _ _)
        (by
          have : s = String.mk s.toList := rfl
          rw [this, hs])
    · have h1 : joinCommaCh ((s :: s' :: ls).map String.toList) =
          s.toList ++ ',' :: joinCommaCh ((s' :: ls).map String.toList) :=
        rfl
      rw [h1] at hdata
      rcases List.append_eq_nil.mp hdata with ⟨-, h3⟩
      exact List.cons_ne_nil _ _ h3

lemma find?_append_some {α : Type} {p : α → Bool} :
    ∀ {l1 : List α} (l2 : List α) {a : α}, l1.find? p = some a →
      (l1 ++ l2).find? p = some a
  | [], _, _, h => by cases h
  | x :: l1, l2, a, h => by
    rcases hx : p x with - | -
    · rw [List.find?_cons_of_neg _ (by simp [hx])] at h
      rw [List.cons_append, List.find?_cons_of_neg _ (by simp [hx])]
      exact find?_append_some l2 h
    · rw [List.find?_cons_of_pos _ hx] at h
      rw [List.cons_append, List.find?_cons_of_pos _ hx]
      exact h

lemma find?_append_none {α : Type} {p : α → Bool} :
    ∀ {l1 : List α} (l2 : List α), l1.find? p = none →
      (l1 ++ l2).find? p = l2.find? p
  | [], _, _ => rfl
  | x :: l1, l2, h => by
    rcases hx : p x with - | -
    · rw [List.find?_cons_of_neg _ (by simp [hx])] at h
      rw [List.cons_append, List.find?_cons_of_neg _ (by simp [hx])]
      exact find?_append_none l2 h
    · rw [List.find?_cons_of_pos _ hx] at h
      cases h

/-- `SELECT ... WHERE id = ?` on a table with unique ids finds the row. -/
lemma find?_tag_id : ∀ (ts : List Tag), (ts.map (fun t => t.id)).Nodup →
    ∀ t ∈ ts, ts.find? (fun x => x.id = t.id) = some t
  | [], _, t, ht => absurd ht (List.not_mem_nil t)
  | u :: ts, hnd, t, ht => by
    rcases List.mem_cons.mp ht with rfl | ht'
    · exact List.find?_cons_of_pos _ (by simp)
    · have hne : u.id ≠ t.id := by
        intro hh
        have : u.id ∈ ts.map (fun t => t.id) :=
          hh ▸ List.mem_map.mpr ⟨t, ht', rfl⟩
        exact (List.nodup_cons.mp hnd).1 this
      rw [List.find?_cons_of_neg _ (by simp [hne])]
      exact find?_tag_id ts (List.nodup_cons.mp hnd).2 t ht'

lemma mkUuid_ne_empty (n : Nat) : mkUuid n ≠ "" := by
  intro h
  have : (mkUuid n).toList = [] := by rw [h]; rfl
  simp [mkUuid] at this

/-- The tag loop: leaves folders, bookmarks and join rows alone, only
appends freshly-minted or looked-up tags, keeps the state hygienic, and
returns one id per name, each resolving to its name. -/
lemma collectTags_spec :
    ∀ (names : List String) (st : ImportState),
      idsFresh st →
      (∀ nm ∈ names, nm ≠ "" ∧ pyStrip nm = nm) →
      (collectTags names st).2.store.folders = st.store.folders ∧
      (collectTags names st).2.store.bookmarks = st.store.bookmarks ∧
      (collectTags names st).2.store.bookmark_tags =
        st.store.bookmark_tags ∧
      st.nextId ≤ (collectTags names st).2.nextId ∧
      (∃ newT, (collectTags names st).2.store.tags =
        st.store.tags ++ newT) ∧
      idsFresh (collectTags names st).2 ∧
      (collectTags names st).1.length = names.length ∧
      (∀ e ∈ (collectTags names st).1.zip names,
        ∃ t, (collectTags names st).2.store.tags.find?
            (fun x => x.id = e.1) = some t ∧ t.name = e.2)
  | [], st, hf, _ => by
    refine ⟨rfl, rfl, rfl, Nat.le_refl _, ⟨[], by simp [collectTags]⟩, hf, rfl, ?_⟩
    intro e he
    cases he
  | nm0 :: rest, st, hf, hn => by
    have hnm := hn nm0 (List.mem_cons_self _ _)
    have hrest : ∀ nm ∈ rest, nm ≠ "" ∧ pyStrip nm = nm :=
      fun nm h => hn nm (List.mem_cons.mpr (Or.inr h))
    simp only [collectTags]
    rw [hnm.2, if_neg hnm.1]
    rcases hfind : st.store.tags.find? (fun t => t.name = nm0) with - | t
    · simp only [hfind]
      have hfresh : ∀ x ∈ st.store.tags,
          ¬ (decide (x.id = mkUuid st.nextId) = true) := by
        intro x hx hh
        have hh' : x.id = mkUuid st.nextId := of_decide_eq_true hh
        rcases hf.1 x hx with ⟨k, hk, hklt⟩
        rw [hk] at hh'
        exact absurd (mkUuid_inj hh') (Nat.ne_of_lt hklt)
      have hf1 : idsFresh
          { store := create_tag st.store (mkUuid st.nextId) nm0 0
            nextId := st.nextId + 1
            stats := { st.stats with tags := st.stats.tags + 1 }
            folder_mapping := st.folder_mapping } := by
        refine ⟨?_, ?_, ?_, hf.2.2.2.1, ?_⟩
        · intro t ht
          rcases List.mem_append.mp ht with ht | ht
          · rcases hf.1 t ht with ⟨k, hk, hklt⟩
            exact ⟨k, hk, Nat.lt_succ_of_lt hklt⟩
          · rcases List.mem_singleton.mp ht with rfl
            exact ⟨st.nextId, rfl, Nat.lt_succ_self _⟩
        · intro b hb
          rcases hf.2.1 b hb with ⟨k, hk, hklt⟩
          exact ⟨k, hk, Nat.lt_succ_of_lt hklt⟩
        · simp only [create_tag, List.map_append]
          refine List.nodup_append.mpr ⟨hf.2.2.1, List.nodup_singleton _,
            ?_⟩
          intro x hx hmem
          rcases List.mem_singleton.mp hmem with rfl
          rcases List.mem_map.mp hx with ⟨u, hu, hid⟩
          exact hfresh u hu (by simp [hid])
        · intro bt hbt
          refine ⟨(hf.2.2.2.2 bt hbt).1, ?_⟩
          rcases (hf.2.2.2.2 bt hbt).2 with ⟨t, ht, hid⟩
          exact ⟨t, List.mem_append_left _ ht, hid⟩
      have ih := collectTags_spec rest _ hf1 hrest
      refine ⟨ih.1, ih.2.1, ih.2.2.1, Nat.le_trans (Nat.le_succ _)
        ih.2.2.2.1, ?_, ih.2.2.2.2.2.1, ?_, ?_⟩
      · rcases ih.2.2.2.2.1 with ⟨newT, hT⟩
        exact ⟨⟨mkUuid st.nextId, nm0, 0⟩ :: newT,
          by rw [hT]; simp [create_tag]⟩
      · simp only [List.length_cons, ih.2.2.2.2.2.2.1]
      · intro e he
        rcases ih.2.2.2.2.1 with ⟨newT, hT⟩
        rcases List.mem_cons.mp he with rfl | he'
        · refine ⟨⟨mkUuid st.nextId, nm0, 0⟩, ?_, rfl⟩
          rw [hT]
          simp only [create_tag]
          rw [List.append_assoc, find?_append_none _ (List.find?_eq_none.mpr
            hfresh)]
          exact List.find?_cons_of_pos _ (by simp)
        · exact ih.2.2.2.2.2.2.2 e he'
    · simp only [hfind]
      have htmem := List.mem_of_find?_eq_some hfind
      have htname : t.name = nm0 := by
        have := List.find?_some hfind
        simpa using this
      have ih := collectTags_spec rest st hf hrest
      refine ⟨ih.1, ih.2.1, ih.2.2.1, ih.2.2.2.1, ih.2.2.2.2.1,
        ih.2.2.2.2.2.1, ?_, ?_⟩
      · simp only [List.length_cons, ih.2.2.2.2.2.2.1]
      · intro e he
        rcases List.mem_cons.mp he with rfl | he'
        · refine ⟨t, ?_, htname⟩
          rcases ih.2.2.2.2.1 with ⟨newT, hT⟩
          rw [hT]
          exact find?_append_some _ (find?_tag_id _ hf.2.2.1 t htmem)
        · exact ih.2.2.2.2.2.2.2 e he'

/-- Extending the tag table and adding join rows for other bookmarks does
not change a bookmark's resolved tag names, provided its own join rows all
resolve already. -/
lemma tagNamesOf_extend {s s' : Store} {newT : List Tag}
    {newBT : List (String × String)} (b : Bookmark)
    (ht : s'.tags = s.tags ++ newT)
    (hbt : s'.bookmark_tags = s.bookmark_tags ++ newBT)
    (hfresh : ∀ r ∈ newBT, r.1 ≠ b.id)
    (hres : ∀ r ∈ s.bookmark_tags, r.1 = b.id →
      (s.tags.find? (fun t => t.id = r.2)).isSome = true) :
    tagNamesOf s' b = tagNamesOf s b := by
  simp only [tagNamesOf, ht, hbt]
  rw [List.filter_append]
  have h2 : newBT.filter (fun bt => bt.1 = b.id) = [] :=
    List.filter_eq_nil.mpr
      (fun r hr => by simpa using hfresh r hr)
  rw [h2, List.append_nil]
  refine List.filterMap_congr ?_
  intro r hr
  have hr' := List.mem_filter.mp hr
  have hrb : r.1 = b.id := by simpa using hr'.2
  have hsome := hres r hr'.1 hrb
  rcases hfind : s.tags.find? (fun t => t.id = r.2) with - | t
  · rw [hfind] at hsome
    cases hsome
  · rw [find?_append_some _ hfind, hfind]

/-- Resolving the ids handed back by the tag loop recovers exactly the
names. -/
lemma resolve_ids_names :
    ∀ (tids names : List String) (ts : List Tag) (bid : String),
      tids.length = names.length →
      (∀ e ∈ tids.zip names, ∃ t,
        ts.find? (fun x => x.id = e.1) = some t ∧ t.name = e.2) →
      (tids.map (fun tid => (bid, tid))).filterMap
        (fun bt : String × String =>
          (ts.find? (fun t => t.id = bt.2)).map (fun t => t.name)) = names
  | [], [], _, _, _, _ => rfl
  | [], nm :: names, _, _, hlen, _ => by cases hlen
  | tid :: tids, [], _, _, hlen, _ => by cases hlen
  | tid :: tids, nm :: names, ts, bid, hlen, hres => by
    rcases hres (tid, nm) (List.mem_cons_self _ _) with ⟨t, hfind, hname⟩
    simp only [List.map_cons, List.filterMap_cons, hfind, Option.map_some']
    rw [hname,
      resolve_ids_names tids names ts bid (by simpa using hlen)
        (fun e he => hres e (List.mem_cons.mpr (Or.inr he)))]

/-- Association-list lookup on unique keys finds each stored pair. -/
lemma find?_pair_fst : ∀ (m : List (String × String)),
    (m.map (fun e => e.1)).Nodup →
    ∀ e ∈ m, m.find? (fun x => x.1 = e.1) = some e
  | [], _, e, he => absurd he (List.not_mem_nil e)
  | u :: m, hnd, e, he => by
    rcases List.mem_cons.mp he with rfl | he'
    · exact List.find?_cons_of_pos _ (by simp)
    · have hne : u.1 ≠ e.1 := by
        intro hh
        refine (List.nodup_cons.mp hnd).1 ?_
        show u.1 ∈ List.map (fun e => e.1) m
        rw [hh]
        exact List.mem_map.mpr ⟨e, he', rfl⟩
      rw [List.find?_cons_of_neg _ (by simp [hne])]
      exact find?_pair_fst m (List.nodup_cons.mp hnd).2 e he'

lemma exists_zip_right {α β : Type} :
    ∀ (xs : List α) (ys : List β), xs.length = ys.length →
      ∀ a ∈ xs, ∃ b, (a, b) ∈ xs.zip ys
  | [], _, _, a, ha => absurd ha (List.not_mem_nil a)
  | x :: xs, [], hlen, _, _ => by cases hlen
  | x :: xs, y :: ys, hlen, a, ha => by
    rcases List.mem_cons.mp ha with rfl | ha'
    · exact ⟨y, List.mem_cons_self _ _⟩
    · rcases exists_zip_right xs ys (by simpa using hlen) a ha' with ⟨b, hb⟩
      exact ⟨b, List.mem_cons.mpr (Or.inr hb)⟩

/-- Creating one bookmark after the tag loop: folders untouched, one
projected row appended, counter monotone, hygiene preserved. -/
lemma import_bookmark_out (st : ImportState) (realNames : List String)
    (u title desc : String) (π favv : Option String)
    (hf : idsFresh st)
    (hrn : ∀ nm ∈ realNames, nm ≠ "" ∧ pyStrip nm = nm) :
    (create_bookmark (collectTags realNames st).2.store
        (mkUuid (collectTags realNames st).2.nextId) u title desc π
        (collectTags realNames st).1 favv 0).folders = st.store.folders ∧
    (create_bookmark (collectTags realNames st).2.store
        (mkUuid (collectTags realNames st).2.nextId) u title desc π
        (collectTags realNames st).1 favv 0).bookmarks.map
      (bmProj (create_bookmark (collectTags realNames st).2.store
        (mkUuid (collectTags realNames st).2.nextId) u title desc π
        (collectTags realNames st).1 favv 0)) =
      st.store.bookmarks.map (bmProj st.store) ++
        [(u, title, some desc, realNames)] ∧
    st.nextId ≤ (collectTags realNames st).2.nextId + 1 ∧
    storeFresh (create_bookmark (collectTags realNames st).2.store
        (mkUuid (collectTags realNames st).2.nextId) u title desc π
        (collectTags realNames st).1 favv 0)
      ((collectTags realNames st).2.nextId + 1) := by
  rcases collectTags_spec realNames st hf hrn with
    ⟨hcf, hcb, hcbt, hcnext, ⟨newT, hT⟩, hcfresh, hclen, hcpairs⟩
  set CT := collectTags realNames st with hCTdef
  set bid := mkUuid CT.2.nextId with hbiddef
  obtain ⟨ROW, hRB, hRurl, hRtitle, hRdesc, hRid⟩ :
      ∃ row : Bookmark,
        (create_bookmark CT.2.store bid u title desc π CT.1 favv 0).bookmarks
          = st.store.bookmarks ++ [row] ∧ row.url = u ∧
          row.title = title ∧ row.description = some desc ∧
          row.id = bid := by
    refine ⟨⟨bid, u, title, some desc, favv,
      (match π with
        | some f => if f = "" then none else some f
        | none => none), false, 0⟩, ?_, rfl, rfl, rfl, rfl⟩
    simp only [create_bookmark]
    rw [hcb]
  have hbts : (create_bookmark CT.2.store bid u title desc π CT.1 favv
      0).bookmark_tags =
      st.store.bookmark_tags ++ CT.1.map (fun t => (bid, t)) := by
    simp only [create_bookmark]
    rw [hcbt]
  have htags : (create_bookmark CT.2.store bid u title desc π CT.1 favv
      0).tags = st.store.tags ++ newT := hT
  have hbid_old : ∀ b ∈ st.store.bookmarks, b.id ≠ bid := by
    intro b hb heq
    rcases hf.2.1 b hb with ⟨j, hj, hjlt⟩
    rw [hj, hbiddef] at heq
    have := mkUuid_inj heq
    omega
  have hbt_old : ∀ r ∈ st.store.bookmark_tags, r.1 ≠ bid := by
    intro r hr heq
    rcases (hf.2.2.2.2 r hr).1 with ⟨b, hb, hbid⟩
    exact hbid_old b hb (by rw [hbid, heq])
  have hnewrows : ∀ r ∈ CT.1.map (fun t => (bid, t)), r.1 = bid := by
    intro r hr
    rcases List.mem_map.mp hr with ⟨tid, -, rfl⟩
    rfl
  refine ⟨hcf, ?_, Nat.le_succ_of_le hcnext, ?_, ?_, ?_, ?_, ?_⟩
  · rw [hRB, List.map_append]
    have hA : st.store.bookmarks.map
        (bmProj (create_bookmark CT.2.store bid u title desc π CT.1 favv
          0)) = st.store.bookmarks.map (bmProj st.store) := by
      refine List.map_congr_left ?_
      intro b hb
      have htn : tagNamesOf (create_bookmark CT.2.store bid u title desc π
          CT.1 favv 0) b = tagNamesOf st.store b := by
        refine tagNamesOf_extend b htags hbts ?_ ?_
        · intro r hr
          rw [hnewrows r hr]
          exact fun hh => hbid_old b hb hh.symm
        · intro r hr hrb
          rcases (hf.2.2.2.2 r hr).2 with ⟨t, htm, htid⟩
          exact List.find?_isSome.mpr ⟨t, htm, by simp [htid]⟩
      simp only [bmProj]
      rw [htn]
    rw [hA]
    have hB : bmProj (create_bookmark CT.2.store bid u title desc π CT.1
        favv 0) ROW = (u, title, some desc, realNames) := by
      simp only [bmProj]
      rw [hRurl, hRtitle, hRdesc]
      have htn : tagNamesOf (create_bookmark CT.2.store bid u title desc π
          CT.1 favv 0) ROW = realNames := by
        simp only [tagNamesOf]
        rw [hbts, hRid, List.filter_append]
        have hfo : st.store.bookmark_tags.filter
            (fun bt => bt.1 = bid) = [] := by
          refine List.filter_eq_nil.mpr ?_
          intro r hr
          simpa using hbt_old r hr
        have hfn : (CT.1.map (fun t => (bid, t))).filter
            (fun bt => bt.1 = bid) = CT.1.map (fun t => (bid, t)) := by
          refine List.filter_eq_self.mpr ?_
          intro r hr
          simp [hnewrows r hr]
        rw [hfo, hfn, List.nil_append]
        exact resolve_ids_names CT.1 realNames CT.2.store.tags bid hclen
          hcpairs
      rw [htn]
    rw [List.map_singleton, hB]
  · -- tags fresh
    intro t ht
    rcases hcfresh.1 t ht with ⟨k, hk, hklt⟩
    exact ⟨k, hk, Nat.lt_succ_of_lt hklt⟩
  · -- bookmarks fresh
    intro b hb
    rw [hRB] at hb
    rcases List.mem_append.mp hb with hb | hb
    · rcases hf.2.1 b hb with ⟨k, hk, hklt⟩
      exact ⟨k, hk, Nat.lt_succ_of_lt (Nat.lt_of_lt_of_le hklt hcnext)⟩
    · rcases List.mem_singleton.mp hb with rfl
      exact ⟨CT.2.nextId, hRid, Nat.lt_succ_self _⟩
  · -- tag ids nodup
    exact hcfresh.2.2.1
  · -- bookmark ids nodup
    rw [hRB, List.map_append]
    refine List.nodup_append.mpr ⟨hf.2.2.2.1, List.nodup_singleton _, ?_⟩
    intro x hx hmem
    rcases List.mem_map.mp hx with ⟨b, hb, hbid⟩
    have hbid' : b.id = x := hbid
    have hx2 : x = ROW.id := by simpa using hmem
    exact hbid_old b hb (by rw [hbid', hx2, hRid])
  · -- join rows resolve
    intro bt hbt
    rw [hbts] at hbt
    rcases List.mem_append.mp hbt with hbt | hbt
    · have hbt' : bt ∈ CT.2.store.bookmark_tags := by
        rw [hcbt]
        exact hbt
      rcases hcfresh.2.2.2.2 bt hbt' with ⟨⟨b, hb, hid⟩, ⟨t, htm, hidt⟩⟩
      refine ⟨⟨b, ?_, hid⟩, ⟨t, htm, hidt⟩⟩
      rw [hRB]
      rw [hcb] at hb
      exact List.mem_append_left _ hb
    · rcases List.mem_map.mp hbt with ⟨tid, htid, rfl⟩
      constructor
      · exact ⟨ROW, by
          rw [hRB]
          exact List.mem_append_right _ (List.mem_singleton.mpr rfl), hRid⟩
      · rcases exists_zip_right CT.1 realNames hclen tid htid with ⟨nm, hz⟩
        rcases hcpairs (tid, nm) hz with ⟨t, hfind, -⟩
        exact ⟨t, List.mem_of_find?_eq_some hfind, by
          simpa using List.find?_some hfind⟩

mutual
/-- One shaped node of the import recursion realizes its flattened
container entries as created folders and its place data as created
bookmarks. -/
theorem processNode_spec (fav : String → Option String) :
    ∀ (n : FNode) (pgv π : Option String) (st : ImportState),
      shapedN n → idsFresh st →
      (π = none ∨ ∃ k, π = some (mkUuid k)) →
      ∃ m, ImpOut pgv π (flattenCN pgv n) (flattenPN n) st
        (processNode fav n π st) m := by
  intro n pgv π st hsh hf hπ
  rcases n with ⟨⟨nt, gu, ti, ur, an, tv⟩, cs⟩
  simp only [shapedN] at hsh
  rcases hsh with ⟨hnt, ⟨g, hg, hgs⟩, ⟨t, ht, htne⟩, hshl⟩ |
    ⟨hnt, hcs, ⟨u, hu, hune⟩, htv⟩
  · -- container branch
    subst hnt
    subst hg
    subst ht
    have hstep : processNode fav
        (FNode.mk ⟨some containerT, some g, some t, ur, an, tv⟩ cs) π st =
        processList fav cs (some (mkUuid st.nextId))
          { store := { st.store with
              folders := create_folder st.store.folders (mkUuid st.nextId)
                t π 0 }
            nextId := st.nextId + 1
            stats := { st.stats with folders := st.stats.folders + 1 }
            folder_mapping := st.folder_mapping ++
              [(some g, mkUuid st.nextId)] } := by
      simp only [processNode]
      rw [if_pos trivial,
        if_neg (show ¬ (((some g : Option String).getD "") ∈ specialGuids)
          from hgs),
        if_pos (show ((some t : Option String).getD "Untitled Folder") ≠ ""
          from htne)]
      rfl
    have hf1 : idsFresh
        { store := { st.store with
            folders := create_folder st.store.folders (mkUuid st.nextId)
              t π 0 }
          nextId := st.nextId + 1
          stats := { st.stats with folders := st.stats.folders + 1 }
          folder_mapping := st.folder_mapping ++
            [(some g, mkUuid st.nextId)] } := by
      refine ⟨?_, ?_, hf.2.2.1, hf.2.2.2.1, hf.2.2.2.2⟩
      · intro x hx
        rcases hf.1 x hx with ⟨k, hk, hklt⟩
        exact ⟨k, hk, Nat.lt_succ_of_lt hklt⟩
      · intro b hb
        rcases hf.2.1 b hb with ⟨k, hk, hklt⟩
        exact ⟨k, hk, Nat.lt_succ_of_lt hklt⟩
    rcases processList_spec fav cs (some g) (some (mkUuid st.nextId)) _
      hshl hf1 (Or.inr ⟨st.nextId, rfl⟩) with ⟨mcs, ih⟩
    simp only [ImpOut] at ih
    rcases ih with ⟨ih1, ih2, ih3, ih4, ih5, ih6, ih7⟩
    refine ⟨(g, mkUuid st.nextId) :: mcs, ?_⟩
    simp only [ImpOut]
    rw [hstep]
    have hent : flattenCN pgv
        (FNode.mk ⟨some containerT, some g, some t, ur, an, tv⟩ cs) =
        (g, some t, pgv) :: flattenCL (some g) cs := by
      simp only [flattenCN]
      rw [if_pos trivial]
    have hpn : flattenPN
        (FNode.mk ⟨some containerT, some g, some t, ur, an, tv⟩ cs) =
        flattenPL cs := by
      simp only [flattenPN]
      rw [if_neg (show ¬ ((some containerT : Option String) = some placeT)
        by decide), List.nil_append]
    rw [hent, hpn]
    refine ⟨?_, ?_, ih3, ?_, ?_, ?_, ih7⟩
    · simp only [List.map_cons, ih1]
    · intro ρ hρ hm
      have hρg : ρ (some g) = some (mkUuid st.nextId) :=
        hm _ (List.mem_cons_self _ _)
      rw [ih2 ρ hρg (fun e he => hm e (List.mem_cons.mpr (Or.inr he)))]
      have hrows : impFolderRows ρ
          ((g, some t, pgv) :: flattenCL (some g) cs)
          (((g, mkUuid st.nextId) :: mcs).map (fun e => e.2)) =
          ⟨mkUuid st.nextId, t, ρ pgv, 0⟩ ::
            impFolderRows ρ (flattenCL (some g) cs)
              (mcs.map (fun e => e.2)) := rfl
      rw [hrows, hρ]
      show st.store.folders ++ [⟨mkUuid st.nextId, t, π, 0⟩] ++
          impFolderRows ρ (flattenCL (some g) cs)
            (mcs.map (fun e => e.2)) = _
      rw [List.append_assoc, List.singleton_append]
    · exact Nat.le_trans (Nat.le_succ _) ih4
    · intro e he
      rcases List.mem_cons.mp he with rfl | he'
      · exact ⟨st.nextId, rfl, Nat.le_refl _,
          Nat.lt_of_lt_of_le (Nat.lt_succ_self _) ih4⟩
      · rcases ih5 e he' with ⟨k, h1, h2, h3⟩
        exact ⟨k, h1, Nat.le_of_succ_le h2, h3⟩
    · refine List.nodup_cons.mpr ⟨?_, ih6⟩
      intro hmem
      rcases List.mem_map.mp hmem with ⟨e, he, heq⟩
      rcases ih5 e he with ⟨k, hk1, hk2, -⟩
      have heq' : e.2 = mkUuid st.nextId := heq
      rw [hk1] at heq'
      have := mkUuid_inj heq'
      omega
  · -- place branch
    subst hnt
    subst hcs
    subst hu
    have hcont : ¬ ((some placeT : Option String) = some containerT) := by
      decide
    have hcn : ∀ pg : Option String, flattenCN pg
        (FNode.mk ⟨some placeT, gu, ti, some u, an, tv⟩ FNodeL.nil) =
        [] := by
      intro pg
      simp only [flattenCN]
      rw [if_neg hcont]
      rfl
    have hpn : flattenPN
        (FNode.mk ⟨some placeT, gu, ti, some u, an, tv⟩ FNodeL.nil) =
        [⟨some placeT, gu, ti, some u, an, tv⟩] := by
      simp only [flattenPN]
      rw [if_pos trivial]
      rfl
    rcases htv with htv | ⟨names, hne0, hprops, htv⟩
    · -- no tags
      subst htv
      have hstep : processNode fav
          (FNode.mk ⟨some placeT, gu, ti, some u, an, TagsVal.missing⟩
            FNodeL.nil) π st =
          { store := create_bookmark (collectTags [] st).2.store
              (mkUuid (collectTags [] st).2.nextId) u (ti.getD u)
              (((an.find? (fun a => a.name = some descAnnoKey)).map
                (fun a => a.value.getD "")).getD "") π
              (collectTags [] st).1 (fav u) 0
            nextId := (collectTags [] st).2.nextId + 1
            stats := { (collectTags [] st).2.stats with
              bookmarks := (collectTags [] st).2.stats.bookmarks + 1 }
            folder_mapping := (collectTags [] st).2.folder_mapping } := by
        simp only [processNode]
        rw [if_neg hcont, if_pos trivial, if_neg hune]
      have ibo := import_bookmark_out st [] u (ti.getD u)
        (((an.find? (fun a => a.name = some descAnnoKey)).map
          (fun a => a.value.getD "")).getD "") π (fav u) hf
        (fun nm h => absurd h (List.not_mem_nil nm))
      refine ⟨[], ?_⟩
      simp only [ImpOut]
      rw [hstep, hcn, hpn]
      refine ⟨rfl, ?_, ?_, ibo.2.2.1, ?_, List.nodup_nil, ibo.2.2.2⟩
      · rintro ρ - -
        rw [show impFolderRows ρ [] (List.map (fun e => e.2)
          ([] : List (String × String))) = [] from rfl, List.append_nil]
        exact ibo.1
      · rw [List.map_singleton]
        exact ibo.2.1
      · intro e he
        exact absurd he (List.not_mem_nil e)
    · -- joined tag names
      subst htv
      have hjne := joinComma_ne_empty names hne0
        (fun s hs => (hprops s hs).1)
      have hspl := splitComma_joinComma names hne0
        (fun s hs => (hprops s hs).2.1)
      have hstep : processNode fav
          (FNode.mk ⟨some placeT, gu, ti, some u, an,
            TagsVal.str (joinComma names)⟩ FNodeL.nil) π st =
          { store := create_bookmark (collectTags names st).2.store
              (mkUuid (collectTags names st).2.nextId) u (ti.getD u)
              (((an.find? (fun a => a.name = some descAnnoKey)).map
                (fun a => a.value.getD "")).getD "") π
              (collectTags names st).1 (fav u) 0
            nextId := (collectTags names st).2.nextId + 1
            stats := { (collectTags names st).2.stats with
              bookmarks := (collectTags names st).2.stats.bookmarks + 1 }
            folder_mapping := (collectTags names st).2.folder_mapping } := by
        simp only [processNode]
        rw [if_neg hcont, if_pos trivial, if_neg hune, if_neg hjne, hspl]
      have ibo := import_bookmark_out st names u (ti.getD u)
        (((an.find? (fun a => a.name = some descAnnoKey)).map
          (fun a => a.value.getD "")).getD "") π (fav u) hf
        (fun nm h => ⟨(hprops nm h).1, (hprops nm h).2.2⟩)
      refine ⟨[], ?_⟩
      simp only [ImpOut]
      rw [hstep, hcn, hpn]
      refine ⟨rfl, ?_, ?_, ibo.2.2.1, ?_, List.nodup_nil, ibo.2.2.2⟩
      · rintro ρ - -
        rw [show impFolderRows ρ [] (List.map (fun e => e.2)
          ([] : List (String × String))) = [] from rfl, List.append_nil]
        exact ibo.1
      · rw [List.map_singleton]
        have hpp : placeProj
            ⟨some placeT, gu, ti, some u, an,
              TagsVal.str (joinComma names)⟩ =
            (u, ti.getD u,
              some (((an.find? (fun a => a.name = some descAnnoKey)).map
                (fun a => a.value.getD "")).getD ""), names) := by
          simp only [placeProj]
          rw [if_neg hjne, hspl]
          rfl
        rw [hpp]
        exact ibo.2.1
      · intro e he
        exact absurd he (List.not_mem_nil e)
/-- A shaped forest of the import recursion realizes its flattened
container entries and place data. -/
theorem processList_spec (fav : String → Option String) :
    ∀ (l : FList) (pgv π : Option String) (st : ImportState),
      shapedL l → idsFresh st →
      (π = none ∨ ∃ k, π = some (mkUuid k)) →
      ∃ m, ImpOut pgv π (flattenCL pgv l) (flattenPL l) st
        (processList fav l π st) m := by
  intro l pgv π st hsh hf hπ
  rcases l with - | ⟨n, ns⟩
  · refine ⟨[], ?_⟩
    simp only [ImpOut, processList, flattenCL, flattenPL]
    refine ⟨rfl, ?_, by simp, Nat.le_refl _, ?_, List.nodup_nil, hf⟩
    · rintro ρ - -
      rw [show impFolderRows ρ [] (List.map (fun e => e.2)
        ([] : List (String × String))) = [] from rfl, List.append_nil]
    · intro e he
      exact absurd he (List.not_mem_nil e)
  · rcases hsh with ⟨hshn, hshl⟩
    rcases processNode_spec fav n pgv π st hshn hf hπ with ⟨mn, ihn⟩
    simp only [ImpOut] at ihn
    rcases ihn with ⟨n1, n2, n3, n4, n5, n6, n7⟩
    rcases processList_spec fav ns pgv π (processNode fav n π st) hshl n7
      hπ with ⟨mns, ihs⟩
    simp only [ImpOut] at ihs
    rcases ihs with ⟨s1, s2, s3, s4, s5, s6, s7⟩
    refine ⟨mn ++ mns, ?_⟩
    simp only [ImpOut, processList, flattenCL, flattenPL]
    have hlen : (flattenCN pgv n).length = (mn.map (fun e => e.2)).length
      := by
      have := congrArg List.length n1
      simp only [List.length_map] at this
      simp only [List.length_map]
      omega
    refine ⟨?_, ?_, ?_, Nat.le_trans n4 s4, ?_, ?_, s7⟩
    · simp only [List.map_append, n1, s1]
    · intro ρ hρ hm
      rw [s2 ρ hρ (fun e he => hm e (List.mem_append_right _ he)),
        n2 ρ hρ (fun e he => hm e (List.mem_append_left _ he))]
      have hzip : impFolderRows ρ
          (flattenCN pgv n ++ flattenCL pgv ns)
          ((mn ++ mns).map (fun e => e.2)) =
          impFolderRows ρ (flattenCN pgv n) (mn.map (fun e => e.2)) ++
            impFolderRows ρ (flattenCL pgv ns)
              (mns.map (fun e => e.2)) := by
        simp only [impFolderRows, List.map_append]
        rw [List.zip_append hlen, List.map_append]
      rw [hzip, List.append_assoc]
    · rw [s3, n3, List.map_append, List.append_assoc]
    · intro e he
      rcases List.mem_append.mp he with he' | he'
      · rcases n5 e he' with ⟨k, h1, h2, h3⟩
        exact ⟨k, h1, h2, Nat.lt_of_lt_of_le h3 s4⟩
      · rcases s5 e he' with ⟨k, h1, h2, h3⟩
        exact ⟨k, h1, Nat.le_trans n4 h2, h3⟩
    · simp only [List.map_append]
      refine List.nodup_append.mpr ⟨n6, s6, ?_⟩
      intro x hx hmem
      rcases List.mem_map.mp hx with ⟨e, he, heq⟩
      rcases List.mem_map.mp hmem with ⟨e', he', heq'⟩
      rcases n5 e he with ⟨k, hk1, -, hk3⟩
      rcases s5 e' he' with ⟨k', hk1', hk2', -⟩
      have : mkUuid k = mkUuid k' := by
        have heqq : e.2 = x := heq
        have heqq' : e'.2 = x := heq'
        rw [← hk1, ← hk1', heqq, heqq']
      have := mkUuid_inj this
      omega
end

lemma shapedL_flSnoc {n : FNode} (hn : shapedN n) :
    ∀ l, shapedL l → shapedL (flSnoc l n)
  | .nil, _ => ⟨hn, trivial⟩
  | .cons m l', h => ⟨h.1, shapedL_flSnoc hn l' h.2⟩

lemma shapedL_flAppend {l2 : FList} (h2 : shapedL l2) :
    ∀ l, shapedL l → shapedL (flAppend l l2)
  | .nil, _ => h2
  | .cons m l', h => ⟨h.1, shapedL_flAppend h2 l' h.2⟩

mutual
/-- Appending a shaped child under a container keeps the tree shaped. -/
theorem shaped_appendAtNode (g : String) (child : FNode)
    (hc : shapedN child) :
    ∀ n n', shapedN n → appendAtNode g child n = some n' → shapedN n' := by
  intro n n' hn happ
  rcases n with ⟨d, cs⟩
  by_cases h : d.ntype = some containerT ∧ d.guid = some g
  · have heq : appendAtNode g child (.mk d cs) =
        some (.mk d (flSnoc cs child)) := by
      simp only [appendAtNode]
      exact if_pos h
    rw [heq] at happ
    injection happ with happ
    subst happ
    simp only [shapedN] at hn ⊢
    rcases hn with ⟨h1, h2, h3, h4⟩ | ⟨h1, -, -, -⟩
    · exact Or.inl ⟨h1, h2, h3, shapedL_flSnoc hc cs h4⟩
    · exfalso
      rw [h1] at h
      have := h.1
      injection this with this
      exact absurd this (by decide)
  · have heq : appendAtNode g child (.mk d cs) =
        match appendAtList g child cs with
        | some cs' => some (.mk d cs')
        | none => none := by
      simp only [appendAtNode]
      exact if_neg h
    rw [heq] at happ
    rcases hl : appendAtList g child cs with - | cs'
    · rw [hl] at happ
      cases happ
    · rw [hl] at happ
      injection happ with happ
      subst happ
      simp only [shapedN] at hn ⊢
      rcases hn with ⟨h1, h2, h3, h4⟩ | ⟨h1, hnil, -, -⟩
      · exact Or.inl ⟨h1, h2, h3,
          shaped_appendAtList g child hc cs cs' h4 hl⟩
      · exfalso
        subst hnil
        simp only [appendAtList] at hl
        cases hl
/-- Appending a shaped child inside a shaped forest keeps it shaped. -/
theorem shaped_appendAtList (g : String) (child : FNode)
    (hc : shapedN child) :
    ∀ l l', shapedL l → appendAtList g child l = some l' →
      shapedL l' := by
  intro l l' hl happ
  rcases l with - | ⟨n, ns⟩
  · cases happ
  · simp only [appendAtList] at happ
    rcases hn : appendAtNode g child n with - | n'
    · rw [hn] at happ
      rcases hns : appendAtList g child ns with - | ns'
      · rw [hns] at happ
        cases happ
      · rw [hns] at happ
        injection happ with happ
        subst happ
        exact ⟨hl.1, shaped_appendAtList g child hc ns ns' hl.2 hns⟩
    · rw [hn] at happ
      injection happ with happ
      subst happ
      exact ⟨shaped_appendAtNode g child hc n n' hl.1 hn, hl.2⟩
end

/-- The export's folder containers are shaped under the well-formedness
hypotheses on the folder table. -/
lemma folderNodeOf_shaped {f : Folder} (hid : f.id ∉ specialGuids)
    (hname : f.name ≠ "") : shapedN (folderNodeOf f) :=
  Or.inl ⟨rfl, ⟨f.id, rfl, hid⟩, ⟨f.name, rfl, hname⟩, trivial⟩

/-- Every resolved tag name of a bookmark is the name of a stored tag. -/
lemma tagNamesOf_mem {s : Store} {b : Bookmark} :
    ∀ nm ∈ tagNamesOf s b, ∃ t ∈ s.tags, t.name = nm := by
  intro nm hnm
  simp only [tagNamesOf] at hnm
  rcases List.mem_filterMap.mp hnm with ⟨bt, -, heq⟩
  rcases hfind : s.tags.find? (fun t => t.id = bt.2) with - | t
  · rw [hfind] at heq
    cases heq
  · rw [hfind] at heq
    injection heq with heq
    exact ⟨t, List.mem_of_find?_eq_some hfind, heq⟩

/-- The export's place nodes are shaped under the well-formedness
hypotheses on the bookmark and tag tables. -/
lemma placeNodeOf_shaped {s : Store} {b : Bookmark} (hurl : b.url ≠ "")
    (htags : ∀ t ∈ s.tags, t.name ≠ "" ∧ ',' ∉ t.name.toList ∧
      pyStrip t.name = t.name) : shapedN (placeNodeOf s b) := by
  refine Or.inr ⟨rfl, rfl, ⟨b.url, rfl, hurl⟩, ?_⟩
  rcases hj : decide (joinComma (tagNamesOf s b) = "") with - | -
  · have hj' : ¬ joinComma (tagNamesOf s b) = "" := of_decide_eq_false hj
    refine Or.inr ⟨tagNamesOf s b, ?_, ?_, ?_⟩
    · intro h0
      exact hj' (by rw [h0]; rfl)
    · intro nm hnm
      rcases tagNamesOf_mem nm hnm with ⟨t, ht, rfl⟩
      exact htags t ht
    · show (if joinComma (tagNamesOf s b) = "" then TagsVal.missing
        else TagsVal.str (joinComma (tagNamesOf s b))) =
        TagsVal.str (joinComma (tagNamesOf s b))
      rw [if_neg hj']
  · have hj' : joinComma (tagNamesOf s b) = "" := of_decide_eq_true hj
    refine Or.inl ?_
    show (if joinComma (tagNamesOf s b) = "" then TagsVal.missing
      else TagsVal.str (joinComma (tagNamesOf s b))) = TagsVal.missing
    rw [if_pos hj']

lemma expFolderStep_shaped {st : ExpSt} {f : Folder}
    (hn : shapedN (folderNodeOf f)) (hr : shapedL st.roots)
    (ho : shapedL st.orphans) :
    shapedL (expFolderStep st f).roots ∧
    shapedL (expFolderStep st f).orphans := by
  rcases hp : f.parent_id with - | p
  · have hstep : expFolderStep st f =
        { st with roots := flSnoc st.roots (folderNodeOf f) } := by
      simp only [expFolderStep, hp]
    rw [hstep]
    exact ⟨shapedL_flSnoc hn _ hr, ho⟩
  · by_cases hpne : p ≠ ""
    · rcases htry : tryAttach st p (folderNodeOf f) with - | st'
      · have hstep : expFolderStep st f =
            { st with orphans := flSnoc st.orphans (folderNodeOf f) } := by
          simp only [expFolderStep, hp]
          rw [if_pos hpne, htry]
        rw [hstep]
        exact ⟨hr, shapedL_flSnoc hn _ ho⟩
      · have hstep : expFolderStep st f = st' := by
          simp only [expFolderStep, hp]
          rw [if_pos hpne, htry]
        rw [hstep]
        rcases tryAttach_cases htry with ⟨rs, hrs, hst'⟩ | ⟨-, os, hos,
          hst'⟩
        · subst hst'
          exact ⟨shaped_appendAtList p (folderNodeOf f) hn _ rs hr hrs, ho⟩
        · subst hst'
          exact ⟨hr, shaped_appendAtList p (folderNodeOf f) hn _ os ho hos⟩
    · have hstep : expFolderStep st f =
          { st with roots := flSnoc st.roots (folderNodeOf f) } := by
        simp only [expFolderStep, hp]
        rw [if_neg hpne]
      rw [hstep]
      exact ⟨shapedL_flSnoc hn _ hr, ho⟩

lemma expBookmarkStep_shaped {s : Store} {acc : ExpSt × FList}
    {b : Bookmark} (hn : shapedN (placeNodeOf s b))
    (hr : shapedL acc.1.roots) (ho : shapedL acc.1.orphans)
    (hu : shapedL acc.2) :
    shapedL (expBookmarkStep s acc b).1.roots ∧
    shapedL (expBookmarkStep s acc b).1.orphans ∧
    shapedL (expBookmarkStep s acc b).2 := by
  rcases hf : b.folder_id with - | fid
  · have hstep : expBookmarkStep s acc b =
        (acc.1, flSnoc acc.2 (placeNodeOf s b)) := by
      simp only [expBookmarkStep, hf]
    rw [hstep]
    exact ⟨hr, ho, shapedL_flSnoc hn _ hu⟩
  · by_cases hfne : fid ≠ ""
    · rcases htry : tryAttach acc.1 fid (placeNodeOf s b) with - | st'
      · have hstep : expBookmarkStep s acc b =
            (acc.1, flSnoc acc.2 (placeNodeOf s b)) := by
          simp only [expBookmarkStep, hf]
          rw [if_pos hfne, htry]
        rw [hstep]
        exact ⟨hr, ho, shapedL_flSnoc hn _ hu⟩
      · have hstep : expBookmarkStep s acc b = (st', acc.2) := by
          simp only [expBookmarkStep, hf]
          rw [if_pos hfne, htry]
        rw [hstep]
        rcases tryAttach_cases htry with ⟨rs, hrs, hst'⟩ | ⟨-, os, hos,
          hst'⟩
        · subst hst'
          exact ⟨shaped_appendAtList fid (placeNodeOf s b) hn _ rs hr hrs,
            ho, hu⟩
        · subst hst'
          exact ⟨hr, shaped_appendAtList fid (placeNodeOf s b) hn _ os ho
            hos, hu⟩
    · have hstep : expBookmarkStep s acc b =
          (acc.1, flSnoc acc.2 (placeNodeOf s b)) := by
        simp only [expBookmarkStep, hf]
        rw [if_neg hfne]
      rw [hstep]
      exact ⟨hr, ho, shapedL_flSnoc hn _ hu⟩

lemma expFolders_shaped :
    ∀ (fs : List Folder) (st : ExpSt),
      (∀ f ∈ fs, shapedN (folderNodeOf f)) →
      shapedL st.roots → shapedL st.orphans →
      shapedL (fs.foldl expFolderStep st).roots ∧
      shapedL (fs.foldl expFolderStep st).orphans
  | [], _, _, hr, ho => ⟨hr, ho⟩
  | f :: fs, st, hn, hr, ho => by
    have hstep := expFolderStep_shaped (hn f (List.mem_cons_self _ _)) hr ho
    exact expFolders_shaped fs (expFolderStep st f)
      (fun f' h => hn f' (List.mem_cons.mpr (Or.inr h))) hstep.1 hstep.2

lemma expBookmarks_shaped (s : Store) :
    ∀ (bms : List Bookmark) (acc : ExpSt × FList),
      (∀ b ∈ bms, shapedN (placeNodeOf s b)) →
      shapedL acc.1.roots → shapedL acc.1.orphans → shapedL acc.2 →
      shapedL (bms.foldl (expBookmarkStep s) acc).1.roots ∧
      shapedL (bms.foldl (expBookmarkStep s) acc).1.orphans ∧
      shapedL (bms.foldl (expBookmarkStep s) acc).2
  | [], _, _, hr, ho, hu => ⟨hr, ho, hu⟩
  | b :: bms, acc, hn, hr, ho, hu => by
    have hstep := expBookmarkStep_shaped (hn b (List.mem_cons_self _ _))
      hr ho hu
    exact expBookmarks_shaped s bms (expBookmarkStep s acc b)
      (fun b' h => hn b' (List.mem_cons.mpr (Or.inr h))) hstep.1 hstep.2.1
      hstep.2.2

/-- Under the stores' well-formedness hypotheses, the exported forests are
shaped. -/
lemma exportForests_shaped (s : Store)
    (hfs : ∀ f ∈ s.folders, f.id ∉ specialGuids ∧ f.name ≠ "")
    (hurl : ∀ b ∈ s.bookmarks, b.url ≠ "")
    (htags : ∀ t ∈ s.tags, t.name ≠ "" ∧ ',' ∉ t.name.toList ∧
      pyStrip t.name = t.name) :
    shapedL (exportForests s).1.roots ∧
    shapedL (exportForests s).1.orphans ∧
    shapedL (exportForests s).2 := by
  rw [exportForests_eq]
  have hpermF := List.perm_insertionSort
    (fun a b : Folder => charListLe a.name.toList b.name.toList = true)
    s.folders
  have hpermB := List.perm_insertionSort
    (fun a b : Bookmark => b.created_at ≤ a.created_at) s.bookmarks
  have hF := expFolders_shaped
    (List.insertionSort
      (fun a b => charListLe a.name.toList b.name.toList = true) s.folders)
    ⟨.nil, .nil⟩
    (fun f hf => folderNodeOf_shaped (hfs f (hpermF.mem_iff.mp hf)).1
      (hfs f (hpermF.mem_iff.mp hf)).2)
    trivial trivial
  exact expBookmarks_shaped s _ _
    (fun b hb => placeNodeOf_shaped (hurl b (hpermB.mem_iff.mp hb)) htags)
    hF.1 hF.2 trivial

/-- A special-guid container is pass-through: children are processed in the
current scope. -/
lemma processNode_special (fav : String → Option String) (d : FData)
    (cs : FNodeL) (π : Option String) (st : ImportState)
    (hc : d.ntype = some containerT)
    (hs : (d.guid.getD "") ∈ specialGuids) :
    processNode fav (.mk d cs) π st = processList fav cs π st := by
  simp only [processNode]
  rw [if_pos hc, if_pos hs]

/-- Importing an exported tree runs the import over the toolbar children:
the root and toolbar wrappers are special pass-through containers. -/
lemma import_export_eq (fav : String → Option String) (s : Store)
    (st : ImportState) :
    import_from_firefox_json fav (export_to_firefox_json s) st =
      processList fav
        (flAppend (exportForests s).1.roots (exportForests s).2) none st := by
  simp only [import_from_firefox_json, export_to_firefox_json]
  rw [processNode_special fav _ _ none st rfl (by decide)]
  simp only [processList]
  rw [processNode_special fav _ _ none st rfl (by decide)]

/-- The unorganized list holds no containers. -/
lemma flattenCL_unorg (s : Store) :
    flattenCL none (exportForests s).2 = [] := by
  have hg : cGuidsL (exportForests s).2 = [] := by
    rw [exportForests_eq]
    exact (expBookmarks_guids s _ _).2.2
  have h2 := flattenCL_fst none (exportForests s).2
  rw [hg] at h2
  exact List.map_eq_nil.mp h2

lemma zip_assoc (φ : String → String) :
    ∀ (entries : List CEntry) (m : List (String × String)),
      m.map (fun e => e.1) = entries.map (fun e => e.1) →
      (∀ e ∈ m, φ e.1 = e.2) →
      entries.zip (m.map (fun e => e.2)) =
        entries.map (fun e => (e, φ e.1))
  | [], [], _, _ => rfl
  | [], e :: m, hfst, _ => by cases hfst
  | e :: entries, [], hfst, _ => by cases hfst
  | ent :: entries, me :: m, hfst, hφ => by
    simp only [List.map_cons] at hfst ⊢
    injection hfst with h1 h2
    simp only [List.zip_cons_cons]
    have hh : φ ent.1 = me.2 := by
      rw [← h1]
      exact hφ me (List.mem_cons_self _ _)
    rw [hh]
    rw [zip_assoc φ entries m h2
      (fun e he => hφ e (List.mem_cons.mpr (Or.inr he)))]

/-- Reading the exported place data back recovers the bookmark's round-trip
projection. -/
lemma placeProj_placeDataOf (s : Store) (b : Bookmark)
    (hdesc : b.description.getD "" ≠ "")
    (htags : ∀ t ∈ s.tags, t.name ≠ "" ∧ ',' ∉ t.name.toList ∧
      pyStrip t.name = t.name) :
    placeProj (placeDataOf s b) = bmProj s b := by
  rcases hd : b.description with - | dsc
  · rw [hd] at hdesc
    exact absurd rfl hdesc
  · have hdne : dsc ≠ "" := by
      rw [hd] at hdesc
      simpa using hdesc
    have hanno : (match b.description with
        | some d => if d ≠ "" then [⟨some descAnnoKey, some d⟩] else []
        | none => ([] : List Anno)) = [⟨some descAnnoKey, some dsc⟩] := by
      rw [hd]
      exact if_pos hdne
    have hdescpart :
        ((((placeDataOf s b).annos.find?
            (fun a => a.name = some descAnnoKey)).map
          (fun a => a.value.getD "")).getD "") = dsc := by
      show ((((match b.description with
          | some d => if d ≠ "" then [(⟨some descAnnoKey, some d⟩ : Anno)]
              else []
          | none => ([] : List Anno)).find?
            (fun a : Anno => a.name = some descAnnoKey)).map
          (fun a : Anno => a.value.getD "")).getD "") = dsc
      rw [hanno]
      rfl
    have htagpart : (match (placeDataOf s b).tags with
        | TagsVal.missing => []
        | TagsVal.str s0 => if s0 = "" then [] else splitComma s0
        | TagsVal.arr l => if l.isEmpty then [] else l) =
        tagNamesOf s b := by
      by_cases hj : joinComma (tagNamesOf s b) = ""
      · have hjn : tagNamesOf s b = [] := by
          rcases hnm : tagNamesOf s b with - | ⟨nm0, rest⟩
          · rfl
          · exfalso
            refine joinComma_ne_empty (nm0 :: rest) (by simp) ?_ (by
              rw [← hnm]; exact hj)
            intro x hx
            rcases tagNamesOf_mem x (by rw [hnm]; exact hx) with
              ⟨t, ht, rfl⟩
            exact (htags t ht).1
        have htv : (placeDataOf s b).tags = TagsVal.missing := by
          show (if joinComma (tagNamesOf s b) = "" then TagsVal.missing
            else TagsVal.str (joinComma (tagNamesOf s b))) =
            TagsVal.missing
          rw [if_pos hj]
        rw [htv, hjn]
      · have hnm : tagNamesOf s b ≠ [] := by
          intro h0
          exact hj (by rw [h0]; rfl)
        have htv : (placeDataOf s b).tags =
            TagsVal.str (joinComma (tagNamesOf s b)) := by
          show (if joinComma (tagNamesOf s b) = "" then TagsVal.missing
            else TagsVal.str (joinComma (tagNamesOf s b))) =
            TagsVal.str (joinComma (tagNamesOf s b))
          rw [if_neg hj]
        rw [htv]
        show (if joinComma (tagNamesOf s b) = "" then []
          else splitComma (joinComma (tagNamesOf s b))) = tagNamesOf s b
        rw [if_neg hj]
        refine splitComma_joinComma _ hnm ?_
        intro x hx
        rcases tagNamesOf_mem x hx with ⟨t, ht, rfl⟩
        exact (htags t ht).2.1
    show ((placeDataOf s b).uri.getD "",
      (placeDataOf s b).title.getD ((placeDataOf s b).uri.getD ""),
      some ((((placeDataOf s b).annos.find?
          (fun a => a.name = some descAnnoKey)).map
        (fun a => a.value.getD "")).getD ""),
      (match (placeDataOf s b).tags with
        | TagsVal.missing => []
        | TagsVal.str s0 => if s0 = "" then [] else splitComma s0
        | TagsVal.arr l => if l.isEmpty then [] else l)) =
      (b.url, b.title, b.description, tagNamesOf s b)
    rw [hdescpart, htagpart, hd]
    rfl

/-- Claim C2 (corrected): the round trip preserves folder names, folder
parent relationships, bookmark urls/titles/descriptions and tag-name
associations only on well-formed stores whose parent names sort strictly
before their children's (otherwise folders are dropped, see the
counterexample); identifiers are renamed along an injective map `φ`. -/
theorem c2_round_trip (fav : String → Option String) (s : Store)
    (hids : (s.folders.map (fun f => f.id)).Nodup)
    (hfspec : ∀ f ∈ s.folders, f.id ∉ specialGuids ∧ f.name ≠ "")
    (hres : ∀ f ∈ s.folders, ∀ p ∈ f.parent_id.toList, p ≠ "" ∧
      ∃ q ∈ s.folders, q.id = p ∧
        charListLt q.name.toList f.name.toList = true)
    (hurl : ∀ b ∈ s.bookmarks, b.url ≠ "")
    (hdesc : ∀ b ∈ s.bookmarks, b.description.getD "" ≠ "")
    (htags : ∀ t ∈ s.tags, t.name ≠ "" ∧ ',' ∉ t.name.toList ∧
      pyStrip t.name = t.name) :
    ∃ φ : String → String,
      (∀ a ∈ s.folders, ∀ b ∈ s.folders, φ a.id = φ b.id → a.id = b.id) ∧
      (import_from_firefox_json fav (export_to_firefox_json s)
        emptyImportState).store.folders.Perm
        (s.folders.map (fun f => ⟨φ f.id, f.name, f.parent_id.map φ, 0⟩)) ∧
      ((import_from_firefox_json fav (export_to_firefox_json s)
        emptyImportState).store.bookmarks.map
          (bmProj (import_from_firefox_json fav (export_to_firefox_json s)
            emptyImportState).store)).Perm
        (s.bookmarks.map (bmProj s)) := by
  have hshape := exportForests_shaped s hfspec hurl htags
  have hforest : shapedL
      (flAppend (exportForests s).1.roots (exportForests s).2) :=
    shapedL_flAppend hshape.2.2 _ hshape.1
  have hres' : ∀ f ∈ s.folders, ∀ p, f.parent_id = some p → p ≠ "" ∧
      ∃ q ∈ s.folders, q.id = p ∧
        charListLt q.name.toList f.name.toList = true := by
    intro f hf p hp
    refine hres f hf p ?_
    rw [hp]
    exact List.mem_singleton.mpr rfl
  have hspec := exportForests_spec s hres'
  have hflatC : (flattenCL none
      (flAppend (exportForests s).1.roots (exportForests s).2)).Perm
      (s.folders.map folderEntry) := by
    rw [flattenCL_flAppend, flattenCL_unorg, List.append_nil]
    exact hspec.2.1
  have hflatP : (flattenPL
      (flAppend (exportForests s).1.roots (exportForests s).2)).Perm
      (s.bookmarks.map (fun b => placeDataOf s b)) := by
    rw [flattenPL_flAppend]
    exact hspec.2.2
  have hempty : idsFresh emptyImportState :=
    ⟨fun t ht => absurd ht (List.not_mem_nil t),
     fun b hb => absurd hb (List.not_mem_nil b),
     List.nodup_nil, List.nodup_nil,
     fun bt hbt => absurd hbt (List.not_mem_nil bt)⟩
  rcases processList_spec fav
    (flAppend (exportForests s).1.roots (exportForests s).2) none none
    emptyImportState hforest hempty (Or.inl rfl) with ⟨m, out⟩
  simp only [ImpOut] at out
  rcases out with ⟨o1, o2, o3, -, -, o6, -⟩
  have hperm2 := hflatC.map (fun e : CEntry => e.1)
  rw [List.map_map] at hperm2
  have hmnodup : (m.map (fun e => e.1)).Nodup := by
    rw [o1]
    exact hperm2.nodup_iff.mpr hids
  refine ⟨fun gid => ((m.find? (fun e => e.1 = gid)).map
    (fun e => e.2)).getD gid, ?_, ?_, ?_⟩
  · -- injectivity on stored folder ids
    intro a ha b hb hEq
    have hain : a.id ∈ m.map (fun e => e.1) := by
      rw [o1]
      exact hperm2.mem_iff.mpr (List.mem_map.mpr ⟨a, ha, rfl⟩)
    have hbin : b.id ∈ m.map (fun e => e.1) := by
      rw [o1]
      exact hperm2.mem_iff.mpr (List.mem_map.mpr ⟨b, hb, rfl⟩)
    rcases List.mem_map.mp hain with ⟨ea, hea, heqa⟩
    rcases List.mem_map.mp hbin with ⟨eb, heb, heqb⟩
    have heqa' : ea.1 = a.id := heqa
    have heqb' : eb.1 = b.id := heqb
    have hφa : ((m.find? (fun e => e.1 = a.id)).map
        (fun e => e.2)).getD a.id = ea.2 := by
      rw [← heqa', find?_pair_fst m hmnodup ea hea]
      rfl
    have hφb : ((m.find? (fun e => e.1 = b.id)).map
        (fun e => e.2)).getD b.id = eb.2 := by
      rw [← heqb', find?_pair_fst m hmnodup eb heb]
      rfl
    have hsnd : ea.2 = eb.2 := by
      rw [← hφa, ← hφb]
      exact hEq
    have heab : ea = eb :=
      List.inj_on_of_nodup_map o6 hea heb hsnd
    rw [← heqa', ← heqb', heab]
  · -- folders
    have hρm : ∀ e ∈ m, (fun o : Option String => o.bind (fun gid =>
        (m.find? (fun x => x.1 = gid)).map (fun x => x.2)))
        (some e.1) = some e.2 := by
      intro e he
      show (m.find? (fun x => x.1 = e.1)).map (fun x => x.2) = some e.2
      rw [find?_pair_fst m hmnodup e he]
      rfl
    have hφm : ∀ e ∈ m, ((m.find? (fun x => x.1 = e.1)).map
        (fun x => x.2)).getD e.1 = e.2 := by
      intro e he
      rw [find?_pair_fst m hmnodup e he]
      rfl
    have hfold := o2 (fun o : Option String => o.bind (fun gid =>
      (m.find? (fun x => x.1 = gid)).map (fun x => x.2))) rfl hρm
    have hfold2 : (processList fav
        (flAppend (exportForests s).1.roots (exportForests s).2) none
        emptyImportState).store.folders =
        impFolderRows (fun o : Option String => o.bind (fun gid =>
          (m.find? (fun x => x.1 = gid)).map (fun x => x.2)))
          (flattenCL none
            (flAppend (exportForests s).1.roots (exportForests s).2))
          (m.map (fun e => e.2)) := by
      rw [hfold]
      rfl
    have hzip := zip_assoc (fun gid => ((m.find? (fun e => e.1 = gid)).map
      (fun e => e.2)).getD gid)
      (flattenCL none
        (flAppend (exportForests s).1.roots (exportForests s).2)) m o1
      (fun e he => hφm e he)
    have hrows : impFolderRows (fun o : Option String => o.bind (fun gid =>
        (m.find? (fun x => x.1 = gid)).map (fun x => x.2)))
        (flattenCL none
          (flAppend (exportForests s).1.roots (exportForests s).2))
        (m.map (fun e => e.2)) =
        (flattenCL none
          (flAppend (exportForests s).1.roots (exportForests s).2)).map
          (fun e => ⟨((m.find? (fun x => x.1 = e.1)).map
              (fun x => x.2)).getD e.1, e.2.1.getD "Untitled Folder",
            e.2.2.bind (fun gid => (m.find? (fun x => x.1 = gid)).map
              (fun x => x.2)), 0⟩) := by
      simp only [impFolderRows]
      rw [hzip, List.map_map]
      rfl
    rw [import_export_eq, hfold2, hrows]
    have hp1 := hflatC.map (fun e : CEntry =>
      (⟨((m.find? (fun x => x.1 = e.1)).map (fun x => x.2)).getD e.1,
        e.2.1.getD "Untitled Folder",
        e.2.2.bind (fun gid => (m.find? (fun x => x.1 = gid)).map
          (fun x => x.2)), 0⟩ : Folder))
    rw [List.map_map] at hp1
    refine hp1.trans ?_
    have hcg : ∀ f ∈ s.folders,
        (⟨((m.find? (fun x => x.1 = f.id)).map (fun x => x.2)).getD f.id,
          f.name, f.parent_id.bind (fun gid =>
            (m.find? (fun x => x.1 = gid)).map (fun x => x.2)), 0⟩ :
          Folder) =
        ⟨((m.find? (fun e => e.1 = f.id)).map (fun e => e.2)).getD f.id,
          f.name, f.parent_id.map (fun gid =>
            ((m.find? (fun e => e.1 = gid)).map (fun e => e.2)).getD gid),
          0⟩ := by
      intro f hf
      rcases hpid : f.parent_id with - | p
      · rfl
      · have hsome := (hres' f hf p hpid).2
        rcases hsome with ⟨q, hq, hqid, -⟩
        have hpin : p ∈ m.map (fun e => e.1) := by
          rw [o1]
          refine hperm2.mem_iff.mpr (List.mem_map.mpr ⟨q, hq, hqid⟩)
        rcases List.mem_map.mp hpin with ⟨e, he, heqe⟩
        have heqe' : e.1 = p := heqe
        have hfind := find?_pair_fst m hmnodup e he
        rw [heqe'] at hfind
        have hpar2 : ((some p : Option String).bind (fun gid =>
            (m.find? (fun x => x.1 = gid)).map (fun x => x.2))) =
            ((some p : Option String).map (fun gid =>
              ((m.find? (fun e => e.1 = gid)).map (fun e => e.2)).getD
                gid)) := by
          show (m.find? (fun x => x.1 = p)).map (fun x => x.2) =
            some (((m.find? (fun e => e.1 = p)).map (fun e => e.2)).getD p)
          rw [hfind]
          rfl
        rw [hpar2]
    have heq := List.map_congr_left hcg
    rw [← heq]
    exact List.Perm.refl _
  · -- bookmarks
    have ho3 : (processList fav
        (flAppend (exportForests s).1.roots (exportForests s).2) none
        emptyImportState).store.bookmarks.map
        (bmProj (processList fav
          (flAppend (exportForests s).1.roots (exportForests s).2) none
          emptyImportState).store) =
        (flattenPL (flAppend (exportForests s).1.roots
          (exportForests s).2)).map placeProj := by
      rw [o3]
      rfl
    rw [import_export_eq, ho3]
    have hp2 := hflatP.map placeProj
    rw [List.map_map] at hp2
    refine hp2.trans ?_
    have heq := List.map_congr_left (fun b hb =>
      placeProj_placeDataOf s b (hdesc b hb) htags)
    rw [← heq]
    exact List.Perm.refl _

/-- Witness for C2: a store with two folders (parent "aa" before child
"bb"), one tag and one tagged, described, pinned bookmark satisfies all
round-trip hypotheses. -/
theorem c2_witness :
    ∃ φ : String → String,
      (∀ a ∈ (⟨[⟨"p", "aa", none, 0⟩, ⟨"c", "bb", some "p", 0⟩],
          [⟨"t1", "dev", 0⟩],
          [⟨"b1", "https://x", "X", some "d", none, some "p", true, 5⟩],
          [("b1", "t1")]⟩ : Store).folders,
        ∀ b ∈ (⟨[⟨"p", "aa", none, 0⟩, ⟨"c", "bb", some "p", 0⟩],
          [⟨"t1", "dev", 0⟩],
          [⟨"b1", "https://x", "X", some "d", none, some "p", true, 5⟩],
          [("b1", "t1")]⟩ : Store).folders,
        φ a.id = φ b.id → a.id = b.id) ∧
      (import_from_firefox_json (fun _ => none)
        (export_to_firefox_json
          ⟨[⟨"p", "aa", none, 0⟩, ⟨"c", "bb", some "p", 0⟩],
            [⟨"t1", "dev", 0⟩],
            [⟨"b1", "https://x", "X", some "d", none, some "p", true, 5⟩],
            [("b1", "t1")]⟩)
        emptyImportState).store.folders.Perm
        (([⟨"p", "aa", none, 0⟩, ⟨"c", "bb", some "p", 0⟩] :
          List Folder).map
          (fun f => ⟨φ f.id, f.name, f.parent_id.map φ, 0⟩)) ∧
      ((import_from_firefox_json (fun _ => none)
        (export_to_firefox_json
          ⟨[⟨"p", "aa", none, 0⟩, ⟨"c", "bb", some "p", 0⟩],
            [⟨"t1", "dev", 0⟩],
            [⟨"b1", "https://x", "X", some "d", none, some "p", true, 5⟩],
            [("b1", "t1")]⟩)
        emptyImportState).store.bookmarks.map
          (bmProj (import_from_firefox_json (fun _ => none)
            (export_to_firefox_json
              ⟨[⟨"p", "aa", none, 0⟩, ⟨"c", "bb", some "p", 0⟩],
                [⟨"t1", "dev", 0⟩],
                [⟨"b1", "https://x", "X", some "d", none, some "p", true,
                  5⟩],
                [("b1", "t1")]⟩)
            emptyImportState).store)).Perm
        (([⟨"b1", "https://x", "X", some "d", none, some "p", true, 5⟩] :
          List Bookmark).map
          (bmProj ⟨[⟨"p", "aa", none, 0⟩, ⟨"c", "bb", some "p", 0⟩],
            [⟨"t1", "dev", 0⟩],
            [⟨"b1", "https://x", "X", some "d", none, some "p", true, 5⟩],
            [("b1", "t1")]⟩)) :=
  c2_round_trip (fun _ => none)
    ⟨[⟨"p", "aa", none, 0⟩, ⟨"c", "bb", some "p", 0⟩],
      [⟨"t1", "dev", 0⟩],
      [⟨"b1", "https://x", "X", some "d", none, some "p", true, 5⟩],
      [("b1", "t1")]⟩
    (by decide) (by decide) (by decide) (by decide) (by decide) (by decide)
